import Mathlib

/-!
# fuga-id: the sequence-alignment core

A shallow embedding of the alignment engine of `hromerovelo/fuga-id`:

* `src/fuga-id/analysis/global_approximate_alignment.cpp`
  (`min_of_three`, `get_gap_penalty`, `get_alignment_score`, `global_alignment`, `main`),
  namespace `GlobalAlignment`;
* `src/fuga-id/queries/src/approximate_alignment.cpp`
  (`get_alignment_score`, `get_gap_penalty`, `update_top_alignments`,
  `approximate_alignment`, `main`) with `shared/data_structures.hpp` (`Cell`,
  `AlignmentResult`), namespace `ApproximateAlignment`;
* `src/fuga-id/queries/src/shared/alignment_utils.cpp` (`load_cost_map`,
  `get_cost_map_file`), namespace `AlignmentUtils`, `shared/file_operations.cpp`
  (`load_file`, `get_search_files`), namespace `FileOperations`, and `shared/cli_utils.cpp`
  (`validate_args`), namespace `CliUtils`.

Modelling conventions.

* A C++ `char` is a `Char`, a `std::string` a `List Char`, a `std::vector<T>` a `List T` that is
  read with `List.getD` and written with `List.set`; a `for (k = 1; k <= n; ++k)` loop is a
  `List.foldl` over `List.range' 1 n` (the list `1, 2, ..., n`).
* A C++ `float` is a rational number: arithmetic is exact, there is no rounding, NaN or infinity.
* A C++ `int` is an unbounded `Int`; the implicit conversion `float → int` is `truncToInt`
  (truncation toward zero), the conversion `int → float` is the cast `Int → ℚ`, which is what
  binary32 holds for whole numbers up to `2^24 = 16777216` in absolute value. The `int`
  fallback of the local `get_alignment_score` is converted with `float_of_int`, the nearest
  binary32 value. Theorems whose conclusion depends on larger values carry a bound;
  `GlobalAlignment.global_alignment_with truncToInt32` is `global_alignment` with the 32-bit
  conversion of the compiled program.
* A `std::unordered_map` is an association list read with `List.lookup`; `at` on a missing key
  (a thrown `std::out_of_range`) is the result `none`.
* A file system is a function from file names to contents (`none`: the file cannot be opened),
  a binary file is a list of bytes, an exception that escapes `main` is `Except.error`.
* The subscripts `v[i]` of the source are unchecked; the definitions named `*_checked` repeat
  the loops of `approximate_alignment` with every subscript checked against the bounds, an
  access out of range being the result `none`.
-/

/-- A sequence of symbols (`std::string`). -/
abbrev Sequence := List Char

/-- The cost table `unordered_map<char, unordered_map<char, float>>`. -/
abbrev CostMap := List (Char × List (Char × ℚ))

/-- The C++ implicit conversion from `float` to `int`: truncation toward zero. -/
def truncToInt (x : ℚ) : Int := if 0 ≤ x then ⌊x⌋ else ⌈x⌉

/-- The number of bits by which a natural number exceeds 24 bits: 0 below `2^24`, and
otherwise one more than for its half; `fuel` bounds the recursion. -/
def excess_bits : Nat → Nat → Nat
  | 0, _ => 0
  | fuel + 1, n => if n < 16777216 then 0 else excess_bits fuel (n / 2) + 1

/-- The binary32 value nearest to the natural number `n`, ties to the even significand: the
leading 24 bits of `n`, rounded on the `k` bits that are dropped. -/
def float_of_nat (n : Nat) : ℚ :=
  let k := excess_bits n n
  let q := n / 2 ^ k
  let r := n % 2 ^ k
  let up : Bool := decide (2 ^ k < 2 * r) || (decide (2 * r = 2 ^ k) && decide (q % 2 = 1))
  (((if up then q + 1 else q) * 2 ^ k : Nat) : ℚ)

/-- The C++ implicit conversion from `int` to `float`: exact up to `2^24` in absolute value,
and otherwise the nearest binary32 value. -/
def float_of_int (z : Int) : ℚ :=
  if z.natAbs ≤ 16777216 then (z : ℚ)
  else if 0 ≤ z then float_of_nat z.natAbs else -float_of_nat z.natAbs

namespace GlobalAlignment

/-- `int min_of_three(int a, int b, int c)`: `min(min(a, b), c)`. -/
def min_of_three (a b c : Int) : Int := min (min a b) c

/-- `float get_gap_penalty(const string &feature_type)`: 1.0 on every branch. -/
def get_gap_penalty (feature_type : String) : ℚ :=
  if feature_type = "chromatic" then 1
  else if feature_type = "diatonic" then 1
  else if feature_type = "rhythmic" then 1
  else 1

/-- `float get_alignment_score(s1_char, s2_char, cost_map, generic_mismatch)`:
`cost_map.at(s1_char).at(s2_char)`, and `generic_mismatch` when either `at` throws
`out_of_range`. -/
def get_alignment_score (s1_char s2_char : Char) (cost_map : CostMap) (generic_mismatch : ℚ) : ℚ :=
  match cost_map.lookup s1_char with
  | none => generic_mismatch
  | some inner =>
    match inner.lookup s2_char with
    | none => generic_mismatch
    | some v => v

/-- Body of the inner loop of `global_alignment` (lines 192-196) for the indices `i`, `j`:
the three `float` candidates are converted to `int` on the call of `min_of_three`, whose `int`
result is stored back into the `float` vector. -/
def inner_body (score_1_feature score_2_feature : Sequence) (cost_map : CostMap)
    (gap_penalty : ℚ) (i : Nat) (prev_column : List ℚ) (current_column : List ℚ) (j : Nat) :
    List ℚ :=
  let score := get_alignment_score (score_1_feature.getD (i - 1) default)
    (score_2_feature.getD (j - 1) default) cost_map gap_penalty
  current_column.set j
    ((min_of_three (truncToInt (prev_column.getD (j - 1) 0 + score))
        (truncToInt (prev_column.getD j 0 + gap_penalty))
        (truncToInt (current_column.getD (j - 1) 0 + gap_penalty)) : Int) : ℚ)

/-- Body of the outer loop of `global_alignment` (lines 188-200) on the pair
`(prev_column, current_column)`. -/
def outer_body (score_1_feature score_2_feature : Sequence) (cost_map : CostMap)
    (gap_penalty : ℚ) (st : List ℚ × List ℚ) (i : Nat) : List ℚ × List ℚ :=
  let current_column := st.2.set 0 (i : ℚ)
  let current_column := (List.range' 1 score_2_feature.length).foldl
    (inner_body score_1_feature score_2_feature cost_map gap_penalty i st.1) current_column
  (current_column, current_column)

/-- `float global_alignment(score_1_feature, score_2_feature, cost_map, gap_penalty)`. -/
def global_alignment (score_1_feature score_2_feature : Sequence) (cost_map : CostMap)
    (gap_penalty : ℚ) : ℚ :=
  let f1_size := score_1_feature.length
  let f2_size := score_2_feature.length
  let prev_column : List ℚ := (List.range (f2_size + 1)).map (fun (k : Nat) => (k : ℚ))
  let current_column := prev_column
  let st := (List.range' 1 f1_size).foldl
    (outer_body score_1_feature score_2_feature cost_map gap_penalty)
    (prev_column, current_column)
  st.2.getD f2_size 0

/-- Column `i` of the matrix the rolling columns sweep, given column `i - 1` (`prev`):
entry 0 is `i`, entry `j + 1` is the `min_of_three` of the three converted candidates. -/
def nextColumn (s1 s2 : Sequence) (cm : CostMap) (g : ℚ) (i : Nat) (prev : Nat → ℚ) : Nat → ℚ
  | 0 => (i : ℚ)
  | j + 1 =>
    ((min_of_three
        (truncToInt (prev j + get_alignment_score (s1.getD (i - 1) default) (s2.getD j default) cm g))
        (truncToInt (prev (j + 1) + g))
        (truncToInt (nextColumn s1 s2 cm g i prev j + g)) : Int) : ℚ)

/-- Entry `(i, j)` of the matrix computed by `global_alignment`: what `current_column[j]` holds
after the outer iteration `i` (column 0 is the `iota` initialisation). -/
def dpCell (s1 s2 : Sequence) (cm : CostMap) (g : ℚ) : Nat → Nat → ℚ
  | 0 => fun j => (j : ℚ)
  | i + 1 => nextColumn s1 s2 cm g (i + 1) (dpCell s1 s2 cm g i)

/-- Column `i` of the full matrix as the specification words it, given column `i - 1`: no
conversion to `int`, the minimum is taken over the exact values. -/
def specNextColumn (A B : Sequence) (cm : CostMap) (gapCost : ℚ) (i : Nat) (prev : Nat → ℚ) :
    Nat → ℚ
  | 0 => (i : ℚ)
  | j + 1 =>
    min (min (prev j + get_alignment_score (A.getD (i - 1) default) (B.getD j default) cm gapCost)
        (prev (j + 1) + gapCost))
      (specNextColumn A B cm gapCost i prev j + gapCost)

/-- The full matrix `D` of the specification: `D(i,0) = i`, `D(0,j) = j` and
`D(i,j) = min(D(i-1,j-1) + substCost(A[i],B[j]), D(i-1,j) + gapCost, D(i,j-1) + gapCost)`. -/
def specMatrix (A B : Sequence) (cm : CostMap) (gapCost : ℚ) : Nat → Nat → ℚ
  | 0 => fun j => (j : ℚ)
  | i + 1 => specNextColumn A B cm gapCost (i + 1) (specMatrix A B cm gapCost i)

/-- The largest `int` (32 bits). -/
def int_max : Int := 2147483647

/-- The smallest `int` (32 bits). -/
def int_min : Int := -2147483648

/-- The conversion `float → int` as the compiled program performs it on x86-64 (the
instruction `cvttss2si`): truncation toward zero when the truncated value is an `int`, and
`INT_MIN` when it is out of range, a case the C++ standard leaves undefined. -/
def truncToInt32 (x : ℚ) : Int :=
  if int_min ≤ truncToInt x ∧ truncToInt x ≤ int_max then truncToInt x else int_min

/-- The body of the inner loop of `global_alignment` (lines 192-196) with the conversion
`float → int` of the call of `min_of_three` as the parameter `to_int`. -/
def inner_body_with (to_int : ℚ → Int) (score_1_feature score_2_feature : Sequence)
    (cost_map : CostMap) (gap_penalty : ℚ) (i : Nat) (prev_column : List ℚ)
    (current_column : List ℚ) (j : Nat) : List ℚ :=
  let score := get_alignment_score (score_1_feature.getD (i - 1) default)
    (score_2_feature.getD (j - 1) default) cost_map gap_penalty
  current_column.set j
    ((min_of_three (to_int (prev_column.getD (j - 1) 0 + score))
        (to_int (prev_column.getD j 0 + gap_penalty))
        (to_int (current_column.getD (j - 1) 0 + gap_penalty)) : Int) : ℚ)

/-- The body of the outer loop of `global_alignment` (lines 188-200) with the conversion
`float → int` as a parameter. -/
def outer_body_with (to_int : ℚ → Int) (score_1_feature score_2_feature : Sequence)
    (cost_map : CostMap) (gap_penalty : ℚ) (st : List ℚ × List ℚ) (i : Nat) :
    List ℚ × List ℚ :=
  let current_column := st.2.set 0 (i : ℚ)
  let current_column := (List.range' 1 score_2_feature.length).foldl
    (inner_body_with to_int score_1_feature score_2_feature cost_map gap_penalty i st.1)
    current_column
  (current_column, current_column)

/-- The function `global_alignment` with the conversion `float → int` as a parameter:
`global_alignment_with truncToInt` is `global_alignment`, `global_alignment_with truncToInt32`
is the function with the 32-bit conversion of the compiled program. -/
def global_alignment_with (to_int : ℚ → Int) (score_1_feature score_2_feature : Sequence)
    (cost_map : CostMap) (gap_penalty : ℚ) : ℚ :=
  let f1_size := score_1_feature.length
  let f2_size := score_2_feature.length
  let prev_column : List ℚ := (List.range (f2_size + 1)).map (fun (k : Nat) => (k : ℚ))
  let current_column := prev_column
  let st := (List.range' 1 f1_size).foldl
    (outer_body_with to_int score_1_feature score_2_feature cost_map gap_penalty)
    (prev_column, current_column)
  st.2.getD f2_size 0

/-- A cost table with a cost beyond the range of `int`: substituting `a` by `b` costs
`3e9`, a binary32 value (`11718750 * 2^8`). -/
def hugeCostMap : CostMap := [('a', [('b', 3000000000)])]

/-- A cost table with one fractional entry: substituting `a` by `b` costs one half. -/
def halfCostMap : CostMap := [('a', [('a', 0), ('b', 1 / 2)]), ('b', [('a', 1 / 2), ('b', 0)])]

end GlobalAlignment

namespace ApproximateAlignment

/-- `struct Cell` (`shared/data_structures.hpp`): a cell of the dynamic-programming matrix. -/
structure Cell where
  /-- Alignment score for this cell (`float score = 0`). -/
  score : ℚ := 0
  /-- Origin position in the text (`size_t text_origin_pos = 0`). -/
  text_origin_pos : Nat := 0
  /-- Origin position in the query (`size_t query_origin_pos = 0`). -/
  query_origin_pos : Nat := 0
deriving DecidableEq

instance : Inhabited Cell := ⟨{ score := 0, text_origin_pos := 0, query_origin_pos := 0 }⟩

/-- `struct AlignmentResult` (`shared/data_structures.hpp`). -/
structure AlignmentResult where
  /-- Score of the alignment (`float`). -/
  alignment_score : ℚ
  /-- Origin of the alignment `(text_origin_pos, query_origin_pos)` (`pair<int, int>`). -/
  origin_position : Int × Int
  /-- Ending position of the alignment in the text and query (`pair<int, int>`). -/
  end_position : Int × Int
  /-- Identifier of the musical sheet of the alignment. -/
  retrieved_score_id : String
deriving DecidableEq

instance : Inhabited AlignmentResult :=
  ⟨{ alignment_score := 0, origin_position := (0, 0), end_position := (0, 0),
     retrieved_score_id := "" }⟩

/-- `float get_alignment_score(text_char, query_char, cost_map, const int generic_mismatch)`:
`cost_map.at(text_char).at(query_char)`, and the `int` fallback converted to `float`
(`float_of_int`) when either `at` throws `out_of_range`. -/
def get_alignment_score (text_char query_char : Char) (cost_map : CostMap)
    (generic_mismatch : Int) : ℚ :=
  match cost_map.lookup text_char with
  | none => float_of_int generic_mismatch
  | some inner =>
    match inner.lookup query_char with
    | none => float_of_int generic_mismatch
    | some v => v

/-- `int get_gap_penalty(const string &search_feature)`: -1 on every branch. -/
def get_gap_penalty (search_feature : String) : Int :=
  if search_feature = "-c" then -1
  else if search_feature = "-d" then -1
  else -1

/-- The loop of `std::lower_bound` over `[first, first + len)` with the comparator
`a.alignment_score > b.alignment_score`: the index of the first element that does not compare
greater than `result`. The range halves on every iteration, `fuel` bounds their number. -/
def lower_bound_loop (top_alignments : List AlignmentResult) (result : AlignmentResult) :
    Nat → Nat → Nat → Nat
  | 0, first, _ => first
  | fuel + 1, first, len =>
    if len = 0 then first
    else
      let half := len / 2
      let middle := first + half
      if (top_alignments.getD middle default).alignment_score > result.alignment_score then
        lower_bound_loop top_alignments result fuel (middle + 1) (len - half - 1)
      else
        lower_bound_loop top_alignments result fuel first half

/-- `lower_bound(top_alignments.begin(), top_alignments.end(), result, comp)` as an index. -/
def lower_bound (top_alignments : List AlignmentResult) (result : AlignmentResult) : Nat :=
  lower_bound_loop top_alignments result top_alignments.length 0 top_alignments.length

/-- `void update_top_alignments(vector<AlignmentResult> &top_alignments, result)`: insert at
the lower bound when there is room or the insertion point is not the end, then drop the last
element if the vector has more than 5. -/
def update_top_alignments (top_alignments : List AlignmentResult) (result : AlignmentResult) :
    List AlignmentResult :=
  let it := lower_bound top_alignments result
  if top_alignments.length < 5 ∨ it ≠ top_alignments.length then
    let inserted := top_alignments.take it ++ result :: top_alignments.drop it
    if inserted.length > 5 then inserted.dropLast else inserted
  else top_alignments

/-- The three-way choice of lines 232-253: `prev_diagonal` is the diagonal predecessor, `left`
is `column[j - 1]`, `above` is `column[j]` before the update. The `float` sums are converted to
`int`; the diagonal wins ties, then the insertion. -/
def choose_cell (prev_diagonal left above : Cell) (align_score gap_penalty : Int) : Cell :=
  let diagonal_score : Int := truncToInt (prev_diagonal.score + (align_score : ℚ))
  let insertion_score : Int := truncToInt (left.score + (gap_penalty : ℚ))
  let deletion_score : Int := truncToInt (above.score + (gap_penalty : ℚ))
  if diagonal_score ≥ insertion_score ∧ diagonal_score ≥ deletion_score then
    { score := (diagonal_score : ℚ), text_origin_pos := prev_diagonal.text_origin_pos,
      query_origin_pos := prev_diagonal.query_origin_pos }
  else if insertion_score ≥ diagonal_score ∧ insertion_score ≥ deletion_score then
    { score := (insertion_score : ℚ), text_origin_pos := left.text_origin_pos,
      query_origin_pos := left.query_origin_pos }
  else
    { score := (deletion_score : ℚ), text_origin_pos := above.text_origin_pos,
      query_origin_pos := above.query_origin_pos }

/-- The variables of one pass over a reference: the rolling `column`, `prev_diagonal`, and the
running maximum with its end position and origin. -/
structure ScanState where
  /-- The rolling column `vector<Cell> column`. -/
  column : List Cell
  /-- The local `Cell prev_diagonal`. -/
  prev_diagonal : Cell
  /-- The local `float current_max_score`. -/
  current_max_score : ℚ
  /-- The local `pair<size_t, size_t> current_max_position`. -/
  current_max_position : Nat × Nat
  /-- The local `pair<size_t, size_t> current_max_origin`. -/
  current_max_origin : Nat × Nat

/-- Body of the inner loop of `approximate_alignment` (lines 229-262) for the indices `i`,
`j`. -/
def cell_step (score_text query : Sequence) (cost_map : CostMap) (gap_penalty : Int) (i : Nat)
    (st : ScanState) (j : Nat) : ScanState :=
  let temp := st.column.getD j default
  let align_score : Int := truncToInt (get_alignment_score (score_text.getD (i - 1) default)
    (query.getD (j - 1) default) cost_map gap_penalty)
  let cell := choose_cell st.prev_diagonal (st.column.getD (j - 1) default)
    (st.column.getD j default) align_score gap_penalty
  let column := st.column.set j cell
  if cell.score > st.current_max_score then
    { column := column, prev_diagonal := temp, current_max_score := cell.score,
      current_max_position := (i - 1, j - 1),
      current_max_origin := (cell.text_origin_pos, cell.query_origin_pos) }
  else
    { st with column := column, prev_diagonal := temp }

/-- Body of the loop over the reference positions (lines 223-263) for the index `i`. -/
def row_step (score_text query : Sequence) (cost_map : CostMap) (gap_penalty : Int)
    (st : ScanState) (i : Nat) : ScanState :=
  let c0 := st.column.getD 0 default
  let st1 : ScanState :=
    { st with
      prev_diagonal := c0
      column := st.column.set 0 { c0 with score := 0, text_origin_pos := i - 1 } }
  (List.range' 1 query.length).foldl (cell_step score_text query cost_map gap_penalty i) st1

/-- Initialisation of the column (lines 214-218) on the buffer left by the previous
reference. -/
def init_column (column : List Cell) (query_length : Nat) : List Cell :=
  (List.range' 1 query_length).foldl
    (fun (col : List Cell) (j : Nat) =>
      col.set j { score := -(j : ℚ), text_origin_pos := 0, query_origin_pos := j - 1 })
    (column.set 0 { score := 0, text_origin_pos := 0, query_origin_pos := 0 })

/-- The pass over one reference (lines 207-264), started on the buffer `column`. -/
def reference_scan (score_text query : Sequence) (cost_map : CostMap) (gap_penalty : Int)
    (column : List Cell) : ScanState :=
  (List.range' 1 score_text.length).foldl (row_step score_text query cost_map gap_penalty)
    { column := init_column column query.length, prev_diagonal := default,
      current_max_score := 0, current_max_position := (0, 0), current_max_origin := (0, 0) }

/-- The result built after the pass over one reference (lines 267-273), if any: the
`size_t` pairs become `pair<int, int>`. -/
def emitted_result (st : ScanState) (current_score_id : String) : Option AlignmentResult :=
  if st.current_max_score > 0 then
    some { alignment_score := st.current_max_score,
           origin_position := ((st.current_max_origin.1 : Int), (st.current_max_origin.2 : Int)),
           end_position := ((st.current_max_position.1 : Int), (st.current_max_position.2 : Int)),
           retrieved_score_id := current_score_id }
  else none

/-- Body of the loop over the corpus (lines 205-275) on the pair
`(top_alignments, column)`. -/
def corpus_step (scores : List Sequence) (query : Sequence) (cost_map : CostMap)
    (score_ids : List String) (gap_penalty : Int)
    (acc : List AlignmentResult × List Cell) (score_index : Nat) :
    List AlignmentResult × List Cell :=
  let score_text := scores.getD score_index []
  let current_score_id := score_ids.getD score_index ""
  let st := reference_scan score_text query cost_map gap_penalty acc.2
  match emitted_result st current_score_id with
  | some result => (update_top_alignments acc.1 result, st.column)
  | none => (acc.1, st.column)

/-- `vector<AlignmentResult> approximate_alignment(scores, query, cost_map, score_ids,
gap_penalty)`. -/
def approximate_alignment (scores : List Sequence) (query : Sequence) (cost_map : CostMap)
    (score_ids : List String) (gap_penalty : Int) : List AlignmentResult :=
  let query_length := query.length
  let column : List Cell := List.replicate (query_length + 1) default
  ((List.range scores.length).foldl
    (corpus_step scores query cost_map score_ids gap_penalty) ([], column)).1

/-- The `int align_score` of the cell `(i, j)` (line 230). -/
def align_score_at (score_text query : Sequence) (cost_map : CostMap) (gap_penalty : Int)
    (i j : Nat) : Int :=
  truncToInt (get_alignment_score (score_text.getD (i - 1) default)
    (query.getD (j - 1) default) cost_map gap_penalty)

/-- Row `i` of the matrix of cells the rolling column sweeps, given row `i - 1` (`prev`):
entry 0 is `column[0]` with score 0 and text origin `i - 1`, entry `j + 1` is the three-way
choice between `prev j` (diagonal), the entry `j` of this row (left) and `prev (j + 1)`
(above). -/
def nextCells (score_text query : Sequence) (cost_map : CostMap) (gap_penalty : Int) (i : Nat)
    (prev : Nat → Cell) : Nat → Cell
  | 0 => { prev 0 with score := 0, text_origin_pos := i - 1 }
  | j + 1 =>
    choose_cell (prev j) (nextCells score_text query cost_map gap_penalty i prev j) (prev (j + 1))
      (align_score_at score_text query cost_map gap_penalty i (j + 1)) gap_penalty

/-- The cell `(i, j)` of the matrix computed by the pass over one reference: what `column[j]`
holds after the iteration `i` of the loop over the reference (row 0 is the initialisation). -/
def cellAt (score_text query : Sequence) (cost_map : CostMap) (gap_penalty : Int) :
    Nat → Nat → Cell
  | 0 => fun j =>
    if j = 0 then { score := 0, text_origin_pos := 0, query_origin_pos := 0 }
    else { score := -(j : ℚ), text_origin_pos := 0, query_origin_pos := j - 1 }
  | i + 1 => nextCells score_text query cost_map gap_penalty (i + 1)
      (cellAt score_text query cost_map gap_penalty i)

/-- The running maximum of a pass: `current_max_score`, `current_max_position`,
`current_max_origin`. -/
structure Best where
  /-- The value of `current_max_score`. -/
  score : ℚ
  /-- The value of `current_max_position`. -/
  position : Nat × Nat
  /-- The value of `current_max_origin`. -/
  origin : Nat × Nat
deriving DecidableEq

/-- The running maximum held by a state. -/
def ScanState.best (st : ScanState) : Best :=
  { score := st.current_max_score, position := st.current_max_position,
    origin := st.current_max_origin }

/-- The update of lines 257-262 with the cell `c` just written at `(i, j)`. -/
def track (b : Best) (c : Cell) (i j : Nat) : Best :=
  if c.score > b.score then
    { score := c.score, position := (i - 1, j - 1),
      origin := (c.text_origin_pos, c.query_origin_pos) }
  else b

/-- The running maximum after the cells `1..n` of row `i`, whose cells are `row`. -/
def trackRow (row : Nat → Cell) (i : Nat) : Nat → Best → Best
  | 0, b => b
  | n + 1, b => track (trackRow row i n b) (row (n + 1)) i (n + 1)

/-- The running maximum after the rows `1..k` of the pass. -/
def trackRows (score_text query : Sequence) (cost_map : CostMap) (gap_penalty : Int) :
    Nat → Best
  | 0 => { score := 0, position := (0, 0), origin := (0, 0) }
  | k + 1 => trackRow (cellAt score_text query cost_map gap_penalty (k + 1)) (k + 1)
      query.length (trackRows score_text query cost_map gap_penalty k)

/-- Row `i` of the matrix of `int` scores, given row `i - 1`. -/
def scoreRow (a : Nat → Int) (gap_penalty : Int) (prev : Nat → Int) : Nat → Int
  | 0 => 0
  | j + 1 =>
    max (max (prev j + a (j + 1)) (scoreRow a gap_penalty prev j + gap_penalty))
      (prev (j + 1) + gap_penalty)

/-- The score of the cell `(i, j)` as an `int`: the maximum of the three candidates. -/
def scoreAt (score_text query : Sequence) (cost_map : CostMap) (gap_penalty : Int) :
    Nat → Nat → Int
  | 0 => fun j => -(j : Int)
  | i + 1 => scoreRow (align_score_at score_text query cost_map gap_penalty (i + 1)) gap_penalty
      (scoreAt score_text query cost_map gap_penalty i)

/-- The `int` score of the exact match of the symbol `x` under gap penalty 0. -/
def matchScoreOf (cost_map : CostMap) (x : Char) : Int :=
  truncToInt (get_alignment_score x x cost_map 0)

/-- The sum of the `int` match scores of the first `j` symbols of the query. -/
def matchWeight (cost_map : CostMap) (query : Sequence) (j : Nat) : Int :=
  ((query.take j).map (matchScoreOf cost_map)).sum

/-- A similarity table scoring the exact matches of `a`, `b`, `x` at 1; nothing else is
stored. -/
def unitMatchMap : CostMap := [('a', [('a', 1)]), ('b', [('b', 1)]), ('x', [('x', 1)])]

/-- A similarity table scoring the exact match of `a` at one half. -/
def halfMatchMap : CostMap := [('a', [('a', 1 / 2)])]

/-- A similarity table scoring the exact match of `a` at three halves. -/
def threeHalvesMatchMap : CostMap := [('a', [('a', 3 / 2)])]

end ApproximateAlignment

namespace ApproximateAlignment

/-- The order of the top alignments: `a` ranks at least as high as `b` when its score is not
smaller. -/
def scoreGe (a b : AlignmentResult) : Prop := b.alignment_score ≤ a.alignment_score

instance : DecidableRel scoreGe := fun a b =>
  inferInstanceAs (Decidable (b.alignment_score ≤ a.alignment_score))

instance : IsTotal AlignmentResult scoreGe := ⟨fun a b => le_total b.alignment_score a.alignment_score⟩

instance : IsTrans AlignmentResult scoreGe := ⟨fun _ _ _ hab hbc => le_trans hbc hab⟩

/-- The top alignments after the candidates have been offered one by one, in order, to
`update_top_alignments`, starting from the empty vector. -/
def feed_candidates (candidates : List AlignmentResult) : List AlignmentResult :=
  candidates.foldl update_top_alignments []

end ApproximateAlignment

namespace ApproximateAlignment

/-- The cells `(i, j)` of a pass in the order in which the two loops visit them: `i` over the
reference positions `1..r`, `j` over the query positions `1..q`. -/
def scan_order (score_length query_length : Nat) : List (Nat × Nat) :=
  (List.range' 1 score_length).flatMap
    (fun (i : Nat) => (List.range' 1 query_length).map (fun (j : Nat) => (i, j)))

/-- The best score of a reference: `current_max_score` at the end of its pass. -/
def best_score (score_text query : Sequence) (cost_map : CostMap) (gap_penalty : Int) : ℚ :=
  (trackRows score_text query cost_map gap_penalty score_text.length).score

/-- The result handed to `update_top_alignments` after the pass over one reference, if
any. -/
def pass_result (score_text query : Sequence) (cost_map : CostMap) (gap_penalty : Int)
    (current_score_id : String) : Option AlignmentResult :=
  emitted_result
    (reference_scan score_text query cost_map gap_penalty
      (List.replicate (query.length + 1) default)) current_score_id

/-- The results handed to `update_top_alignments` during the scan of the corpus, in corpus
order. -/
def emitted_candidates (scores : List Sequence) (query : Sequence) (cost_map : CostMap)
    (score_ids : List String) (gap_penalty : Int) : List AlignmentResult :=
  (List.range scores.length).filterMap
    (fun (score_index : Nat) =>
      pass_result (scores.getD score_index []) query cost_map gap_penalty
        (score_ids.getD score_index ""))

end ApproximateAlignment

namespace ApproximateAlignment

/-- A result with the given score and identifier (positions at the origin). -/
def result_with (score : ℚ) (id : String) : AlignmentResult :=
  { alignment_score := score, origin_position := (0, 0), end_position := (0, 0),
    retrieved_score_id := id }

end ApproximateAlignment

namespace AlignmentUtils

/-- The content of a binary file: a list of bytes (numbers below 256). -/
abbrev Bytes := List Nat

/-- `file.read(dst, n)`: the next `n` bytes and the rest of the stream; `none` when the stream
is exhausted (the C++ code does not test the stream, what it then holds is indeterminate). -/
def read_bytes (n : Nat) (s : Bytes) : Option (Bytes × Bytes) :=
  if n ≤ s.length then some (s.take n, s.drop n) else none

/-- The `uint32_t` stored in 4 bytes, least significant byte first (the byte order of the
platforms the program is built for). -/
def uint32_of_bytes (b : Bytes) : Nat :=
  b.getD 0 0 + 256 * b.getD 1 0 + 65536 * b.getD 2 0 + 16777216 * b.getD 3 0

/-- `file.read(reinterpret_cast<char *>(&x), sizeof(uint32_t))`. -/
def read_uint32 (s : Bytes) : Option (Nat × Bytes) :=
  match read_bytes 4 s with
  | none => none
  | some (b, rest) => some (uint32_of_bytes b, rest)

/-- The value of the IEEE-754 binary32 number with the given bit pattern: sign bit, 8 exponent
bits, 23 fraction bits. Infinities and NaN (exponent 255) are outside the model. -/
def float_of_bits (bits : Nat) : ℚ :=
  let sign : ℚ := if bits / 2147483648 % 2 = 1 then -1 else 1
  let e := bits / 8388608 % 256
  let m := bits % 8388608
  if e = 0 then sign * (m : ℚ) / 2 ^ 149
  else sign * ((8388608 + m : Nat) : ℚ) * 2 ^ e / 2 ^ 150

/-- `file.read(reinterpret_cast<char *>(&value), sizeof(float))`. -/
def read_float (s : Bytes) : Option (ℚ × Bytes) :=
  match read_bytes 4 s with
  | none => none
  | some (b, rest) => some (float_of_bits (uint32_of_bytes b), rest)

/-- The assignment `m[k] = v` on an `unordered_map`: the value of an existing key is replaced,
a new key is added. -/
def map_set {β : Type} : List (Char × β) → Char → β → List (Char × β)
  | [], k, v => [(k, v)]
  | (k', v') :: m, k, v => if k' = k then (k, v) :: m else (k', v') :: map_set m k v

/-- The inner loop of `load_cost_map` (lines 75-85) with `count` iterations left. -/
def read_inner_entries : Nat → List (Char × ℚ) → Bytes → Option (List (Char × ℚ) × Bytes)
  | 0, inner_map, s => some (inner_map, s)
  | count + 1, inner_map, s =>
    match read_uint32 s with
    | none => none
    | some (inner_key_length, s1) =>
      match read_bytes inner_key_length s1 with
      | none => none
      | some (inner_key, s2) =>
        match read_float s2 with
        | none => none
        | some (value, s3) =>
          read_inner_entries count
            (map_set inner_map (Char.ofNat (inner_key.getD 0 0)) value) s3

/-- The outer loop of `load_cost_map` (lines 64-87) with `count` iterations left. -/
def read_outer_entries : Nat → CostMap → Bytes → Option (CostMap × Bytes)
  | 0, cost_map, s => some (cost_map, s)
  | count + 1, cost_map, s =>
    match read_uint32 s with
    | none => none
    | some (key_length, s1) =>
      match read_bytes key_length s1 with
      | none => none
      | some (key, s2) =>
        match read_uint32 s2 with
        | none => none
        | some (inner_size, s3) =>
          match read_inner_entries inner_size [] s3 with
          | none => none
          | some (inner_map, s4) =>
            read_outer_entries count
              (map_set cost_map (Char.ofNat (key.getD 0 0)) inner_map) s4

/-- The body of `load_cost_map` on an opened file (lines 59-89). -/
def parse_cost_map (s : Bytes) : Option CostMap :=
  match read_uint32 s with
  | none => none
  | some (size, s1) =>
    match read_outer_entries size [] s1 with
    | none => none
    | some (cost_map, _) => some cost_map

/-- `load_cost_map(filename)` on the file system `fs` (`none`: the file cannot be opened):
throws `runtime_error("Cannot open file: " + filename)` when the stream is not good,
otherwise returns the parsed map (`none` when the stream is exhausted before the end). -/
def load_cost_map (fs : String → Option Bytes) (filename : String) :
    Except String (Option CostMap) :=
  match fs filename with
  | none => Except.error ("Cannot open file: " ++ filename)
  | some bytes => Except.ok (parse_cost_map bytes)

/-- `get_cost_map_file(base_dir, search_feature)`. -/
def get_cost_map_file (base_dir search_feature : String) : String :=
  if search_feature = "-c" then
    base_dir ++ "/../../scores/indexes/approximate_alignment/chromatic_cost_map.bin"
  else if search_feature = "-d" then
    base_dir ++ "/../../scores/indexes/approximate_alignment/diatonic_cost_map.bin"
  else
    base_dir ++ "/../../scores/indexes/approximate_alignment/rhythmic_cost_map.bin"

/-- The 4 bytes of a `uint32_t`, least significant byte first. -/
def bytes_of_uint32 (n : Nat) : Bytes :=
  [n % 256, n / 256 % 256, n / 65536 % 256, n / 16777216 % 256]

/-- Modelled from the spec: the writer of the cost-model file is not among the sources. The
inner entries in the layout of §6: per entry `uint32 innerKeyLength = 1`, the key byte and the
`float32` cost (its 4 bytes are given by `bytes_of_float`). -/
def serialize_inner (bytes_of_float : ℚ → Bytes) (inner : List (Char × ℚ)) : Bytes :=
  inner.flatMap (fun (p : Char × ℚ) => bytes_of_uint32 1 ++ [p.1.toNat] ++ bytes_of_float p.2)

/-- Modelled from the spec: the writer of the cost-model file is not among the sources. The
outer entries in the layout of §6: per entry `uint32 keyLength = 1`, the key byte,
`uint32 innerCount` and the inner entries. -/
def serialize_outer (bytes_of_float : ℚ → Bytes) (cm : CostMap) : Bytes :=
  cm.flatMap (fun (e : Char × List (Char × ℚ)) =>
    bytes_of_uint32 1 ++ [e.1.toNat] ++ bytes_of_uint32 e.2.length
      ++ serialize_inner bytes_of_float e.2)

/-- Modelled from the spec: the writer of the cost-model file is not among the sources. The
binary layout of §6: `uint32 outerCount` followed by the outer entries. -/
def serialize_cost_map (bytes_of_float : ℚ → Bytes) (cm : CostMap) : Bytes :=
  bytes_of_uint32 cm.length ++ serialize_outer bytes_of_float cm

/-- The binary32 encodings, least significant byte first, of the values 0, 1/2, 1 and -1 (any
other value is mapped to the encoding of 0). -/
def sample_bytes_of_float (v : ℚ) : Bytes :=
  if v = 1 / 2 then [0, 0, 0, 63]
  else if v = 1 then [0, 0, 128, 63]
  else if v = -1 then [0, 0, 128, 191]
  else [0, 0, 0, 0]

/-- A cost model over the symbols `a`, `b` with the values 0, 1/2, 1 and -1. -/
def sampleCostMap : CostMap := [('a', [('a', 1), ('b', -1)]), ('b', [('b', 1 / 2), ('a', 0)])]

end AlignmentUtils

namespace FileOperations

/-- `s.find_last_not_of(c)`: the largest index whose character differs from `c`; `none` is
`string::npos`. -/
def find_last_not_of (s : List Char) (c : Char) : Option Nat :=
  (List.range s.length).reverse.find? (fun (i : Nat) => s.getD i default != c)

/-- `string load_file(const string &filename)`: the content of the file, or the empty string
when it cannot be opened, erased from the position after the last character that is not a
newline (`npos + 1` wraps to 0). -/
def load_file (fs : String → Option AlignmentUtils.Bytes) (filename : String) : List Char :=
  let content : List Char :=
    match fs filename with
    | none => []
    | some bytes => bytes.map Char.ofNat
  let pos : Nat :=
    match find_last_not_of content '\n' with
    | none => 0
    | some p => p + 1
  content.take pos

/-- `get_search_files(base_dir, search_feature, query_sf_file, "approximate")`: the path of the
reference text file. -/
def get_search_files_approximate (base_dir search_feature : String) : String :=
  if search_feature = "-c" then
    base_dir ++ "/../../scores/indexes/approximate_alignment/chromatic_text.txt"
  else if search_feature = "-d" then
    base_dir ++ "/../../scores/indexes/approximate_alignment/diatonic_text.txt"
  else
    base_dir ++ "/../../scores/indexes/approximate_alignment/rhythm_text.txt"

end FileOperations

namespace CliUtils

/-- `bool validate_args(argc, argv, search_feature, query_file, context)`: exactly 3 arguments
and a search feature among `-c`, `-d`, `-r`. -/
def validate_args (argv : List String) : Bool :=
  if argv.length ≠ 3 then false
  else
    let search_feature := argv.getD 1 ""
    if search_feature ≠ "-c" ∧ search_feature ≠ "-d" ∧ search_feature ≠ "-r" then false
    else true

end CliUtils

namespace GlobalAlignment

/-- How a run of `global_approximate_alignment` ends when no exception escapes. -/
inductive Outcome where
  /-- The usage or the invalid-feature message is printed, `main` returns 1. -/
  | usage_error : Outcome
  /-- The cost-model stream was exhausted: the map read is indeterminate. -/
  | indeterminate : Outcome
  /-- The distance is printed. -/
  | distance (d : ℚ) : Outcome
deriving DecidableEq

/-- `int main(int argc, char **argv)` of `global_approximate_alignment.cpp`, given the
directory of the executable and the file system; an uncaught exception is `Except.error`. -/
def main (argv : List String) (base_dir : String)
    (fs : String → Option AlignmentUtils.Bytes) : Except String Outcome :=
  if argv.length ≠ 5 ∨ argv.getD 3 "" ≠ "-f" then Except.ok Outcome.usage_error
  else
    let score_1_feature := (argv.getD 1 "").toList
    let score_2_feature := (argv.getD 2 "").toList
    let feature_type := argv.getD 4 ""
    if feature_type ≠ "chromatic" ∧ feature_type ≠ "diatonic" ∧ feature_type ≠ "rhythmic" then
      Except.ok Outcome.usage_error
    else
      let cost_map_file :=
        base_dir ++ "/../scores/indexes/global_alignment/" ++ feature_type ++ "_cost_map.bin"
      match AlignmentUtils.load_cost_map fs cost_map_file with
      | Except.error e => Except.error e
      | Except.ok none => Except.ok Outcome.indeterminate
      | Except.ok (some cost_map) =>
        let gap_penalty := get_gap_penalty feature_type
        Except.ok (Outcome.distance
          (global_alignment score_1_feature score_2_feature cost_map gap_penalty))

end GlobalAlignment

namespace ApproximateAlignment

/-- The loops of lines 319-325 and 328-334: the text cut at every newline, the rest after the
last newline being the last piece; `token` is the piece being read. -/
def split_lines : List Char → List Char → List (List Char)
  | [], token => [token]
  | c :: text, token =>
    if c = '\n' then token :: split_lines text [] else split_lines text (token ++ [c])

/-- How a run of `approximate_alignment` ends when no exception escapes. -/
inductive Outcome where
  /-- `validate_args` fails, `main` returns 1. -/
  | invalid_arguments : Outcome
  /-- The feature extraction returned `"ERROR"`, `main` returns `EXIT_FAILURE`. -/
  | extraction_failed : Outcome
  /-- The cost-model stream was exhausted: the map read is indeterminate. -/
  | indeterminate : Outcome
  /-- The top alignments are saved, `main` returns 0. -/
  | saved (top_alignments : List AlignmentResult) : Outcome
deriving DecidableEq

/-- `int main(int argc, char **argv)` of `approximate_alignment.cpp`, given the directory of
the executable, the file system and the query returned by the feature-extraction command;
timing, the report and the clean-up are not modelled; an uncaught exception is
`Except.error`. -/
def main (argv : List String) (base_dir : String)
    (fs : String → Option AlignmentUtils.Bytes) (extracted_query : Sequence) :
    Except String Outcome :=
  if CliUtils.validate_args argv = false then Except.ok Outcome.invalid_arguments
  else
    let search_feature := argv.getD 1 ""
    let text := FileOperations.load_file fs
      (FileOperations.get_search_files_approximate base_dir search_feature)
    let ids := FileOperations.load_file fs
      (base_dir ++ "/../../scores/indexes/approximate_alignment/melodic_line_ids.txt")
    let scores := split_lines text []
    let score_ids := (split_lines ids []).map String.mk
    let query := extracted_query
    if query = "ERROR".toList then Except.ok Outcome.extraction_failed
    else
      let cost_map_file := AlignmentUtils.get_cost_map_file base_dir search_feature
      match AlignmentUtils.load_cost_map fs cost_map_file with
      | Except.error e => Except.error e
      | Except.ok none => Except.ok Outcome.indeterminate
      | Except.ok (some cost_map) =>
        let gap_penalty := get_gap_penalty search_feature
        Except.ok (Outcome.saved
          (approximate_alignment scores query cost_map score_ids gap_penalty))

end ApproximateAlignment

namespace FileOperations

/-- The content `c` with all its trailing newline characters removed, as the specification
words the result of `load_file`. -/
def strip_trailing_newlines (c : List Char) : List Char :=
  c.rdropWhile (fun (x : Char) => x == '\n')

/-- A file system with the single file `"q.txt"`, whose bytes are `a`, `\n`, `b`, `\n`,
`\n`. -/
def sample_fs (filename : String) : Option AlignmentUtils.Bytes :=
  if filename = "q.txt" then some [97, 10, 98, 10, 10] else none

end FileOperations

namespace ApproximateAlignment

/-- The state of the pass over one reference after the first `k` iterations of the loop over
the reference positions (lines 213-263), started on the buffer `column`; `k = 0` is the state
right after the initialisation of the column. -/
def scan_rows (score_text query : Sequence) (cost_map : CostMap) (gap_penalty : Int)
    (column : List Cell) (k : Nat) : ScanState :=
  (List.range' 1 k).foldl (row_step score_text query cost_map gap_penalty)
    { column := init_column column query.length, prev_diagonal := default,
      current_max_score := 0, current_max_position := (0, 0), current_max_origin := (0, 0) }

/-- The candidates as the specification words them: the outputs of `approximate_alignment` on
each single-reference corpus `([scores[i]], [score_ids[i]])` alone, in corpus order. -/
def single_reference_candidates (scores : List Sequence) (query : Sequence) (cost_map : CostMap)
    (score_ids : List String) (gap_penalty : Int) : List AlignmentResult :=
  (scores.zip score_ids).flatMap
    (fun (p : Sequence × String) => approximate_alignment [p.1] query cost_map [p.2] gap_penalty)

/-- The origin pair `(text_origin_pos, query_origin_pos)` stored in a cell. -/
def Cell.origin (c : Cell) : Nat × Nat := (c.text_origin_pos, c.query_origin_pos)

/-- The diagonal candidate of the cell `(i, j)`: the score of the cell `(i - 1, j - 1)` plus
the `int` substitution score. -/
def diagonal_at (score_text query : Sequence) (cost_map : CostMap) (gap_penalty : Int)
    (i j : Nat) : ℚ :=
  (cellAt score_text query cost_map gap_penalty (i - 1) (j - 1)).score +
    ((truncToInt (get_alignment_score (score_text.getD (i - 1) default)
      (query.getD (j - 1) default) cost_map gap_penalty) : Int) : ℚ)

/-- The insertion candidate of the cell `(i, j)`: the score of the cell `(i, j - 1)` plus the
gap penalty. -/
def insertion_at (score_text query : Sequence) (cost_map : CostMap) (gap_penalty : Int)
    (i j : Nat) : ℚ :=
  (cellAt score_text query cost_map gap_penalty i (j - 1)).score + (gap_penalty : ℚ)

/-- The deletion candidate of the cell `(i, j)`: the score of the cell `(i - 1, j)` plus the
gap penalty. -/
def deletion_at (score_text query : Sequence) (cost_map : CostMap) (gap_penalty : Int)
    (i j : Nat) : ℚ :=
  (cellAt score_text query cost_map gap_penalty (i - 1) j).score + (gap_penalty : ℚ)

/-- A similarity table with fractional entries: `a`/`a` scores 0.9, `a`/`b` scores -0.9,
`b`/`b` scores 1.9. -/
def fractionalMatchMap : CostMap :=
  [('a', [('a', 9 / 10), ('b', -9 / 10)]), ('b', [('b', 19 / 10)])]

end ApproximateAlignment

namespace ApproximateAlignment

/-- The write `v[i] = x` with the bounds check that `operator[]` omits: `none` stands for an
access out of range. The read `v[i]` with the check is `v[i]?`. -/
def set_checked {α : Type} (v : List α) (i : Nat) (x : α) : Option (List α) :=
  if i < v.length then some (v.set i x) else none

/-- The body of the inner loop (lines 229-262) with every access `column[j]`, `column[j - 1]`,
`score_text[i - 1]`, `query[j - 1]` checked against the bounds. -/
def cell_step_checked (score_text query : Sequence) (cost_map : CostMap) (gap_penalty : Int)
    (i : Nat) (st : ScanState) (j : Nat) : Option ScanState := do
  let temp ← st.column[j]?
  let text_char ← score_text[i - 1]?
  let query_char ← query[j - 1]?
  let align_score : Int := truncToInt (get_alignment_score text_char query_char cost_map
    gap_penalty)
  let left ← st.column[j - 1]?
  let above ← st.column[j]?
  let cell := choose_cell st.prev_diagonal left above align_score gap_penalty
  let column ← set_checked st.column j cell
  if cell.score > st.current_max_score then
    pure { column := column, prev_diagonal := temp, current_max_score := cell.score,
           current_max_position := (i - 1, j - 1),
           current_max_origin := (cell.text_origin_pos, cell.query_origin_pos) }
  else
    pure { st with column := column, prev_diagonal := temp }

/-- The body of the loop over the reference positions (lines 223-263) with the accesses to
`column[0]` checked. -/
def row_step_checked (score_text query : Sequence) (cost_map : CostMap) (gap_penalty : Int)
    (st : ScanState) (i : Nat) : Option ScanState := do
  let c0 ← st.column[0]?
  let column ← set_checked st.column 0 { c0 with score := 0, text_origin_pos := i - 1 }
  (List.range' 1 query.length).foldlM
    (cell_step_checked score_text query cost_map gap_penalty i)
    { st with prev_diagonal := c0, column := column }

/-- The initialisation of the column (lines 214-218) with checked writes. -/
def init_column_checked (column : List Cell) (query_length : Nat) : Option (List Cell) := do
  let column ← set_checked column 0 { score := 0, text_origin_pos := 0, query_origin_pos := 0 }
  (List.range' 1 query_length).foldlM
    (fun (col : List Cell) (j : Nat) =>
      set_checked col j { score := -(j : ℚ), text_origin_pos := 0, query_origin_pos := j - 1 })
    column

/-- The pass over one reference (lines 207-264) with checked accesses. -/
def reference_scan_checked (score_text query : Sequence) (cost_map : CostMap)
    (gap_penalty : Int) (column : List Cell) : Option ScanState := do
  let column ← init_column_checked column query.length
  (List.range' 1 score_text.length).foldlM
    (row_step_checked score_text query cost_map gap_penalty)
    { column := column, prev_diagonal := default,
      current_max_score := 0, current_max_position := (0, 0), current_max_origin := (0, 0) }

/-- The body of the loop over the corpus (lines 205-275) with the accesses `scores[score_index]`
and `score_ids[score_index]` checked. -/
def corpus_step_checked (scores : List Sequence) (query : Sequence) (cost_map : CostMap)
    (score_ids : List String) (gap_penalty : Int)
    (acc : List AlignmentResult × List Cell) (score_index : Nat) :
    Option (List AlignmentResult × List Cell) := do
  let score_text ← scores[score_index]?
  let current_score_id ← score_ids[score_index]?
  let st ← reference_scan_checked score_text query cost_map gap_penalty acc.2
  match emitted_result st current_score_id with
  | some result => pure (update_top_alignments acc.1 result, st.column)
  | none => pure (acc.1, st.column)

/-- The function `approximate_alignment` with every subscript checked: `none` when some access
is out of range, and otherwise the vector the function returns. -/
def approximate_alignment_checked (scores : List Sequence) (query : Sequence)
    (cost_map : CostMap) (score_ids : List String) (gap_penalty : Int) :
    Option (List AlignmentResult) :=
  let query_length := query.length
  let column : List Cell := List.replicate (query_length + 1) default
  ((List.range scores.length).foldlM
    (corpus_step_checked scores query cost_map score_ids gap_penalty) ([], column)).map
    (fun (acc : List AlignmentResult × List Cell) => acc.1)

end ApproximateAlignment

/-! ## Conversions -/

theorem truncToInt_intCast (z : Int) : truncToInt (z : ℚ) = z := by
  unfold truncToInt
  split <;> simp

/-- The conversion `int → float` is exact up to `2^24` in absolute value. -/
theorem float_of_int_of_le (z : Int) (h : z.natAbs ≤ 16777216) : float_of_int z = (z : ℚ) := by
  unfold float_of_int
  rw [if_pos h]

theorem truncToInt_nonneg {x : ℚ} (hx : 0 ≤ x) : 0 ≤ truncToInt x := by
  unfold truncToInt
  rw [if_pos hx]
  exact Int.floor_nonneg.mpr hx

namespace GlobalAlignment

/-! ## The rolling columns compute the matrix `dpCell` -/

theorem dpCell_zero (s1 s2 : Sequence) (cm : CostMap) (g : ℚ) (j : Nat) :
    dpCell s1 s2 cm g 0 j = (j : ℚ) := rfl

theorem dpCell_succ_zero (s1 s2 : Sequence) (cm : CostMap) (g : ℚ) (i : Nat) :
    dpCell s1 s2 cm g (i + 1) 0 = ((i + 1 : Nat) : ℚ) := rfl

theorem dpCell_succ_succ (s1 s2 : Sequence) (cm : CostMap) (g : ℚ) (i j : Nat) :
    dpCell s1 s2 cm g (i + 1) (j + 1) =
      ((min_of_three
        (truncToInt (dpCell s1 s2 cm g i j +
          get_alignment_score (s1.getD i default) (s2.getD j default) cm g))
        (truncToInt (dpCell s1 s2 cm g i (j + 1) + g))
        (truncToInt (dpCell s1 s2 cm g (i + 1) j + g)) : Int) : ℚ) := rfl

/-- Invariant of the inner loop: after the iterations `1..n` the entries `0..n` of
`current_column` hold column `i` of the matrix, the length is unchanged. -/
theorem inner_loop_spec (s1 s2 : Sequence) (cm : CostMap) (g : ℚ) (i : Nat)
    (prev : List ℚ) (f : Nat → ℚ) (hprev : ∀ j, j ≤ s2.length → prev.getD j 0 = f j)
    (cur0 : List ℚ) (hlen : cur0.length = s2.length + 1) (h0 : cur0.getD 0 0 = (i : ℚ)) :
    ∀ n, n ≤ s2.length →
      ((List.range' 1 n).foldl (inner_body s1 s2 cm g i prev) cur0).length = s2.length + 1 ∧
      ∀ j, j ≤ n →
        ((List.range' 1 n).foldl (inner_body s1 s2 cm g i prev) cur0).getD j 0
          = nextColumn s1 s2 cm g i f j := by
  intro n
  induction n with
  | zero =>
    intro _
    refine ⟨by simpa using hlen, ?_⟩
    intro j hj
    have : j = 0 := by omega
    subst this
    simpa [nextColumn] using h0
  | succ n ih =>
    intro hn
    obtain ⟨hl, hv⟩ := ih (by omega)
    rw [List.range'_concat, List.foldl_append]
    simp only [List.foldl_cons, List.foldl_nil, one_mul]
    set cur := (List.range' 1 n).foldl (inner_body s1 s2 cm g i prev) cur0 with hcur
    refine ⟨by simp [inner_body, hl], ?_⟩
    intro j hj
    by_cases hjn : j = n + 1
    · subst hjn
      have e1 : prev.getD n 0 = f n := hprev n (by omega)
      have e2 : prev.getD (n + 1) 0 = f (n + 1) := hprev (n + 1) (by omega)
      have e3 : cur.getD n 0 = nextColumn s1 s2 cm g i f n := hv n (le_refl _)
      have hlt : n + 1 < cur.length := by omega
      simp only [List.getD_eq_getElem?_getD] at e1 e2 e3
      have e5 : 1 + n = n + 1 := by omega
      simp only [inner_body, List.getD_eq_getElem?_getD, nextColumn, e5, Nat.add_sub_cancel,
        List.getElem?_set_self hlt, Option.getD_some, e1, e2, e3]
    · have hne : 1 + n ≠ j := by omega
      have := hv j (by omega)
      simp only [inner_body, List.getD_eq_getElem?_getD, List.getElem?_set_ne hne]
      simpa [List.getD_eq_getElem?_getD] using this

/-- Invariant of the outer loop: after the iterations `1..k` both vectors hold column `k`. -/
theorem outer_loop_spec (s1 s2 : Sequence) (cm : CostMap) (g : ℚ) :
    ∀ k,
      let st := (List.range' 1 k).foldl (outer_body s1 s2 cm g)
        ((List.range (s2.length + 1)).map (fun (k : Nat) => (k : ℚ)),
          (List.range (s2.length + 1)).map (fun (k : Nat) => (k : ℚ)))
      st.1 = st.2 ∧ st.2.length = s2.length + 1 ∧
        ∀ j, j ≤ s2.length → st.2.getD j 0 = dpCell s1 s2 cm g k j := by
  intro k
  induction k with
  | zero =>
    refine ⟨rfl, by simp, ?_⟩
    intro j hj
    have hj' : j < s2.length + 1 := by omega
    simp [List.getD_eq_getElem?_getD, List.getElem?_range hj', dpCell]
  | succ k ih =>
    simp only at ih ⊢
    rw [List.range'_concat, List.foldl_append]
    simp only [List.foldl_cons, List.foldl_nil, one_mul]
    set st := (List.range' 1 k).foldl (outer_body s1 s2 cm g)
        ((List.range (s2.length + 1)).map (fun (k : Nat) => (k : ℚ)),
          (List.range (s2.length + 1)).map (fun (k : Nat) => (k : ℚ))) with hst
    obtain ⟨h12, hl, hv⟩ := ih
    have hpos : 0 < st.2.length := by omega
    have hspec := inner_loop_spec s1 s2 cm g (1 + k) st.1 (dpCell s1 s2 cm g k)
      (by intro j hj; rw [h12]; exact hv j hj)
      (st.2.set 0 ((1 + k : Nat) : ℚ)) (by simp [hl])
      (by simp [List.getD_eq_getElem?_getD, List.getElem?_set_self hpos])
      s2.length (le_refl _)
    refine ⟨rfl, hspec.1, ?_⟩
    intro j hj
    have := hspec.2 j hj
    have e : 1 + k = k + 1 := by omega
    simp only [outer_body]
    rw [this, e]
    rfl

/-- The value returned by `global_alignment` is the entry `(m, n)` of the matrix. -/
theorem global_alignment_eq_dpCell (s1 s2 : Sequence) (cm : CostMap) (g : ℚ) :
    global_alignment s1 s2 cm g = dpCell s1 s2 cm g s1.length s2.length := by
  have h := outer_loop_spec s1 s2 cm g s1.length
  simp only at h
  exact h.2.2 s2.length (le_refl _)

end GlobalAlignment

namespace GlobalAlignment

/-! ## Elementary facts -/

theorem le_min_of_three {z a b c : Int} (ha : z ≤ a) (hb : z ≤ b) (hc : z ≤ c) :
    z ≤ min_of_three a b c :=
  le_min (le_min ha hb) hc

theorem min_of_three_swap (a b c : Int) : min_of_three a b c = min_of_three a c b := by
  unfold min_of_three
  rw [min_assoc, min_comm b c, ← min_assoc]

theorem getD_mem_of_lt {l : List Char} {i : Nat} (h : i < l.length) : l.getD i default ∈ l := by
  rw [List.getD_eq_getElem l default h]
  exact List.getElem_mem h

theorem take_succ_getD {l : List Char} {i : Nat} (h : i < l.length) :
    l.take (i + 1) = l.take i ++ [l.getD i default] := by
  rw [List.take_succ, List.getD_eq_getElem l default h, List.getElem?_eq_getElem h]
  rfl

/-! ## Sign of the matrix entries -/

theorem dpCell_nonneg (s1 s2 : Sequence) (cm : CostMap) (g : ℚ)
    (hs : ∀ x ∈ s1, ∀ y ∈ s2, 0 ≤ get_alignment_score x y cm g) (hg : 0 ≤ g) :
    ∀ i, i ≤ s1.length → ∀ j, j ≤ s2.length → 0 ≤ dpCell s1 s2 cm g i j := by
  intro i
  induction i with
  | zero =>
    intro _ j _
    rw [dpCell_zero]
    exact Nat.cast_nonneg j
  | succ i ihi =>
    intro hi j
    induction j with
    | zero =>
      intro _
      rw [dpCell_succ_zero]
      exact Nat.cast_nonneg _
    | succ j ihj =>
      intro hj
      rw [dpCell_succ_succ]
      have hx : s1.getD i default ∈ s1 := getD_mem_of_lt (by omega)
      have hy : s2.getD j default ∈ s2 := getD_mem_of_lt (by omega)
      have h1 := ihi (by omega) j (by omega)
      have h2 := ihi (by omega) (j + 1) hj
      have h3 := ihj (by omega)
      exact Int.cast_nonneg.mpr (le_min_of_three
        (truncToInt_nonneg (add_nonneg h1 (hs _ hx _ hy)))
        (truncToInt_nonneg (add_nonneg h2 hg))
        (truncToInt_nonneg (add_nonneg h3 hg)))

theorem dpCell_symm (A B : Sequence) (cm : CostMap) (g : ℚ)
    (hsym : ∀ x ∈ A, ∀ y ∈ B, get_alignment_score x y cm g = get_alignment_score y x cm g) :
    ∀ i, i ≤ A.length → ∀ j, j ≤ B.length → dpCell A B cm g i j = dpCell B A cm g j i := by
  intro i
  induction i with
  | zero =>
    intro _ j _
    cases j with
    | zero => rfl
    | succ j => rw [dpCell_zero, dpCell_succ_zero]
  | succ i ihi =>
    intro hi j
    induction j with
    | zero =>
      intro _
      rw [dpCell_zero, dpCell_succ_zero]
    | succ j ihj =>
      intro hj
      have hx : A.getD i default ∈ A := getD_mem_of_lt (by omega)
      have hy : B.getD j default ∈ B := getD_mem_of_lt (by omega)
      rw [dpCell_succ_succ, dpCell_succ_succ, ihi (by omega) j (by omega),
        ihi (by omega) (j + 1) hj, ihj (by omega), hsym _ hx _ hy, min_of_three_swap]

/-! ## The unit cost model: Levenshtein distance -/

end GlobalAlignment

namespace GlobalAlignment

/-- C2: for all sequences `A`, `B` and every cost model that is symmetric on their symbols
(`substCost(x, y) = substCost(y, x)`, the fallback included),
`global_alignment(A, B) = global_alignment(B, A)`. -/
theorem global_alignment_symm (A B : Sequence) (cm : CostMap) (g : ℚ)
    (hsym : ∀ x ∈ A, ∀ y ∈ B, get_alignment_score x y cm g = get_alignment_score y x cm g) :
    global_alignment A B cm g = global_alignment B A cm g := by
  rw [global_alignment_eq_dpCell, global_alignment_eq_dpCell]
  exact dpCell_symm A B cm g hsym A.length (le_refl _) B.length (le_refl _)

theorem global_alignment_symm_witness :
    global_alignment ['a', 'b', 'b'] ['b', 'a'] halfCostMap (3 / 2)
      = global_alignment ['b', 'a'] ['a', 'b', 'b'] halfCostMap (3 / 2) :=
  global_alignment_symm ['a', 'b', 'b'] ['b', 'a'] halfCostMap (3 / 2) (by decide!)

/-- C3 (counterexample): with gap cost 2 the alignment of the empty sequence with `"a"` is 1 in
both orders, not `gapCost * len(s) = 2`. -/
theorem global_alignment_empty_not_gap_multiple :
    global_alignment [] ['a'] [] 2 = 1 ∧ global_alignment ['a'] [] [] 2 = 1 ∧
      (1 : ℚ) ≠ 2 * ((['a'] : Sequence).length : ℚ) := by
  refine ⟨by decide!, by decide!, by decide!⟩

/-- C3 (amended): for every sequence `s` of at most `2^24 = 16777216` symbols, every cost
model and every gap cost, `global_alignment("", s)` and `global_alignment(s, "")` both equal
`len(s)` (which is `gapCost * len(s)` for gap cost 1). The borders are `int` values stored in
`float` vectors; under the bound the conversion of `len(s)` to `float` is exact. -/
theorem global_alignment_empty (s : Sequence) (cm : CostMap) (g : ℚ)
    (hlen : s.length ≤ 16777216) :
    global_alignment [] s cm g = (s.length : ℚ) ∧ global_alignment s [] cm g = (s.length : ℚ) ∧
      float_of_int (s.length : Int) = (s.length : ℚ) := by
  refine ⟨?_, ?_, ?_⟩
  · rw [global_alignment_eq_dpCell]
    rfl
  · rw [global_alignment_eq_dpCell]
    cases s with
    | nil => rfl
    | cons x xs => rfl
  · rw [float_of_int_of_le _ (by omega)]
    norm_cast

theorem global_alignment_empty_witness :
    (['a', 'b', 'a'] : Sequence).length ≤ 16777216 ∧
    global_alignment [] ['a', 'b', 'a'] halfCostMap 2 = ((['a', 'b', 'a'] : Sequence).length : ℚ) ∧
    global_alignment ['a', 'b', 'a'] [] halfCostMap 2 = ((['a', 'b', 'a'] : Sequence).length : ℚ) ∧
    float_of_int ((['a', 'b', 'a'] : Sequence).length : Int)
      = ((['a', 'b', 'a'] : Sequence).length : ℚ) :=
  ⟨by decide, global_alignment_empty ['a', 'b', 'a'] halfCostMap 2 (by decide)⟩

/-- C5 (the code at the failing input): for `A = "a"`, `B = "b"`, substitution cost one half
and gap cost 1 the specification's matrix has `D(1,1) = 1/2`, while `global_alignment`
returns 0: `min_of_three` receives its arguments converted to `int`. -/
theorem global_alignment_half_cost_truncated :
    specMatrix ['a'] ['b'] halfCostMap 1 1 1 = 1 / 2 ∧
      global_alignment ['a'] ['b'] halfCostMap 1 = 0 := by
  constructor <;> decide!

/-- C6 (the code at the failing input): for `A = "a"`, `B = "b"`, the non-negative cost
`cost(a, b) = 3e9` and gap cost 1, the first candidate of the cell `(1, 1)` is `3e9`, beyond
the largest `int`; `min_of_three` receives it converted to `int`, and with the 32-bit
conversion of the compiled program `global_alignment` returns `-2147483648`, a negative
distance. With whole numbers of any size the same computation gives 2. -/
theorem global_alignment_overflow_negative :
    ((∀ x y : Char, 0 ≤ get_alignment_score x y hugeCostMap 1) ∧ (0 : ℚ) ≤ 1) ∧
    (truncToInt (0 + get_alignment_score 'a' 'b' hugeCostMap 1) = 3000000000 ∧
      int_max < 3000000000) ∧
    global_alignment_with truncToInt32 ['a'] ['b'] hugeCostMap 1 = -2147483648 ∧
    (∀ (A B : Sequence) (cm : CostMap) (g : ℚ),
      global_alignment_with truncToInt A B cm g = global_alignment A B cm g) ∧
    global_alignment ['a'] ['b'] hugeCostMap 1 = 2 := by
  refine ⟨⟨?_, by norm_num⟩, ⟨by decide!, by decide⟩, by decide!, fun A B cm g => rfl,
    by decide!⟩
  intro x y
  by_cases h1 : x = 'a'
  · by_cases h2 : y = 'b'
    · subst h1 h2
      have : get_alignment_score 'a' 'b' hugeCostMap 1 = 3000000000 := by decide!
      rw [this]
      norm_num
    · have h2b : (y == 'b') = false := by simpa using h2
      subst h1
      simp [get_alignment_score, hugeCostMap, List.lookup, h2b]
  · have h1b : (x == 'a') = false := by simpa using h1
    simp [get_alignment_score, hugeCostMap, List.lookup, h1b]

/-- C7 (the code at the failing input): identical symbols cost 0, the distinct symbols `a`,
`b` cost one half (strictly positive), the gap cost is 1, and the distance between the
different sequences `"ab"` and `"ba"` is 0. -/
theorem global_alignment_zero_on_distinct :
    (['a', 'b'] : Sequence) ≠ ['b', 'a'] ∧
      (∀ x ∈ ['a', 'b'], ∀ y ∈ ['a', 'b'],
        (x = y → get_alignment_score x y halfCostMap 1 = 0) ∧
        (x ≠ y → 0 < get_alignment_score x y halfCostMap 1)) ∧
      global_alignment ['a', 'b'] ['b', 'a'] halfCostMap 1 = 0 := by
  refine ⟨by decide, by decide!, by decide!⟩

end GlobalAlignment

namespace ApproximateAlignment

/-! ## The rolling column computes the matrix `cellAt` -/

theorem cell_step_column (R Q : Sequence) (cm : CostMap) (g : Int) (i : Nat) (st : ScanState)
    (j : Nat) :
    (cell_step R Q cm g i st j).column =
      st.column.set j (choose_cell st.prev_diagonal (st.column.getD (j - 1) default)
        (st.column.getD j default) (align_score_at R Q cm g i j) g) := by
  unfold cell_step
  simp only []
  split <;> rfl

theorem cell_step_prev_diagonal (R Q : Sequence) (cm : CostMap) (g : Int) (i : Nat)
    (st : ScanState) (j : Nat) :
    (cell_step R Q cm g i st j).prev_diagonal = st.column.getD j default := by
  unfold cell_step
  simp only []
  split <;> rfl

theorem cell_step_best (R Q : Sequence) (cm : CostMap) (g : Int) (i : Nat) (st : ScanState)
    (j : Nat) :
    (cell_step R Q cm g i st j).best =
      track st.best (choose_cell st.prev_diagonal (st.column.getD (j - 1) default)
        (st.column.getD j default) (align_score_at R Q cm g i j) g) i j := by
  unfold cell_step track ScanState.best align_score_at
  simp only []
  split_ifs <;> rfl

/-- Invariant of the loop over the query positions in row `i`, started on a column that holds
row `i - 1` (`f`) with entry 0 already updated. -/
theorem cell_loop_spec (R Q : Sequence) (cm : CostMap) (g : Int) (i : Nat) (f : Nat → Cell)
    (st1 : ScanState) (hlen : st1.column.length = Q.length + 1)
    (h0 : st1.column.getD 0 default = nextCells R Q cm g i f 0)
    (hrest : ∀ j, 1 ≤ j → j ≤ Q.length → st1.column.getD j default = f j)
    (hpd : st1.prev_diagonal = f 0) :
    ∀ n, n ≤ Q.length →
      ((List.range' 1 n).foldl (cell_step R Q cm g i) st1).column.length = Q.length + 1 ∧
      (∀ j, j ≤ n → ((List.range' 1 n).foldl (cell_step R Q cm g i) st1).column.getD j default
        = nextCells R Q cm g i f j) ∧
      (∀ j, n < j → j ≤ Q.length →
        ((List.range' 1 n).foldl (cell_step R Q cm g i) st1).column.getD j default = f j) ∧
      ((List.range' 1 n).foldl (cell_step R Q cm g i) st1).prev_diagonal = f n ∧
      ((List.range' 1 n).foldl (cell_step R Q cm g i) st1).best
        = trackRow (nextCells R Q cm g i f) i n st1.best := by
  intro n
  induction n with
  | zero =>
    intro _
    refine ⟨by simpa using hlen, ?_, ?_, by simpa using hpd, rfl⟩
    · intro j hj
      have : j = 0 := by omega
      subst this
      simpa using h0
    · intro j hj1 hj2
      simpa using hrest j (by omega) hj2
  | succ n ih =>
    intro hn
    obtain ⟨hl, hlow, hhigh, hp, hb⟩ := ih (by omega)
    rw [List.range'_concat, List.foldl_append]
    simp only [List.foldl_cons, List.foldl_nil, one_mul]
    set st := (List.range' 1 n).foldl (cell_step R Q cm g i) st1 with hst
    have e5 : 1 + n = n + 1 := by omega
    rw [e5]
    have hcell : choose_cell st.prev_diagonal (st.column.getD (n + 1 - 1) default)
        (st.column.getD (n + 1) default) (align_score_at R Q cm g i (n + 1)) g
        = nextCells R Q cm g i f (n + 1) := by
      rw [hp, Nat.add_sub_cancel, hlow n (le_refl _), hhigh (n + 1) (by omega) hn]
      rfl
    have hlt : n + 1 < st.column.length := by omega
    refine ⟨?_, ?_, ?_, ?_, ?_⟩
    · rw [cell_step_column, List.length_set, hl]
    · intro j hj
      rw [cell_step_column, hcell]
      by_cases hjn : j = n + 1
      · subst hjn
        simp [List.getD_eq_getElem?_getD, List.getElem?_set_self hlt]
      · have hne : n + 1 ≠ j := fun h => hjn h.symm
        have := hlow j (by omega)
        simp only [List.getD_eq_getElem?_getD, List.getElem?_set_ne hne] at this ⊢
        exact this
    · intro j hj1 hj2
      rw [cell_step_column]
      have hne : n + 1 ≠ j := by omega
      have := hhigh j (by omega) hj2
      simp only [List.getD_eq_getElem?_getD, List.getElem?_set_ne hne] at this ⊢
      exact this
    · rw [cell_step_prev_diagonal]
      exact hhigh (n + 1) (by omega) hn
    · rw [cell_step_best, hcell, hb]
      rfl

/-- The initialisation overwrites the whole buffer with row 0. -/
theorem init_column_spec (R Q : Sequence) (cm : CostMap) (g : Int) (column : List Cell)
    (q : Nat) (hlen : column.length = q + 1) :
    ∀ n, n ≤ q →
      ((List.range' 1 n).foldl
        (fun (col : List Cell) (j : Nat) =>
          col.set j { score := -(j : ℚ), text_origin_pos := 0, query_origin_pos := j - 1 })
        (column.set 0 { score := 0, text_origin_pos := 0, query_origin_pos := 0 })).length
          = q + 1 ∧
      ∀ j, j ≤ n →
        ((List.range' 1 n).foldl
          (fun (col : List Cell) (j : Nat) =>
            col.set j { score := -(j : ℚ), text_origin_pos := 0, query_origin_pos := j - 1 })
          (column.set 0 { score := 0, text_origin_pos := 0, query_origin_pos := 0 })).getD j
            default = cellAt R Q cm g 0 j := by
  intro n
  induction n with
  | zero =>
    intro _
    refine ⟨by simpa using hlen, ?_⟩
    intro j hj
    have : j = 0 := by omega
    subst this
    have hpos : 0 < column.length := by omega
    simp [List.getD_eq_getElem?_getD, List.getElem?_set_self hpos, cellAt]
  | succ n ih =>
    intro hn
    obtain ⟨hl, hv⟩ := ih (by omega)
    rw [List.range'_concat, List.foldl_append]
    simp only [List.foldl_cons, List.foldl_nil, one_mul]
    have e5 : 1 + n = n + 1 := by omega
    rw [e5]
    refine ⟨by rw [List.length_set, hl], ?_⟩
    intro j hj
    by_cases hjn : j = n + 1
    · subst hjn
      have hlt : n + 1 < ((List.range' 1 n).foldl
        (fun (col : List Cell) (j : Nat) =>
          col.set j { score := -(j : ℚ), text_origin_pos := 0, query_origin_pos := j - 1 })
        (column.set 0 { score := 0, text_origin_pos := 0, query_origin_pos := 0 })).length := by
        omega
      simp [List.getD_eq_getElem?_getD, List.getElem?_set_self hlt, cellAt]
    · have hne : n + 1 ≠ j := fun h => hjn h.symm
      have := hv j (by omega)
      simp only [List.getD_eq_getElem?_getD, List.getElem?_set_ne hne] at this ⊢
      exact this

/-- Invariant of the loop over the reference positions: after the rows `1..k` the column holds
row `k` of the matrix and the running maximum is `trackRows k`. -/
theorem row_loop_spec (R Q : Sequence) (cm : CostMap) (g : Int) (column : List Cell)
    (hlen : column.length = Q.length + 1) :
    ∀ k,
      ((List.range' 1 k).foldl (row_step R Q cm g)
        { column := init_column column Q.length, prev_diagonal := default,
          current_max_score := 0, current_max_position := (0, 0),
          current_max_origin := (0, 0) }).column.length = Q.length + 1 ∧
      (∀ j, j ≤ Q.length →
        ((List.range' 1 k).foldl (row_step R Q cm g)
          { column := init_column column Q.length, prev_diagonal := default,
            current_max_score := 0, current_max_position := (0, 0),
            current_max_origin := (0, 0) }).column.getD j default = cellAt R Q cm g k j) ∧
      ((List.range' 1 k).foldl (row_step R Q cm g)
        { column := init_column column Q.length, prev_diagonal := default,
          current_max_score := 0, current_max_position := (0, 0),
          current_max_origin := (0, 0) }).best = trackRows R Q cm g k := by
  intro k
  induction k with
  | zero =>
    have h := init_column_spec R Q cm g column Q.length hlen Q.length (le_refl _)
    exact ⟨h.1, h.2, rfl⟩
  | succ k ih =>
    rw [List.range'_concat, List.foldl_append]
    simp only [List.foldl_cons, List.foldl_nil, one_mul]
    set st := (List.range' 1 k).foldl (row_step R Q cm g)
        { column := init_column column Q.length, prev_diagonal := default,
          current_max_score := 0, current_max_position := (0, 0),
          current_max_origin := (0, 0) } with hst
    obtain ⟨hl, hv, hb⟩ := ih
    have e5 : 1 + k = k + 1 := by omega
    rw [e5]
    have hpos : 0 < st.column.length := by omega
    have hspec := cell_loop_spec R Q cm g (k + 1) (cellAt R Q cm g k)
      { st with
        prev_diagonal := st.column.getD 0 default
        column := st.column.set 0
          { st.column.getD 0 default with score := 0, text_origin_pos := k + 1 - 1 } }
      (by simp [hl])
      (by
        simp only [List.getD_eq_getElem?_getD, List.getElem?_set_self hpos, Option.getD_some,
          nextCells]
        have := hv 0 (Nat.zero_le _)
        simp only [List.getD_eq_getElem?_getD] at this
        rw [this])
      (by
        intro j hj1 hj2
        have hne : 0 ≠ j := by omega
        have := hv j hj2
        simp only [List.getD_eq_getElem?_getD, List.getElem?_set_ne hne] at this ⊢
        exact this)
      (hv 0 (Nat.zero_le _))
      Q.length (le_refl _)
    obtain ⟨h1, h2, _, _, h5⟩ := hspec
    refine ⟨h1, h2, ?_⟩
    unfold row_step
    rw [h5]
    show trackRow _ _ _ st.best = _
    rw [hb]
    rfl

/-- The pass over a reference, started on any buffer of `len(query) + 1` cells, ends with the
running maximum `trackRows len(reference)` and a buffer of the same length. -/
theorem reference_scan_spec (R Q : Sequence) (cm : CostMap) (g : Int) (column : List Cell)
    (hlen : column.length = Q.length + 1) :
    (reference_scan R Q cm g column).best = trackRows R Q cm g R.length ∧
      (reference_scan R Q cm g column).column.length = Q.length + 1 := by
  have h := row_loop_spec R Q cm g column hlen R.length
  exact ⟨h.2.2, h.1⟩

end ApproximateAlignment

namespace ApproximateAlignment

/-! ## Scores and origins of the cells -/

theorem truncToInt_add_intCast (x a : Int) : truncToInt ((x : ℚ) + (a : ℚ)) = x + a := by
  rw [← Int.cast_add, truncToInt_intCast]

theorem choose_cell_score (d l u : Cell) (x y z a g : Int) (hd : d.score = (x : ℚ))
    (hl : l.score = (y : ℚ)) (hu : u.score = (z : ℚ)) :
    (choose_cell d l u a g).score = ((max (max (x + a) (y + g)) (z + g) : Int) : ℚ) := by
  unfold choose_cell
  rw [hd, hl, hu, truncToInt_add_intCast, truncToInt_add_intCast, truncToInt_add_intCast]
  simp only []
  split_ifs with h1 h2
  · simp only []
    congr 1
    omega
  · simp only []
    congr 1
    omega
  · simp only []
    congr 1
    omega

theorem scoreAt_succ_succ (R Q : Sequence) (cm : CostMap) (g : Int) (i j : Nat) :
    scoreAt R Q cm g (i + 1) (j + 1) =
      max (max (scoreAt R Q cm g i j + align_score_at R Q cm g (i + 1) (j + 1))
        (scoreAt R Q cm g (i + 1) j + g)) (scoreAt R Q cm g i (j + 1) + g) := rfl

theorem cellAt_succ_succ (R Q : Sequence) (cm : CostMap) (g : Int) (i j : Nat) :
    cellAt R Q cm g (i + 1) (j + 1) =
      choose_cell (cellAt R Q cm g i j) (cellAt R Q cm g (i + 1) j) (cellAt R Q cm g i (j + 1))
        (align_score_at R Q cm g (i + 1) (j + 1)) g := rfl

/-- Every cell holds an `int` score: the entry of the matrix `scoreAt`. -/
theorem cellAt_score (R Q : Sequence) (cm : CostMap) (g : Int) :
    ∀ i j, (cellAt R Q cm g i j).score = (scoreAt R Q cm g i j : ℚ) := by
  intro i
  induction i with
  | zero =>
    intro j
    by_cases hj : j = 0
    · subst hj
      simp [cellAt, scoreAt]
    · simp [cellAt, scoreAt, hj]
  | succ i ihi =>
    intro j
    induction j with
    | zero => simp [cellAt, nextCells, scoreAt, scoreRow]
    | succ j ihj =>
      rw [cellAt_succ_succ, scoreAt_succ_succ]
      exact choose_cell_score _ _ _ _ _ _ _ _ (ihi j) ihj (ihi (j + 1))

theorem track_of_gt (b : Best) (c : Cell) (i j : Nat) (h : b.score < c.score) :
    track b c i j = { score := c.score, position := (i - 1, j - 1),
                      origin := (c.text_origin_pos, c.query_origin_pos) } := by
  unfold track
  rw [if_pos h]

theorem track_of_le (b : Best) (c : Cell) (i j : Nat) (h : c.score ≤ b.score) :
    track b c i j = b := by
  unfold track
  rw [if_neg (not_lt.mpr h)]

theorem track_score (b : Best) (c : Cell) (i j : Nat) :
    (track b c i j).score = max b.score c.score := by
  unfold track
  split_ifs with h
  · exact (max_eq_right (le_of_lt h)).symm
  · exact (max_eq_left (not_lt.mp h)).symm

theorem trackRow_score_le (row : Nat → Cell) (i : Nat) (w : ℚ) (b : Best) (hb : b.score ≤ w) :
    ∀ n, (∀ j, 1 ≤ j → j ≤ n → (row j).score ≤ w) → (trackRow row i n b).score ≤ w := by
  intro n
  induction n with
  | zero => intro _; exact hb
  | succ n ih =>
    intro h
    show (track _ _ _ _).score ≤ w
    rw [track_score]
    exact max_le (ih (fun j h1 h2 => h j h1 (by omega))) (h (n + 1) (by omega) (le_refl _))

theorem trackRow_score_ge (row : Nat → Cell) (i : Nat) (b : Best) :
    ∀ n, b.score ≤ (trackRow row i n b).score ∧
      ∀ j, 1 ≤ j → j ≤ n → (row j).score ≤ (trackRow row i n b).score := by
  intro n
  induction n with
  | zero => exact ⟨le_refl _, fun j h1 h2 => by omega⟩
  | succ n ih =>
    have e : (trackRow row i (n + 1) b).score
        = max (trackRow row i n b).score (row (n + 1)).score := track_score _ _ _ _
    refine ⟨?_, ?_⟩
    · rw [e]
      exact le_trans ih.1 (le_max_left _ _)
    · intro j h1 h2
      rw [e]
      by_cases hj : j = n + 1
      · subst hj
        exact le_max_right _ _
      · exact le_trans (ih.2 j h1 (by omega)) (le_max_left _ _)

theorem trackRows_succ (R Q : Sequence) (cm : CostMap) (g : Int) (k : Nat) :
    trackRows R Q cm g (k + 1) =
      trackRow (cellAt R Q cm g (k + 1)) (k + 1) Q.length (trackRows R Q cm g k) := rfl

theorem trackRows_mono (R Q : Sequence) (cm : CostMap) (g : Int) (k : Nat) :
    ∀ d, (trackRows R Q cm g k).score ≤ (trackRows R Q cm g (k + d)).score := by
  intro d
  induction d with
  | zero => exact le_refl _
  | succ d ih =>
    have e : k + (d + 1) = (k + d) + 1 := by omega
    rw [e, trackRows_succ]
    exact le_trans ih (trackRow_score_ge _ _ _ _).1

end ApproximateAlignment

namespace ApproximateAlignment

/-! ## Exact matches under zero mismatch and gap cost -/

theorem matchWeight_zero (cm : CostMap) (Q : Sequence) : matchWeight cm Q 0 = 0 := by
  simp [matchWeight]

theorem matchWeight_succ (cm : CostMap) (Q : Sequence) (j : Nat) (h : j < Q.length) :
    matchWeight cm Q (j + 1) = matchWeight cm Q j + matchScoreOf cm (Q.getD j default) := by
  unfold matchWeight
  rw [GlobalAlignment.take_succ_getD h]
  simp

theorem matchWeight_add_le (cm : CostMap) (Q : Sequence)
    (hm : ∀ x ∈ Q, 1 ≤ matchScoreOf cm x) (j : Nat) :
    ∀ d, j + d ≤ Q.length → matchWeight cm Q j + (d : Int) ≤ matchWeight cm Q (j + d) := by
  intro d
  induction d with
  | zero => intro _; simp
  | succ d ih =>
    intro h
    have e : j + (d + 1) = (j + d) + 1 := by omega
    rw [e, matchWeight_succ cm Q (j + d) (by omega)]
    have h1 := ih (by omega)
    have h2 := hm _ (GlobalAlignment.getD_mem_of_lt (show j + d < Q.length by omega))
    omega

theorem matchWeight_nonneg (cm : CostMap) (Q : Sequence)
    (hm : ∀ x ∈ Q, 1 ≤ matchScoreOf cm x) (j : Nat) (hj : j ≤ Q.length) :
    (j : Int) ≤ matchWeight cm Q j := by
  have h := matchWeight_add_le cm Q hm 0 j (by omega)
  rw [matchWeight_zero] at h
  simpa using h

theorem matchWeight_lt (cm : CostMap) (Q : Sequence)
    (hm : ∀ x ∈ Q, 1 ≤ matchScoreOf cm x) (j : Nat) (hj : j < Q.length) :
    matchWeight cm Q j < matchWeight cm Q Q.length := by
  have h := matchWeight_add_le cm Q hm j (Q.length - j) (by omega)
  have e : j + (Q.length - j) = Q.length := by omega
  rw [e] at h
  have : (1 : Int) ≤ ((Q.length - j : Nat) : Int) := by omega
  omega

theorem matchWeight_le (cm : CostMap) (Q : Sequence)
    (hm : ∀ x ∈ Q, 1 ≤ matchScoreOf cm x) (j : Nat) (hj : j ≤ Q.length) :
    matchWeight cm Q j ≤ matchWeight cm Q Q.length := by
  rcases Nat.lt_or_ge j Q.length with h | h
  · exact le_of_lt (matchWeight_lt cm Q hm j h)
  · have : j = Q.length := by omega
    rw [this]

/-- The `int` score of a pair under zero mismatch cost: the match score of the symbol when
the two symbols agree, 0 otherwise. -/
theorem align_score_at_eq (R Q : Sequence) (cm : CostMap)
    (hmis : ∀ x ∈ R, ∀ y ∈ Q, x ≠ y → get_alignment_score x y cm 0 = 0)
    (i j : Nat) (hi : i < R.length) (hj : j < Q.length) :
    align_score_at R Q cm 0 (i + 1) (j + 1) =
      if R.getD i default = Q.getD j default then matchScoreOf cm (Q.getD j default) else 0 := by
  unfold align_score_at
  simp only [Nat.add_sub_cancel]
  split_ifs with h
  · rw [h]
    rfl
  · rw [hmis _ (GlobalAlignment.getD_mem_of_lt hi) _ (GlobalAlignment.getD_mem_of_lt hj) h]
    simpa using truncToInt_intCast 0

theorem align_score_at_bounds (R Q : Sequence) (cm : CostMap)
    (hmis : ∀ x ∈ R, ∀ y ∈ Q, x ≠ y → get_alignment_score x y cm 0 = 0)
    (hm : ∀ x ∈ Q, 1 ≤ matchScoreOf cm x)
    (i j : Nat) (hi : i < R.length) (hj : j < Q.length) :
    align_score_at R Q cm 0 (i + 1) (j + 1) ≤ matchScoreOf cm (Q.getD j default) ∧
      (align_score_at R Q cm 0 (i + 1) (j + 1) = matchScoreOf cm (Q.getD j default) →
        R.getD i default = Q.getD j default) := by
  rw [align_score_at_eq R Q cm hmis i j hi hj]
  have h1 := hm _ (GlobalAlignment.getD_mem_of_lt hj)
  split_ifs with h
  · exact ⟨le_refl _, fun _ => h⟩
  · refine ⟨by omega, fun h0 => ?_⟩
    omega

/-- No cell of column `j` scores more than the first `j` query symbols matched exactly. -/
theorem scoreAt_le_matchWeight (R Q : Sequence) (cm : CostMap)
    (hmis : ∀ x ∈ R, ∀ y ∈ Q, x ≠ y → get_alignment_score x y cm 0 = 0)
    (hm : ∀ x ∈ Q, 1 ≤ matchScoreOf cm x) :
    ∀ i, i ≤ R.length → ∀ j, j ≤ Q.length → scoreAt R Q cm 0 i j ≤ matchWeight cm Q j := by
  intro i
  induction i with
  | zero =>
    intro _ j hj
    have := matchWeight_nonneg cm Q hm j hj
    show -(j : Int) ≤ _
    omega
  | succ i ihi =>
    intro hi j
    induction j with
    | zero =>
      intro _
      rw [matchWeight_zero]
      exact le_refl _
    | succ j ihj =>
      intro hj
      rw [scoreAt_succ_succ, matchWeight_succ cm Q j (by omega)]
      have h1 := ihi (by omega) j (by omega)
      have h2 := ihi (by omega) (j + 1) hj
      have h3 := ihj (by omega)
      rw [matchWeight_succ cm Q j (by omega)] at h2
      have h4 := (align_score_at_bounds R Q cm hmis hm i j (by omega) (by omega)).1
      have h5 := hm _ (GlobalAlignment.getD_mem_of_lt (show j < Q.length by omega))
      omega

end ApproximateAlignment

namespace ApproximateAlignment

/-! ## A reference that contains the query -/

theorem getD_occurrence (pre Q post : Sequence) (t : Nat) (ht : t < Q.length) :
    (pre ++ Q ++ post).getD (pre.length + t) default = Q.getD t default := by
  rw [List.getD_eq_getElem?_getD, List.getD_eq_getElem?_getD, List.append_assoc,
    List.getElem?_append_right (by omega), Nat.add_sub_cancel_left,
    List.getElem?_append_left ht]

/-- Along the diagonal of an exact occurrence at offset `k` the score after `t` symbols is the
weight of `t` exact matches. -/
theorem scoreAt_diag (pre Q post : Sequence) (cm : CostMap)
    (hmis : ∀ x ∈ pre ++ Q ++ post, ∀ y ∈ Q, x ≠ y → get_alignment_score x y cm 0 = 0)
    (hm : ∀ x ∈ Q, 1 ≤ matchScoreOf cm x) :
    ∀ t, t ≤ Q.length →
      scoreAt (pre ++ Q ++ post) Q cm 0 (pre.length + t) t = matchWeight cm Q t := by
  intro t
  induction t with
  | zero =>
    intro _
    rw [matchWeight_zero]
    cases h : pre.length with
    | zero => rfl
    | succ n => rfl
  | succ t ih =>
    intro ht
    have hlen : (pre ++ Q ++ post).length = pre.length + Q.length + post.length := by
      simp only [List.length_append]
    have hi : pre.length + t < (pre ++ Q ++ post).length := by omega
    apply le_antisymm
    · exact scoreAt_le_matchWeight _ Q cm hmis hm _ (by omega) _ ht
    · have e : pre.length + (t + 1) = (pre.length + t) + 1 := by omega
      rw [e, scoreAt_succ_succ, ih (by omega), matchWeight_succ cm Q t (by omega),
        align_score_at_eq _ Q cm hmis _ _ hi (by omega),
        if_pos (getD_occurrence pre Q post t (by omega))]
      exact le_trans (le_max_left _ _) (le_max_left _ _)

theorem cell_score_le (pre Q post : Sequence) (cm : CostMap)
    (hmis : ∀ x ∈ pre ++ Q ++ post, ∀ y ∈ Q, x ≠ y → get_alignment_score x y cm 0 = 0)
    (hm : ∀ x ∈ Q, 1 ≤ matchScoreOf cm x) (i j : Nat)
    (hi : i ≤ (pre ++ Q ++ post).length) (hj : j ≤ Q.length) :
    (cellAt (pre ++ Q ++ post) Q cm 0 i j).score ≤ (matchWeight cm Q Q.length : ℚ) := by
  rw [cellAt_score]
  exact_mod_cast le_trans (scoreAt_le_matchWeight _ Q cm hmis hm i hi j hj)
    (matchWeight_le cm Q hm j hj)

/-- The running maximum never exceeds the weight of the whole query matched exactly. -/
theorem trackRows_score_le (pre Q post : Sequence) (cm : CostMap)
    (hmis : ∀ x ∈ pre ++ Q ++ post, ∀ y ∈ Q, x ≠ y → get_alignment_score x y cm 0 = 0)
    (hm : ∀ x ∈ Q, 1 ≤ matchScoreOf cm x) :
    ∀ k, k ≤ (pre ++ Q ++ post).length →
      (trackRows (pre ++ Q ++ post) Q cm 0 k).score ≤ (matchWeight cm Q Q.length : ℚ) := by
  intro k
  induction k with
  | zero =>
    intro _
    have := matchWeight_nonneg cm Q hm Q.length (le_refl _)
    show (0 : ℚ) ≤ _
    exact_mod_cast le_trans (Int.ofNat_nonneg _) this
  | succ k ih =>
    intro hk
    rw [trackRows_succ]
    exact trackRow_score_le _ _ _ _ (ih (by omega)) _
      (fun j _ hj => cell_score_le pre Q post cm hmis hm (k + 1) j hk hj)

/-- With a non-empty query the running maximum ends at the weight of the whole query. -/
theorem trackRows_score_eq (pre Q post : Sequence) (cm : CostMap) (hQ : Q ≠ [])
    (hmis : ∀ x ∈ pre ++ Q ++ post, ∀ y ∈ Q, x ≠ y → get_alignment_score x y cm 0 = 0)
    (hm : ∀ x ∈ Q, 1 ≤ matchScoreOf cm x) :
    (trackRows (pre ++ Q ++ post) Q cm 0 (pre ++ Q ++ post).length).score
      = (matchWeight cm Q Q.length : ℚ) := by
  have hq : 0 < Q.length := List.length_pos.mpr hQ
  have hlen : (pre ++ Q ++ post).length = pre.length + Q.length + post.length := by
    simp only [List.length_append]
  apply le_antisymm (trackRows_score_le pre Q post cm hmis hm _ (le_refl _))
  have h1 := trackRows_mono (pre ++ Q ++ post) Q cm 0 (pre.length + Q.length) post.length
  rw [← hlen] at h1
  refine le_trans ?_ h1
  have e : pre.length + Q.length = (pre.length + Q.length - 1) + 1 := by omega
  have h2 := (trackRow_score_ge (cellAt (pre ++ Q ++ post) Q cm 0 (pre.length + Q.length))
    (pre.length + Q.length) (trackRows (pre ++ Q ++ post) Q cm 0 (pre.length + Q.length - 1))
    Q.length).2 Q.length hq (le_refl _)
  rw [cellAt_score, scoreAt_diag pre Q post cm hmis hm Q.length (le_refl _)] at h2
  have h3 : trackRows (pre ++ Q ++ post) Q cm 0 (pre.length + Q.length)
      = trackRow (cellAt (pre ++ Q ++ post) Q cm 0 (pre.length + Q.length))
          (pre.length + Q.length) Q.length
          (trackRows (pre ++ Q ++ post) Q cm 0 (pre.length + Q.length - 1)) := by
    have := trackRows_succ (pre ++ Q ++ post) Q cm 0 (pre.length + Q.length - 1)
    rw [← e] at this
    exact this
  rw [h3]
  exact h2

end ApproximateAlignment

namespace ApproximateAlignment

/-! ## Where the maximum is first reached -/

theorem emitted_result_of_best (st : ScanState) (id : String) (b : Best) (hb : st.best = b)
    (hpos : 0 < b.score) :
    emitted_result st id =
      some { alignment_score := b.score,
             origin_position := ((b.origin.1 : Int), (b.origin.2 : Int)),
             end_position := ((b.position.1 : Int), (b.position.2 : Int)),
             retrieved_score_id := id } := by
  subst hb
  unfold emitted_result
  rw [if_pos (show st.current_max_score > 0 from hpos)]
  rfl

theorem update_top_alignments_nil (r : AlignmentResult) : update_top_alignments [] r = [r] := by
  simp [update_top_alignments, lower_bound, lower_bound_loop]

/-- On a corpus of one reference the output is the result emitted for it, if any. -/
theorem approximate_alignment_singleton (R Q : Sequence) (cm : CostMap) (id : String) (g : Int) :
    approximate_alignment [R] Q cm [id] g =
      match emitted_result
        (reference_scan R Q cm g (List.replicate (Q.length + 1) default)) id with
      | some r => [r]
      | none => [] := by
  unfold approximate_alignment
  simp only [List.length_singleton, List.range_succ, List.range_zero, List.nil_append,
    List.foldl_cons, List.foldl_nil, corpus_step, List.getD_cons_zero]
  cases emitted_result (reference_scan R Q cm g (List.replicate (Q.length + 1) default)) id with
  | none => rfl
  | some r => simp [update_top_alignments_nil]

theorem matchWeight_const (cm : CostMap) (Q : Sequence) (M : Int)
    (h : ∀ x ∈ Q, matchScoreOf cm x = M) :
    ∀ j, j ≤ Q.length → matchWeight cm Q j = (j : Int) * M := by
  intro j
  induction j with
  | zero => intro _; simp [matchWeight_zero]
  | succ j ih =>
    intro hj
    rw [matchWeight_succ cm Q j (by omega), ih (by omega),
      h _ (GlobalAlignment.getD_mem_of_lt (show j < Q.length by omega))]
    push_cast
    ring

end ApproximateAlignment

/-! ## Claims on the cost-model lookup -/

/-- C8 (counterexample): in `approximate_alignment.cpp` the fallback is an `int` and the
function returns a `float`. With the empty cost map and the fallback `16777217 = 2^24 + 1` the
function returns `16777216`, not the fallback; with `2147483647` it returns `2147483648`. -/
theorem get_alignment_score_fallback_rounded :
    (ApproximateAlignment.get_alignment_score 'a' 'b' [] 16777217 = 16777216 ∧
      (16777216 : ℚ) ≠ ((16777217 : Int) : ℚ)) ∧
    (ApproximateAlignment.get_alignment_score 'a' 'b' [] 2147483647 = 2147483648 ∧
      (2147483648 : ℚ) ≠ ((2147483647 : Int) : ℚ)) := by
  refine ⟨⟨by decide!, by norm_num⟩, ⟨by decide!, by norm_num⟩⟩

/-- C8 (amended): the cost-model lookup never fails. For all symbols `a`, `b`, every cost map
and every fallback that a `float` holds exactly (every `float` fallback `g` in
`global_approximate_alignment.cpp`, every `int` fallback `gi` with `|gi| ≤ 2^24` in
`approximate_alignment.cpp`), `get_alignment_score` returns the stored value when the ordered
pair `(a, b)` is present (outer key `a`, inner key `b`) and the fallback in every other case:
`a` absent, `a` present without `b` under it, and only the reversed pair `(b, a)` stored. -/
theorem get_alignment_score_total (a b : Char) (cm : CostMap) (g : ℚ) (gi : Int)
    (hgi : gi.natAbs ≤ 16777216) :
    (∀ inner v, cm.lookup a = some inner → inner.lookup b = some v →
      GlobalAlignment.get_alignment_score a b cm g = v ∧
      ApproximateAlignment.get_alignment_score a b cm gi = v) ∧
    (cm.lookup a = none →
      GlobalAlignment.get_alignment_score a b cm g = g ∧
      ApproximateAlignment.get_alignment_score a b cm gi = (gi : ℚ)) ∧
    (∀ inner, cm.lookup a = some inner → inner.lookup b = none →
      GlobalAlignment.get_alignment_score a b cm g = g ∧
      ApproximateAlignment.get_alignment_score a b cm gi = (gi : ℚ)) ∧
    (a ≠ b → ∀ v : ℚ,
      GlobalAlignment.get_alignment_score a b [(b, [(a, v)])] g = g ∧
      ApproximateAlignment.get_alignment_score a b [(b, [(a, v)])] gi = (gi : ℚ)) := by
  have hf := float_of_int_of_le gi hgi
  refine ⟨?_, ?_, ?_, ?_⟩
  · intro inner v h1 h2
    simp [GlobalAlignment.get_alignment_score, ApproximateAlignment.get_alignment_score, h1, h2]
  · intro h1
    simp [GlobalAlignment.get_alignment_score, ApproximateAlignment.get_alignment_score, h1, hf]
  · intro inner h1 h2
    simp [GlobalAlignment.get_alignment_score, ApproximateAlignment.get_alignment_score, h1, h2,
      hf]
  · intro hab v
    have h : (a == b) = false := by simpa using hab
    simp [GlobalAlignment.get_alignment_score, ApproximateAlignment.get_alignment_score,
      List.lookup, h, hf]

theorem get_alignment_score_total_witness :
    (GlobalAlignment.get_alignment_score 'a' 'b' GlobalAlignment.halfCostMap 7 = 1 / 2 ∧
      ApproximateAlignment.get_alignment_score 'a' 'b' GlobalAlignment.halfCostMap 7 = 1 / 2) ∧
    (GlobalAlignment.get_alignment_score 'c' 'b' GlobalAlignment.halfCostMap 7 = 7 ∧
      ApproximateAlignment.get_alignment_score 'c' 'b' GlobalAlignment.halfCostMap 7
        = ((7 : Int) : ℚ)) ∧
    (GlobalAlignment.get_alignment_score 'a' 'c' GlobalAlignment.halfCostMap 7 = 7 ∧
      ApproximateAlignment.get_alignment_score 'a' 'c' GlobalAlignment.halfCostMap 7
        = ((7 : Int) : ℚ)) ∧
    (GlobalAlignment.get_alignment_score 'a' 'b' [('b', [('a', 3)])] 7 = 7 ∧
      ApproximateAlignment.get_alignment_score 'a' 'b' [('b', [('a', 3)])] (-16777216)
        = ((-16777216 : Int) : ℚ)) :=
  ⟨(get_alignment_score_total 'a' 'b' GlobalAlignment.halfCostMap 7 7 (by decide)).1
      [('a', 0), ('b', 1 / 2)] (1 / 2) (by decide!) (by decide!),
    (get_alignment_score_total 'c' 'b' GlobalAlignment.halfCostMap 7 7 (by decide)).2.1
      (by decide!),
    (get_alignment_score_total 'a' 'c' GlobalAlignment.halfCostMap 7 7 (by decide)).2.2.1
      [('a', 0), ('b', 1 / 2)] (by decide!) (by decide!),
    (get_alignment_score_total 'a' 'b' [] 7 (-16777216) (by decide)).2.2.2 (by decide) 3⟩

namespace ApproximateAlignment

/-! ## Claims on the exact occurrence of the query -/

/-- C9 (counterexample): with 0 mismatch and 0 gap cost, a query `"a"` contained in the
reference `"a"` and the exact match scored at one half (strictly positive), nothing is
emitted; scored at three halves, the emitted score is 1, not `len(Q) * matchScore = 3/2`. -/
theorem approximate_alignment_fractional_match :
    ((∀ x ∈ ['a'], get_alignment_score x x halfMatchMap 0 = 1 / 2) ∧
      (∀ x ∈ ['a'], ∀ y ∈ ['a'], x ≠ y → get_alignment_score x y halfMatchMap 0 = 0) ∧
      approximate_alignment [['a']] ['a'] halfMatchMap ["r0"] 0 = []) ∧
    ((∀ x ∈ ['a'], get_alignment_score x x threeHalvesMatchMap 0 = 3 / 2) ∧
      (∀ x ∈ ['a'], ∀ y ∈ ['a'], x ≠ y → get_alignment_score x y threeHalvesMatchMap 0 = 0) ∧
      approximate_alignment [['a']] ['a'] threeHalvesMatchMap ["r0"] 0 =
        [{ alignment_score := 1, origin_position := (0, 0), end_position := (0, 0),
           retrieved_score_id := "r0" }]) := by
  refine ⟨⟨by decide!, by decide!, by decide!⟩, ⟨by decide!, by decide!, by decide!⟩⟩

/-- C9 (amended): for every non-empty query `Q` and every reference `R = pre ++ Q ++ post`
(so `R` contains `Q` as a contiguous substring), under a cost model that scores every exact
match at the same whole number `M ≥ 1` with `len(Q) * M ≤ 2^24 = 16777216`, 0 mismatch and 0
gap cost, the pass over `R` emits a result whose score is `len(Q) * M`; on the corpus made of
`R` alone it is the output. Every cell score lies between `-len(Q)` and `len(Q) * M`; under
the bound these `int` scores are stored in the `float` cells exactly. -/
theorem approximate_alignment_exact_match_score (pre Q post : Sequence) (cm : CostMap)
    (M : Int) (id : String) (column : List Cell) (hQ : Q ≠ []) (hM : 0 < M)
    (hbound : (Q.length : Int) * M ≤ 16777216)
    (hmatch : ∀ x ∈ Q, get_alignment_score x x cm 0 = (M : ℚ))
    (hmis : ∀ x ∈ pre ++ Q ++ post, ∀ y ∈ Q, x ≠ y → get_alignment_score x y cm 0 = 0)
    (hcol : column.length = Q.length + 1) :
    ∃ r, emitted_result (reference_scan (pre ++ Q ++ post) Q cm 0 column) id = some r ∧
      approximate_alignment [pre ++ Q ++ post] Q cm [id] 0 = [r] ∧
      r.alignment_score = (Q.length : ℚ) * (M : ℚ) ∧ r.retrieved_score_id = id ∧
      float_of_int ((Q.length : Int) * M) = r.alignment_score := by
  have hq : 0 < Q.length := List.length_pos.mpr hQ
  have hfl : float_of_int ((Q.length : Int) * M) = (Q.length : ℚ) * (M : ℚ) := by
    have h0 : 0 ≤ (Q.length : Int) * M := mul_nonneg (Int.ofNat_nonneg _) (le_of_lt hM)
    have hn : ((Q.length : Int) * M).natAbs ≤ 16777216 := by
      generalize (Q.length : Int) * M = z at h0 hbound
      omega
    rw [float_of_int_of_le _ hn]
    push_cast
    rfl
  have hMx : ∀ x ∈ Q, matchScoreOf cm x = M := by
    intro x hx
    unfold matchScoreOf
    rw [hmatch x hx, truncToInt_intCast]
  have hm : ∀ x ∈ Q, 1 ≤ matchScoreOf cm x := by
    intro x hx
    rw [hMx x hx]
    omega
  have hW : (matchWeight cm Q Q.length : ℚ) = (Q.length : ℚ) * (M : ℚ) := by
    rw [matchWeight_const cm Q M hMx Q.length (le_refl _)]
    push_cast
    ring
  have hscore := trackRows_score_eq pre Q post cm hQ hmis hm
  rw [hW] at hscore
  have hpos : (0 : ℚ) < (Q.length : ℚ) * (M : ℚ) := by
    have h1 : (0 : ℚ) < (Q.length : ℚ) := by exact_mod_cast hq
    have h2 : (0 : ℚ) < (M : ℚ) := by exact_mod_cast hM
    exact mul_pos h1 h2
  have hb1 := (reference_scan_spec (pre ++ Q ++ post) Q cm 0 column hcol).1
  have hb2 := (reference_scan_spec (pre ++ Q ++ post) Q cm 0
    (List.replicate (Q.length + 1) default) (by simp)).1
  have he1 := emitted_result_of_best _ id _ hb1 (by rw [hscore]; exact hpos)
  have he2 := emitted_result_of_best _ id _ hb2 (by rw [hscore]; exact hpos)
  refine ⟨_, he1, ?_, hscore, rfl, ?_⟩
  · rw [approximate_alignment_singleton, he2]
  · rw [hfl]
    exact hscore.symm

theorem approximate_alignment_exact_match_score_witness :
    ∃ r, emitted_result (reference_scan (['x'] ++ ['a', 'b', 'a'] ++ ['x', 'b'])
          ['a', 'b', 'a'] unitMatchMap 0 (List.replicate 4 default)) "r0" = some r ∧
      approximate_alignment [['x'] ++ ['a', 'b', 'a'] ++ ['x', 'b']] ['a', 'b', 'a']
        unitMatchMap ["r0"] 0 = [r] ∧
      r.alignment_score = ((['a', 'b', 'a'] : Sequence).length : ℚ) * ((1 : Int) : ℚ) ∧
      r.retrieved_score_id = "r0" ∧
      float_of_int (((['a', 'b', 'a'] : Sequence).length : Int) * 1) = r.alignment_score :=
  approximate_alignment_exact_match_score ['x'] ['a', 'b', 'a'] ['x', 'b'] unitMatchMap 1 "r0"
    (List.replicate 4 default) (by decide) (by decide) (by decide) (by decide!) (by decide!)
    (by decide)

end ApproximateAlignment

namespace GlobalAlignment

/-! ## Whole-number costs: where the conversion to `int` is harmless -/

theorem specMatrix_succ_succ (A B : Sequence) (cm : CostMap) (g : ℚ) (i j : Nat) :
    specMatrix A B cm g (i + 1) (j + 1) =
      min (min (specMatrix A B cm g i j +
          get_alignment_score (A.getD i default) (B.getD j default) cm g)
        (specMatrix A B cm g i (j + 1) + g))
      (specMatrix A B cm g (i + 1) j + g) := rfl

theorem dpCell_int (s1 s2 : Sequence) (cm : CostMap) (g : ℚ) :
    ∀ i j, ∃ z : Int, dpCell s1 s2 cm g i j = (z : ℚ) := by
  intro i j
  cases i with
  | zero => exact ⟨(j : Int), by rw [dpCell_zero]; simp⟩
  | succ i =>
    cases j with
    | zero => exact ⟨((i + 1 : Nat) : Int), by rw [dpCell_succ_zero]; simp⟩
    | succ j => exact ⟨_, dpCell_succ_succ s1 s2 cm g i j⟩

/-- With whole-number substitution costs and gap cost the rolling columns compute the full
matrix of the specification exactly. -/
theorem dpCell_eq_specMatrix_of_int (A B : Sequence) (cm : CostMap) (g : ℚ) (gz : Int)
    (hg : g = (gz : ℚ))
    (hs : ∀ x ∈ A, ∀ y ∈ B, ∃ z : Int, get_alignment_score x y cm g = (z : ℚ)) :
    ∀ i, i ≤ A.length → ∀ j, j ≤ B.length →
      dpCell A B cm g i j = specMatrix A B cm g i j := by
  intro i
  induction i with
  | zero => intro _ j _; rfl
  | succ i ihi =>
    intro hi j
    induction j with
    | zero => intro _; rfl
    | succ j ihj =>
      intro hj
      obtain ⟨c, hc⟩ := hs _ (getD_mem_of_lt (show i < A.length by omega)) _
        (getD_mem_of_lt (show j < B.length by omega))
      obtain ⟨z1, h1⟩ := dpCell_int A B cm g i j
      obtain ⟨z2, h2⟩ := dpCell_int A B cm g i (j + 1)
      obtain ⟨z3, h3⟩ := dpCell_int A B cm g (i + 1) j
      rw [specMatrix_succ_succ, ← ihi (by omega) j (by omega), ← ihi (by omega) (j + 1) hj,
        ← ihj (by omega), dpCell_succ_succ, hc, h1, h2, h3, hg]
      rw [← Int.cast_add, ← Int.cast_add, ← Int.cast_add, truncToInt_intCast,
        truncToInt_intCast, truncToInt_intCast]
      unfold min_of_three
      push_cast
      rfl

theorem global_alignment_eq_specMatrix_of_int (A B : Sequence) (cm : CostMap) (g : ℚ)
    (gz : Int) (hg : g = (gz : ℚ))
    (hs : ∀ x ∈ A, ∀ y ∈ B, ∃ z : Int, get_alignment_score x y cm g = (z : ℚ)) :
    global_alignment A B cm g = specMatrix A B cm g A.length B.length := by
  rw [global_alignment_eq_dpCell]
  exact dpCell_eq_specMatrix_of_int A B cm g gz hg hs A.length (le_refl _) B.length (le_refl _)

/-! ## Distinct symbols costing at least 1 -/

theorem one_le_truncToInt_of_one_le {x : ℚ} (hx : 1 ≤ x) : 1 ≤ truncToInt x := by
  unfold truncToInt
  rw [if_pos (le_trans zero_le_one hx)]
  exact Int.le_floor.mpr (by exact_mod_cast hx)

theorem min_of_three_cases (a b c : Int) :
    min_of_three a b c = a ∨ min_of_three a b c = b ∨ min_of_three a b c = c := by
  unfold min_of_three
  omega

/-- With gap cost 1, identical symbols costing at least 0 and distinct symbols at least 1, an
entry of the matrix is 0 only where the two prefixes are equal. -/
theorem take_eq_of_dpCell_eq_zero (A B : Sequence) (cm : CostMap)
    (hs : ∀ x ∈ A, ∀ y ∈ B, 0 ≤ get_alignment_score x y cm 1)
    (hd : ∀ x ∈ A, ∀ y ∈ B, x ≠ y → 1 ≤ get_alignment_score x y cm 1) :
    ∀ i, i ≤ A.length → ∀ j, j ≤ B.length →
      dpCell A B cm 1 i j = 0 → A.take i = B.take j := by
  intro i
  induction i with
  | zero =>
    intro _ j _ h
    rw [dpCell_zero] at h
    have : j = 0 := by exact_mod_cast h
    subst this
    rfl
  | succ i ihi =>
    intro hi j
    induction j with
    | zero =>
      intro _ h
      rw [dpCell_succ_zero] at h
      have : i + 1 = 0 := by exact_mod_cast h
      omega
    | succ j ihj =>
      intro hj h
      have hx : A.getD i default ∈ A := getD_mem_of_lt (by omega)
      have hy : B.getD j default ∈ B := getD_mem_of_lt (by omega)
      have n1 := dpCell_nonneg A B cm 1 hs zero_le_one i (by omega) j (by omega)
      have n2 := dpCell_nonneg A B cm 1 hs zero_le_one i (by omega) (j + 1) hj
      have n3 := dpCell_nonneg A B cm 1 hs zero_le_one (i + 1) hi j (by omega)
      have t2 := one_le_truncToInt_of_one_le
        (show (1 : ℚ) ≤ dpCell A B cm 1 i (j + 1) + 1 by linarith)
      have t3 := one_le_truncToInt_of_one_le
        (show (1 : ℚ) ≤ dpCell A B cm 1 (i + 1) j + 1 by linarith)
      rw [dpCell_succ_succ] at h
      have h0 : min_of_three
          (truncToInt (dpCell A B cm 1 i j +
            get_alignment_score (A.getD i default) (B.getD j default) cm 1))
          (truncToInt (dpCell A B cm 1 i (j + 1) + 1))
          (truncToInt (dpCell A B cm 1 (i + 1) j + 1)) = 0 := by exact_mod_cast h
      have hfirst : truncToInt (dpCell A B cm 1 i j +
          get_alignment_score (A.getD i default) (B.getD j default) cm 1) = 0 := by
        rcases min_of_three_cases
          (truncToInt (dpCell A B cm 1 i j +
            get_alignment_score (A.getD i default) (B.getD j default) cm 1))
          (truncToInt (dpCell A B cm 1 i (j + 1) + 1))
          (truncToInt (dpCell A B cm 1 (i + 1) j + 1)) with e | e | e
        · rw [← e]; exact h0
        · rw [e] at h0; omega
        · rw [e] at h0; omega
      have hlt : dpCell A B cm 1 i j +
          get_alignment_score (A.getD i default) (B.getD j default) cm 1 < 1 := by
        by_contra hge
        have := one_le_truncToInt_of_one_le (not_lt.mp hge)
        omega
      have hc := hs _ hx _ hy
      have hsym : A.getD i default = B.getD j default := by
        by_contra hne
        have := hd _ hx _ hy hne
        linarith
      obtain ⟨z, hz⟩ := dpCell_int A B cm 1 i j
      have hz0 : dpCell A B cm 1 i j = 0 := by
        rw [hz] at n1 hlt ⊢
        have z1 : (0 : Int) ≤ z := by exact_mod_cast n1
        have z2 : (z : ℚ) < 1 := by linarith
        have z3 : z < 1 := by exact_mod_cast z2
        have : z = 0 := by omega
        rw [this]
        simp
      rw [take_succ_getD (show i < A.length by omega),
        take_succ_getD (show j < B.length by omega), ihi (by omega) j (by omega) hz0, hsym]

/-- With gap cost 1, identical symbols costing at least 0 and distinct symbols at least 1 (a
whole number, or any value that survives the conversion to `int`), different sequences are at
a strictly positive distance. -/
theorem global_alignment_pos_of_ne (A B : Sequence) (cm : CostMap)
    (hs : ∀ x ∈ A, ∀ y ∈ B, 0 ≤ get_alignment_score x y cm 1)
    (hd : ∀ x ∈ A, ∀ y ∈ B, x ≠ y → 1 ≤ get_alignment_score x y cm 1)
    (hne : A ≠ B) : 0 < global_alignment A B cm 1 := by
  rw [global_alignment_eq_dpCell]
  apply lt_of_le_of_ne
    (dpCell_nonneg A B cm 1 hs zero_le_one A.length (le_refl _) B.length (le_refl _))
  intro h0
  have := take_eq_of_dpCell_eq_zero A B cm hs hd A.length (le_refl _) B.length (le_refl _)
    h0.symm
  rw [List.take_length, List.take_length] at this
  exact hne this

end GlobalAlignment

namespace ApproximateAlignment

/-! ## The top alignments -/

/-- The binary search returns the boundary `n0` of any prefix/suffix split of the vector into
entries that rank strictly above the candidate and entries that do not. -/
theorem lower_bound_loop_eq (v : List AlignmentResult) (r : AlignmentResult) (n0 : Nat)
    (hlo : ∀ k, k < n0 → (v.getD k default).alignment_score > r.alignment_score)
    (hhi : ∀ k, n0 ≤ k → k < v.length →
      ¬ (v.getD k default).alignment_score > r.alignment_score) :
    ∀ fuel first len, first ≤ n0 → n0 ≤ first + len → first + len ≤ v.length → len ≤ fuel →
      lower_bound_loop v r fuel first len = n0 := by
  intro fuel
  induction fuel with
  | zero =>
    intro first len h1 h2 _ h4
    have : len = 0 := by omega
    subst this
    simp only [lower_bound_loop]
    omega
  | succ fuel ih =>
    intro first len h1 h2 h3 h4
    unfold lower_bound_loop
    by_cases hlen : len = 0
    · rw [if_pos hlen]
      omega
    · rw [if_neg hlen]
      simp only []
      have hhalf : len / 2 < len := Nat.div_lt_self (by omega) (by omega)
      by_cases hgt : (v.getD (first + len / 2) default).alignment_score > r.alignment_score
      · rw [if_pos hgt]
        have hmid : first + len / 2 < n0 := by
          by_contra hge
          exact hhi (first + len / 2) (by omega) (by omega) hgt
        exact ih (first + len / 2 + 1) (len - len / 2 - 1) (by omega) (by omega) (by omega)
          (by omega)
      · rw [if_neg hgt]
        have hmid : n0 ≤ first + len / 2 := by
          by_contra hlt
          exact hgt (hlo (first + len / 2) (by omega))
        exact ih first (len / 2) h1 hmid (by omega) (by omega)

theorem takeWhile_length_spec (v : List AlignmentResult) (r : AlignmentResult)
    (hs : v.Sorted scoreGe) :
    (∀ k, k < (v.takeWhile (fun b => decide (¬ scoreGe r b))).length →
      (v.getD k default).alignment_score > r.alignment_score) ∧
    (∀ k, (v.takeWhile (fun b => decide (¬ scoreGe r b))).length ≤ k → k < v.length →
      ¬ (v.getD k default).alignment_score > r.alignment_score) := by
  induction v with
  | nil => simp
  | cons b v ih =>
    have hs' := hs.of_cons
    have hrel := List.rel_of_sorted_cons hs
    by_cases hb : scoreGe r b
    · have e : (b :: v).takeWhile (fun b => decide (¬ scoreGe r b)) = [] := by
        simp [List.takeWhile, hb]
      rw [e]
      refine ⟨fun k hk => by simp at hk, ?_⟩
      intro k _ hk
      have hb' : b.alignment_score ≤ r.alignment_score := hb
      cases k with
      | zero => simpa using hb'
      | succ k =>
        have hk' : k < v.length := by simpa using hk
        have hmem : v.getD k default ∈ v := by
          rw [List.getD_eq_getElem v default hk']
          exact List.getElem_mem hk'
        have : (v.getD k default).alignment_score ≤ b.alignment_score := hrel _ hmem
        have h2 : (v.getD k default).alignment_score ≤ r.alignment_score := le_trans this hb'
        simpa using h2
    · have e : (b :: v).takeWhile (fun b => decide (¬ scoreGe r b))
          = b :: v.takeWhile (fun b => decide (¬ scoreGe r b)) := by
        simp [List.takeWhile, hb]
      rw [e]
      obtain ⟨ih1, ih2⟩ := ih hs'
      have hb' : r.alignment_score < b.alignment_score := not_le.mp hb
      refine ⟨?_, ?_⟩
      · intro k hk
        cases k with
        | zero => simpa using hb'
        | succ k =>
          have := ih1 k (by simpa using hk)
          simpa using this
      · intro k hk1 hk2
        cases k with
        | zero => simp at hk1
        | succ k =>
          have := ih2 k (by simpa using hk1) (by simpa using hk2)
          simpa using this

/-- On a vector sorted by non-increasing score `lower_bound` is the number of leading entries
that rank strictly above the candidate. -/
theorem lower_bound_sorted (v : List AlignmentResult) (r : AlignmentResult)
    (hs : v.Sorted scoreGe) :
    lower_bound v r = (v.takeWhile (fun b => decide (¬ scoreGe r b))).length := by
  obtain ⟨h1, h2⟩ := takeWhile_length_spec v r hs
  have hle : (v.takeWhile (fun b => decide (¬ scoreGe r b))).length ≤ v.length :=
    (List.takeWhile_sublist _).length_le
  exact lower_bound_loop_eq v r _ h1 h2 v.length 0 v.length (Nat.zero_le _) (by omega)
    (by omega) (le_refl _)

theorem take_takeWhile_length (p : AlignmentResult → Bool) (v : List AlignmentResult) :
    v.take (v.takeWhile p).length = v.takeWhile p ∧
      v.drop (v.takeWhile p).length = v.dropWhile p := by
  induction v with
  | nil => simp
  | cons b v ih =>
    by_cases hb : p b
    · simp [List.takeWhile, List.dropWhile, hb, ih.1, ih.2]
    · simp [List.takeWhile, List.dropWhile, hb]

/-- Inserting at the lower bound of a sorted vector is Mathlib's `orderedInsert`. -/
theorem insert_at_lower_bound (v : List AlignmentResult) (r : AlignmentResult)
    (hs : v.Sorted scoreGe) :
    v.take (lower_bound v r) ++ r :: v.drop (lower_bound v r) = v.orderedInsert scoreGe r := by
  rw [lower_bound_sorted v r hs, List.orderedInsert_eq_take_drop,
    (take_takeWhile_length _ v).1, (take_takeWhile_length _ v).2]

theorem inserted_length (v : List AlignmentResult) (r : AlignmentResult) (it : Nat) :
    (v.take it ++ r :: v.drop it).length = v.length + 1 := by
  simp only [List.length_append, List.length_cons, List.length_take, List.length_drop]
  omega

theorem update_top_alignments_length (v : List AlignmentResult) (r : AlignmentResult)
    (h : v.length ≤ 5) : (update_top_alignments v r).length = min 5 (v.length + 1) := by
  unfold update_top_alignments
  simp only []
  split_ifs with h1 h2
  · rw [List.length_dropLast, inserted_length]
    rw [inserted_length] at h2
    omega
  · rw [inserted_length] at h2 ⊢
    omega
  · omega

theorem update_top_alignments_subset (v : List AlignmentResult) (r x : AlignmentResult)
    (hx : x ∈ update_top_alignments v r) : x ∈ v ∨ x = r := by
  have hins : ∀ it, x ∈ v.take it ++ r :: v.drop it → x ∈ v ∨ x = r := by
    intro it hm
    rcases List.mem_append.mp hm with h | h
    · exact Or.inl (List.mem_of_mem_take h)
    · rcases List.mem_cons.mp h with h | h
      · exact Or.inr h
      · exact Or.inl (List.mem_of_mem_drop h)
  unfold update_top_alignments at hx
  simp only [] at hx
  split_ifs at hx with h1 h2
  · exact hins _ (List.mem_of_mem_dropLast hx)
  · exact hins _ hx
  · exact Or.inl hx

/-- On a sorted vector of at most 5 entries the update is `orderedInsert` cut to 5 entries. -/
theorem update_top_alignments_eq_take (v : List AlignmentResult) (r : AlignmentResult)
    (hs : v.Sorted scoreGe) (hl : v.length ≤ 5) :
    update_top_alignments v r = (v.orderedInsert scoreGe r).take 5 := by
  have hins := insert_at_lower_bound v r hs
  have hlen : (v.orderedInsert scoreGe r).length = v.length + 1 := List.orderedInsert_length _ _ _
  unfold update_top_alignments
  simp only []
  split_ifs with h1 h2
  · rw [hins, List.dropLast_eq_take, hlen]
    rw [hins, hlen] at h2
    have : v.length = 5 := by omega
    rw [this]
  · rw [hins]
    rw [hins, hlen] at h2
    exact (List.take_of_length_le (by omega)).symm
  · have h5 : v.length = 5 := by omega
    have hend : lower_bound v r = v.length := by
      by_contra hne
      exact h1 (Or.inr hne)
    rw [← hins, hend, List.take_length, List.drop_length]
    rw [List.take_append_of_le_length (by omega), List.take_of_length_le (by omega)]

theorem update_top_alignments_sorted (v : List AlignmentResult) (r : AlignmentResult)
    (hs : v.Sorted scoreGe) : (update_top_alignments v r).Sorted scoreGe := by
  have hins := insert_at_lower_bound v r hs
  have hsorted : (v.orderedInsert scoreGe r).Sorted scoreGe := hs.orderedInsert r v
  unfold update_top_alignments
  simp only []
  split_ifs with h1 h2
  · rw [hins]
    exact hsorted.sublist (List.dropLast_sublist _)
  · rw [hins]
    exact hsorted
  · exact hs

theorem take_orderedInsert_take (c : AlignmentResult) :
    ∀ (L : List AlignmentResult) (n : Nat),
      ((L.take n).orderedInsert scoreGe c).take n = (L.orderedInsert scoreGe c).take n := by
  intro L
  induction L with
  | nil => intro n; simp
  | cons b L ih =>
    intro n
    cases n with
    | zero => simp
    | succ n =>
      simp only [List.take_succ_cons, List.orderedInsert]
      split_ifs with h
      · simp only [List.take_succ_cons]
        congr 1
        cases n with
        | zero => simp
        | succ m => simp [List.take_take]
      · simp only [List.take_succ_cons]
        rw [ih n]

theorem feed_candidates_append (cs : List AlignmentResult) (c : AlignmentResult) :
    feed_candidates (cs ++ [c]) = update_top_alignments (feed_candidates cs) c := by
  simp [feed_candidates, List.foldl_append]

/-- Offering the candidates one by one keeps the 5 first entries of the insertion sort (by
non-increasing score) of the candidates taken latest first. -/
theorem feed_candidates_eq (cs : List AlignmentResult) :
    feed_candidates cs = ((cs.reverse).insertionSort scoreGe).take 5 := by
  induction cs using List.reverseRecOn with
  | nil => rfl
  | append_singleton cs c ih =>
    have hs : (feed_candidates cs).Sorted scoreGe := by
      rw [ih]
      exact (List.sorted_insertionSort scoreGe _).sublist (List.take_sublist _ _)
    have hl : (feed_candidates cs).length ≤ 5 := by
      rw [ih, List.length_take]
      omega
    rw [feed_candidates_append, update_top_alignments_eq_take _ _ hs hl, ih,
      take_orderedInsert_take, List.reverse_append]
    rfl

theorem feed_candidates_sorted (cs : List AlignmentResult) :
    (feed_candidates cs).Sorted scoreGe := by
  rw [feed_candidates_eq]
  exact (List.sorted_insertionSort scoreGe _).sublist (List.take_sublist _ _)

theorem feed_candidates_length (cs : List AlignmentResult) :
    (feed_candidates cs).length = min 5 cs.length := by
  rw [feed_candidates_eq, List.length_take, List.length_insertionSort, List.length_reverse]

theorem feed_candidates_subset (cs : List AlignmentResult) (x : AlignmentResult)
    (hx : x ∈ feed_candidates cs) : x ∈ cs := by
  rw [feed_candidates_eq] at hx
  have := List.mem_of_mem_take hx
  rw [List.mem_insertionSort] at this
  exact List.mem_reverse.mp this

end ApproximateAlignment

namespace ApproximateAlignment

/-! ## The running maximum as a scan of the cells -/

theorem trackRow_eq_foldl (row : Nat → Cell) (i : Nat) (b : Best) :
    ∀ n, trackRow row i n b
      = (List.range' 1 n).foldl (fun (b : Best) (j : Nat) => track b (row j) i j) b := by
  intro n
  induction n with
  | zero => rfl
  | succ n ih =>
    rw [List.range'_concat, List.foldl_append, ← ih]
    simp only [List.foldl_cons, List.foldl_nil, one_mul]
    have e : 1 + n = n + 1 := by omega
    rw [e]
    rfl

theorem scan_order_succ (k q : Nat) :
    scan_order (k + 1) q
      = scan_order k q ++ (List.range' 1 q).map (fun (j : Nat) => (k + 1, j)) := by
  unfold scan_order
  rw [List.range'_concat, List.flatMap_append]
  simp only [List.flatMap_cons, List.flatMap_nil, List.append_nil, one_mul]
  have e : 1 + k = k + 1 := by omega
  rw [e]

theorem mem_scan_order (r q i j : Nat) :
    (i, j) ∈ scan_order r q ↔ (1 ≤ i ∧ i ≤ r) ∧ (1 ≤ j ∧ j ≤ q) := by
  unfold scan_order
  simp only [List.mem_flatMap, List.mem_map, List.mem_range'_1, Prod.mk.injEq]
  constructor
  · rintro ⟨a, ha, b, hb, rfl, rfl⟩
    omega
  · rintro ⟨hi, hj⟩
    exact ⟨i, by omega, j, by omega, rfl, rfl⟩

/-- The running maximum after `k` rows is the fold of the update over the visited cells. -/
theorem trackRows_eq_foldl (R Q : Sequence) (cm : CostMap) (g : Int) :
    ∀ k, trackRows R Q cm g k
      = (scan_order k Q.length).foldl
          (fun (b : Best) (p : Nat × Nat) => track b (cellAt R Q cm g p.1 p.2) p.1 p.2)
          { score := 0, position := (0, 0), origin := (0, 0) } := by
  intro k
  induction k with
  | zero => rfl
  | succ k ih =>
    rw [trackRows_succ, scan_order_succ, List.foldl_append, ← ih, trackRow_eq_foldl,
      List.foldl_map]

/-- A fold of the update from the initial maximum either never moves (no positive cell) or
stops at the first cell that attains the maximum. -/
theorem foldl_track_spec (cell : Nat × Nat → Cell) :
    ∀ L : List (Nat × Nat),
      let b := L.foldl (fun (b : Best) (p : Nat × Nat) => track b (cell p) p.1 p.2)
        { score := 0, position := (0, 0), origin := (0, 0) }
      (b = { score := 0, position := (0, 0), origin := (0, 0) } ∧
        ∀ x ∈ L, (cell x).score ≤ 0) ∨
      (∃ pre p post, L = pre ++ p :: post ∧
        b = { score := (cell p).score, position := (p.1 - 1, p.2 - 1),
              origin := ((cell p).text_origin_pos, (cell p).query_origin_pos) } ∧
        0 < (cell p).score ∧
        (∀ x ∈ pre, (cell x).score < (cell p).score) ∧
        (∀ x ∈ post, (cell x).score ≤ (cell p).score)) := by
  intro L
  induction L using List.reverseRecOn with
  | nil => exact Or.inl ⟨rfl, fun x hx => by simp at hx⟩
  | append_singleton L x ih =>
    simp only [List.foldl_append, List.foldl_cons, List.foldl_nil] at ih ⊢
    rcases ih with ⟨hb, hall⟩ | ⟨pre, p, post, hL, hb, hpos, hpre, hpost⟩
    · rw [hb]
      by_cases hx : (0 : ℚ) < (cell x).score
      · right
        refine ⟨L, x, [], rfl, track_of_gt _ _ _ _ hx, hx, ?_, fun y hy => by simp at hy⟩
        intro y hy
        exact lt_of_le_of_lt (hall y hy) hx
      · left
        refine ⟨track_of_le _ _ _ _ (not_lt.mp hx), ?_⟩
        intro y hy
        rcases List.mem_append.mp hy with h | h
        · exact hall y h
        · have : y = x := by simpa using h
          rw [this]
          exact not_lt.mp hx
    · rw [hb]
      right
      by_cases hx : (cell p).score < (cell x).score
      · refine ⟨L, x, [], rfl, track_of_gt _ _ _ _ hx, lt_trans hpos hx, ?_,
          fun y hy => by simp at hy⟩
        intro y hy
        rw [hL] at hy
        rcases List.mem_append.mp hy with h | h
        · exact lt_trans (hpre y h) hx
        · rcases List.mem_cons.mp h with h | h
          · rw [h]; exact hx
          · exact lt_of_le_of_lt (hpost y h) hx
      · refine ⟨pre, p, post ++ [x], by rw [hL]; simp, track_of_le _ _ _ _ (not_lt.mp hx),
          hpos, hpre, ?_⟩
        intro y hy
        rcases List.mem_append.mp hy with h | h
        · exact hpost y h
        · have : y = x := by simpa using h
          rw [this]
          exact not_lt.mp hx

/-- The pass over a reference emits nothing when no cell is positive, and otherwise the first
cell, in the order of the scan, that attains the maximum over all cells. -/
theorem pass_first_maximum (R Q : Sequence) (cm : CostMap) (g : Int) (column : List Cell)
    (id : String) (hcol : column.length = Q.length + 1) :
    (emitted_result (reference_scan R Q cm g column) id = none ∧
      ∀ p ∈ scan_order R.length Q.length, (cellAt R Q cm g p.1 p.2).score ≤ 0) ∨
    (∃ pre i j post res, scan_order R.length Q.length = pre ++ (i, j) :: post ∧
      emitted_result (reference_scan R Q cm g column) id = some res ∧
      res.alignment_score = (cellAt R Q cm g i j).score ∧
      0 < res.alignment_score ∧
      res.end_position = (((i - 1 : Nat) : Int), ((j - 1 : Nat) : Int)) ∧
      res.origin_position = (((cellAt R Q cm g i j).text_origin_pos : Int),
        ((cellAt R Q cm g i j).query_origin_pos : Int)) ∧
      res.retrieved_score_id = id ∧
      (∀ x ∈ pre, (cellAt R Q cm g x.1 x.2).score < res.alignment_score) ∧
      (∀ x ∈ post, (cellAt R Q cm g x.1 x.2).score ≤ res.alignment_score)) := by
  have hb := (reference_scan_spec R Q cm g column hcol).1
  rw [trackRows_eq_foldl] at hb
  have hspec := foldl_track_spec (fun p => cellAt R Q cm g p.1 p.2) (scan_order R.length Q.length)
  simp only at hspec
  rcases hspec with ⟨h0, hall⟩ | ⟨pre, p, post, hL, hbest, hpos, hpre, hpost⟩
  · left
    refine ⟨?_, hall⟩
    rw [h0] at hb
    have hs : (reference_scan R Q cm g column).current_max_score = 0 := congrArg Best.score hb
    unfold emitted_result
    rw [if_neg (by rw [hs]; exact lt_irrefl _)]
  · right
    rw [hbest] at hb
    have he := emitted_result_of_best _ id _ hb hpos
    exact ⟨pre, p.1, p.2, post, _, hL, he, rfl, hpos, rfl, rfl, rfl, hpre, hpost⟩

theorem emitted_result_congr (st1 st2 : ScanState) (id : String) (h : st1.best = st2.best) :
    emitted_result st1 id = emitted_result st2 id := by
  have h1 : st1.current_max_score = st2.current_max_score := congrArg Best.score h
  have h2 : st1.current_max_position = st2.current_max_position := congrArg Best.position h
  have h3 : st1.current_max_origin = st2.current_max_origin := congrArg Best.origin h
  unfold emitted_result
  rw [h1, h2, h3]

/-- The result of a pass does not depend on what the buffer held before. -/
theorem emitted_result_eq_pass_result (R Q : Sequence) (cm : CostMap) (g : Int)
    (column : List Cell) (id : String) (hcol : column.length = Q.length + 1) :
    emitted_result (reference_scan R Q cm g column) id = pass_result R Q cm g id := by
  unfold pass_result
  apply emitted_result_congr
  rw [(reference_scan_spec R Q cm g column hcol).1,
    (reference_scan_spec R Q cm g (List.replicate (Q.length + 1) default) (by simp)).1]

theorem pass_result_eq (R Q : Sequence) (cm : CostMap) (g : Int) (id : String) :
    pass_result R Q cm g id =
      if 0 < best_score R Q cm g then
        some { alignment_score := best_score R Q cm g,
               origin_position :=
                 (((trackRows R Q cm g R.length).origin.1 : Int),
                  ((trackRows R Q cm g R.length).origin.2 : Int)),
               end_position :=
                 (((trackRows R Q cm g R.length).position.1 : Int),
                  ((trackRows R Q cm g R.length).position.2 : Int)),
               retrieved_score_id := id }
      else none := by
  have hb := (reference_scan_spec R Q cm g (List.replicate (Q.length + 1) default)
    (by simp)).1
  unfold pass_result best_score
  split_ifs with h
  · exact emitted_result_of_best _ id _ hb h
  · have hs : (reference_scan R Q cm g (List.replicate (Q.length + 1) default)).current_max_score
        = (trackRows R Q cm g R.length).score := congrArg Best.score hb
    unfold emitted_result
    rw [if_neg (by rw [hs]; exact h)]

/-- The best score of a reference is the maximum of 0 and the scores of all its cells. -/
theorem best_score_spec (R Q : Sequence) (cm : CostMap) (g : Int) :
    0 ≤ best_score R Q cm g ∧
    (∀ i j, 1 ≤ i → i ≤ R.length → 1 ≤ j → j ≤ Q.length →
      (cellAt R Q cm g i j).score ≤ best_score R Q cm g) ∧
    (best_score R Q cm g = 0 ∨
      ∃ i j, (1 ≤ i ∧ i ≤ R.length) ∧ (1 ≤ j ∧ j ≤ Q.length) ∧
        (cellAt R Q cm g i j).score = best_score R Q cm g) := by
  unfold best_score
  rw [trackRows_eq_foldl]
  have hspec := foldl_track_spec (fun p => cellAt R Q cm g p.1 p.2) (scan_order R.length Q.length)
  simp only at hspec
  rcases hspec with ⟨h0, hall⟩ | ⟨pre, p, post, hL, hbest, hpos, hpre, hpost⟩
  · rw [h0]
    refine ⟨le_refl _, ?_, Or.inl rfl⟩
    intro i j h1 h2 h3 h4
    exact hall (i, j) ((mem_scan_order _ _ i j).mpr ⟨⟨h1, h2⟩, ⟨h3, h4⟩⟩)
  · rw [hbest]
    have hp : p ∈ scan_order R.length Q.length := by rw [hL]; simp
    refine ⟨le_of_lt hpos, ?_, Or.inr ⟨p.1, p.2, ?_⟩⟩
    · intro i j h1 h2 h3 h4
      have hm : (i, j) ∈ scan_order R.length Q.length :=
        (mem_scan_order _ _ i j).mpr ⟨⟨h1, h2⟩, ⟨h3, h4⟩⟩
      rw [hL] at hm
      rcases List.mem_append.mp hm with h | h
      · exact le_of_lt (hpre _ h)
      · rcases List.mem_cons.mp h with h | h
        · have e : (cellAt R Q cm g i j).score = (cellAt R Q cm g p.1 p.2).score := by
            rw [← h]
          exact le_of_eq e
        · exact hpost _ h
    · have := (mem_scan_order _ _ p.1 p.2).mp hp
      exact ⟨this.1, this.2, rfl⟩

/-! ## The scan of the corpus -/

theorem corpus_fold_spec (scores : List Sequence) (Q : Sequence) (cm : CostMap)
    (ids : List String) (g : Int) :
    ∀ n,
      ((List.range n).foldl (corpus_step scores Q cm ids g)
        ([], List.replicate (Q.length + 1) default)).1
        = feed_candidates ((List.range n).filterMap
            (fun (score_index : Nat) =>
              pass_result (scores.getD score_index []) Q cm g (ids.getD score_index ""))) ∧
      ((List.range n).foldl (corpus_step scores Q cm ids g)
        ([], List.replicate (Q.length + 1) default)).2.length = Q.length + 1 := by
  intro n
  induction n with
  | zero => exact ⟨rfl, by simp⟩
  | succ n ih =>
    obtain ⟨h1, h2⟩ := ih
    rw [List.range_succ, List.foldl_append, List.filterMap_append]
    simp only [List.foldl_cons, List.foldl_nil, List.filterMap_cons, List.filterMap_nil]
    set acc := (List.range n).foldl (corpus_step scores Q cm ids g)
        ([], List.replicate (Q.length + 1) default) with hacc
    have hp := emitted_result_eq_pass_result (scores.getD n []) Q cm g acc.2 (ids.getD n "") h2
    have hc := (reference_scan_spec (scores.getD n []) Q cm g acc.2 h2).2
    unfold corpus_step
    simp only []
    rw [hp]
    cases hres : pass_result (scores.getD n []) Q cm g (ids.getD n "") with
    | none =>
      simp only [List.append_nil]
      exact ⟨h1, hc⟩
    | some res =>
      simp only []
      refine ⟨?_, hc⟩
      rw [feed_candidates_append, h1]

/-- The output of `approximate_alignment` is what `update_top_alignments` keeps of the results
emitted for the references, offered in corpus order. -/
theorem approximate_alignment_eq_feed (scores : List Sequence) (Q : Sequence) (cm : CostMap)
    (ids : List String) (g : Int) :
    approximate_alignment scores Q cm ids g
      = feed_candidates (emitted_candidates scores Q cm ids g) :=
  (corpus_fold_spec scores Q cm ids g scores.length).1

theorem mem_emitted_candidates (scores : List Sequence) (Q : Sequence) (cm : CostMap)
    (ids : List String) (g : Int) (res : AlignmentResult)
    (h : res ∈ emitted_candidates scores Q cm ids g) :
    ∃ idx, idx < scores.length ∧
      pass_result (scores.getD idx []) Q cm g (ids.getD idx "") = some res := by
  unfold emitted_candidates at h
  rw [List.mem_filterMap] at h
  obtain ⟨idx, hidx, hres⟩ := h
  exact ⟨idx, List.mem_range.mp hidx, hres⟩

theorem emitted_candidates_length (scores : List Sequence) (Q : Sequence) (cm : CostMap)
    (ids : List String) (g : Int) :
    (emitted_candidates scores Q cm ids g).length
      = (scores.filter (fun R => decide (0 < best_score R Q cm g))).length := by
  have key : ∀ n, n ≤ scores.length →
      ((List.range n).filterMap
        (fun (score_index : Nat) =>
          pass_result (scores.getD score_index []) Q cm g (ids.getD score_index ""))).length
        = ((scores.take n).filter (fun R => decide (0 < best_score R Q cm g))).length := by
    intro n
    induction n with
    | zero => intro _; simp
    | succ n ih =>
      intro hn
      have hlt : n < scores.length := by omega
      rw [List.range_succ, List.filterMap_append, List.length_append, ih (by omega),
        List.take_succ, List.filter_append, List.length_append,
        List.getElem?_eq_getElem hlt]
      congr 1
      simp only [List.filterMap_cons, List.filterMap_nil, Option.toList]
      rw [pass_result_eq, List.getD_eq_getElem scores [] hlt]
      by_cases hpos : 0 < best_score scores[n] Q cm g
      · simp [hpos]
      · simp [hpos]
  have := key scores.length (le_refl _)
  rw [List.take_length] at this
  exact this

end ApproximateAlignment

namespace ApproximateAlignment

/-! ## Order of equal scores -/

theorem filter_orderedInsert_of_eq (s : ℚ) (x : AlignmentResult) (hx : x.alignment_score = s) :
    ∀ L : List AlignmentResult,
      (L.orderedInsert scoreGe x).filter (fun e => decide (e.alignment_score = s))
        = x :: L.filter (fun e => decide (e.alignment_score = s)) := by
  intro L
  induction L with
  | nil => simp [hx]
  | cons b L ih =>
    simp only [List.orderedInsert]
    split_ifs with h
    · rw [List.filter_cons_of_pos (by simpa using hx)]
    · have hb : ¬ b.alignment_score = s := by
        intro hbs
        apply h
        show b.alignment_score ≤ x.alignment_score
        rw [hbs, hx]
      rw [List.filter_cons_of_neg (by simpa using hb), ih,
        List.filter_cons_of_neg (by simpa using hb)]

theorem filter_orderedInsert_of_ne (s : ℚ) (x : AlignmentResult) (hx : ¬ x.alignment_score = s) :
    ∀ L : List AlignmentResult,
      (L.orderedInsert scoreGe x).filter (fun e => decide (e.alignment_score = s))
        = L.filter (fun e => decide (e.alignment_score = s)) := by
  intro L
  induction L with
  | nil => simp [hx]
  | cons b L ih =>
    simp only [List.orderedInsert]
    split_ifs with h
    · rw [List.filter_cons_of_neg (by simpa using hx)]
    · by_cases hb : b.alignment_score = s
      · rw [List.filter_cons_of_pos (by simpa using hb), ih,
          List.filter_cons_of_pos (by simpa using hb)]
      · rw [List.filter_cons_of_neg (by simpa using hb), ih,
          List.filter_cons_of_neg (by simpa using hb)]

/-- The insertion sort keeps the entries of equal score in their order. -/
theorem filter_insertionSort (s : ℚ) :
    ∀ l : List AlignmentResult,
      (l.insertionSort scoreGe).filter (fun e => decide (e.alignment_score = s))
        = l.filter (fun e => decide (e.alignment_score = s)) := by
  intro l
  induction l with
  | nil => rfl
  | cons x l ih =>
    simp only [List.insertionSort]
    by_cases hx : x.alignment_score = s
    · rw [filter_orderedInsert_of_eq s x hx, ih, List.filter_cons_of_pos (by simpa using hx)]
    · rw [filter_orderedInsert_of_ne s x hx, ih, List.filter_cons_of_neg (by simpa using hx)]

theorem orderedInsert_of_all_lt (x : AlignmentResult) :
    ∀ L : List AlignmentResult, (∀ b ∈ L, x.alignment_score < b.alignment_score) →
      L.orderedInsert scoreGe x = L ++ [x] := by
  intro L
  induction L with
  | nil => intro _; rfl
  | cons b L ih =>
    intro h
    have hb : ¬ scoreGe x b := not_le.mpr (h b (List.mem_cons_self _ _))
    simp only [List.orderedInsert, if_neg hb, List.cons_append]
    rw [ih (fun c hc => h c (List.mem_cons_of_mem _ hc))]

/-- A candidate that scores strictly below every entry of a full sorted vector leaves it
unchanged. -/
theorem update_top_alignments_of_lt (top : List AlignmentResult) (r : AlignmentResult)
    (hs : top.Sorted scoreGe) (h5 : top.length = 5)
    (hlt : ∀ b ∈ top, r.alignment_score < b.alignment_score) :
    update_top_alignments top r = top := by
  rw [update_top_alignments_eq_take top r hs (by omega), orderedInsert_of_all_lt r top hlt,
    List.take_append_of_le_length (by omega), List.take_of_length_le (by omega)]

/-! ## Claims on the pass over one reference and on the corpus -/

/-- C11 (counterexample): query `"ab"`, reference `"a"`, exact matches at 1, gap penalty -1.
The emitted result has score 1 and ends at `(0, 0)`: its query end offset is 0, not
`q - 1 = 1`, and its score is not the maximum 0 of the last query column. -/
theorem approximate_alignment_partial_query :
    approximate_alignment [['a']] ['a', 'b'] unitMatchMap ["r0"] (-1) =
      [{ alignment_score := 1, origin_position := (0, 0), end_position := (0, 0),
         retrieved_score_id := "r0" }] ∧
    (['a'] : Sequence).length = 1 ∧ (['a', 'b'] : Sequence).length = 2 ∧
    (cellAt ['a'] ['a', 'b'] unitMatchMap (-1) 1 2).score = 0 := by
  refine ⟨by decide!, rfl, rfl, by decide!⟩

/-- C11 (amended): for every query `Q` (length `q`), reference `R` (length `r`) and cost
model, the pass over `R` emits no result when no cell `(i, j)`, `1 ≤ i ≤ r`, `1 ≤ j ≤ q`, has a
strictly positive score, and otherwise emits the first cell, in the order of the scan, that
attains the maximum score over all these cells (every query column, not only the last): the
score is that of the cell, the end position is `(i - 1, j - 1)` with query end offset
`j - 1 ≤ q - 1`, the origin is the one stored in the cell. -/
theorem emitted_result_is_first_maximum (R Q : Sequence) (cm : CostMap) (g : Int)
    (column : List Cell) (id : String) (hcol : column.length = Q.length + 1) :
    (emitted_result (reference_scan R Q cm g column) id = none ∧
      ∀ i j, 1 ≤ i → i ≤ R.length → 1 ≤ j → j ≤ Q.length → (cellAt R Q cm g i j).score ≤ 0) ∨
    (∃ pre i j post res, scan_order R.length Q.length = pre ++ (i, j) :: post ∧
      (1 ≤ i ∧ i ≤ R.length) ∧ (1 ≤ j ∧ j ≤ Q.length) ∧
      emitted_result (reference_scan R Q cm g column) id = some res ∧
      res.alignment_score = (cellAt R Q cm g i j).score ∧
      0 < res.alignment_score ∧
      res.end_position = (((i - 1 : Nat) : Int), ((j - 1 : Nat) : Int)) ∧
      res.origin_position = (((cellAt R Q cm g i j).text_origin_pos : Int),
        ((cellAt R Q cm g i j).query_origin_pos : Int)) ∧
      (∀ x ∈ pre, (cellAt R Q cm g x.1 x.2).score < res.alignment_score) ∧
      (∀ i' j', 1 ≤ i' → i' ≤ R.length → 1 ≤ j' → j' ≤ Q.length →
        (cellAt R Q cm g i' j').score ≤ res.alignment_score)) := by
  rcases pass_first_maximum R Q cm g column id hcol with ⟨hn, hall⟩ |
    ⟨pre, i, j, post, res, hL, he, hs, hpos, hend, horig, _, hpre, hpost⟩
  · left
    refine ⟨hn, ?_⟩
    intro i j h1 h2 h3 h4
    exact hall (i, j) ((mem_scan_order _ _ i j).mpr ⟨⟨h1, h2⟩, ⟨h3, h4⟩⟩)
  · right
    have hmem : (i, j) ∈ scan_order R.length Q.length := by rw [hL]; simp
    have hij := (mem_scan_order _ _ i j).mp hmem
    refine ⟨pre, i, j, post, res, hL, hij.1, hij.2, he, hs, hpos, hend, horig, hpre, ?_⟩
    intro i' j' h1 h2 h3 h4
    have hm : (i', j') ∈ scan_order R.length Q.length :=
      (mem_scan_order _ _ i' j').mpr ⟨⟨h1, h2⟩, ⟨h3, h4⟩⟩
    rw [hL] at hm
    rcases List.mem_append.mp hm with h | h
    · exact le_of_lt (hpre _ h)
    · rcases List.mem_cons.mp h with h | h
      · have e : (cellAt R Q cm g i' j').score = (cellAt R Q cm g i j).score := by
          have e1 : i' = i := congrArg Prod.fst h
          have e2 : j' = j := congrArg Prod.snd h
          rw [e1, e2]
        rw [hs]
        exact le_of_eq e
      · exact hpost _ h

theorem emitted_result_is_first_maximum_witness :
    (emitted_result (reference_scan ['a'] ['a', 'b'] unitMatchMap (-1)
        (List.replicate 3 default)) "r0" = none ∧
      ∀ i j, 1 ≤ i → i ≤ (['a'] : Sequence).length → 1 ≤ j →
        j ≤ (['a', 'b'] : Sequence).length →
        (cellAt ['a'] ['a', 'b'] unitMatchMap (-1) i j).score ≤ 0) ∨
    (∃ pre i j post res,
      scan_order (['a'] : Sequence).length (['a', 'b'] : Sequence).length
        = pre ++ (i, j) :: post ∧
      (1 ≤ i ∧ i ≤ (['a'] : Sequence).length) ∧
      (1 ≤ j ∧ j ≤ (['a', 'b'] : Sequence).length) ∧
      emitted_result (reference_scan ['a'] ['a', 'b'] unitMatchMap (-1)
        (List.replicate 3 default)) "r0" = some res ∧
      res.alignment_score = (cellAt ['a'] ['a', 'b'] unitMatchMap (-1) i j).score ∧
      0 < res.alignment_score ∧
      res.end_position = (((i - 1 : Nat) : Int), ((j - 1 : Nat) : Int)) ∧
      res.origin_position =
        (((cellAt ['a'] ['a', 'b'] unitMatchMap (-1) i j).text_origin_pos : Int),
         ((cellAt ['a'] ['a', 'b'] unitMatchMap (-1) i j).query_origin_pos : Int)) ∧
      (∀ x ∈ pre, (cellAt ['a'] ['a', 'b'] unitMatchMap (-1) x.1 x.2).score
        < res.alignment_score) ∧
      (∀ i' j', 1 ≤ i' → i' ≤ (['a'] : Sequence).length → 1 ≤ j' →
        j' ≤ (['a', 'b'] : Sequence).length →
        (cellAt ['a'] ['a', 'b'] unitMatchMap (-1) i' j').score ≤ res.alignment_score)) :=
  emitted_result_is_first_maximum ['a'] ['a', 'b'] unitMatchMap (-1)
    (List.replicate 3 default) "r0" (by decide)

/-- C12: every result in the output of `approximate_alignment` has a strictly positive score,
names a reference of the corpus (by the identifier at its index), and its score is the
maximum cell score of the pass over that reference. -/
theorem approximate_alignment_results_positive (scores : List Sequence) (Q : Sequence)
    (cm : CostMap) (ids : List String) (g : Int) (res : AlignmentResult)
    (h : res ∈ approximate_alignment scores Q cm ids g) :
    0 < res.alignment_score ∧
    ∃ idx, idx < scores.length ∧ res.retrieved_score_id = ids.getD idx "" ∧
      (∀ i j, 1 ≤ i → i ≤ (scores.getD idx []).length → 1 ≤ j → j ≤ Q.length →
        (cellAt (scores.getD idx []) Q cm g i j).score ≤ res.alignment_score) ∧
      (∃ i j, (1 ≤ i ∧ i ≤ (scores.getD idx []).length) ∧ (1 ≤ j ∧ j ≤ Q.length) ∧
        (cellAt (scores.getD idx []) Q cm g i j).score = res.alignment_score) := by
  rw [approximate_alignment_eq_feed] at h
  obtain ⟨idx, hidx, hres⟩ := mem_emitted_candidates scores Q cm ids g res
    (feed_candidates_subset _ _ h)
  rw [pass_result_eq] at hres
  split_ifs at hres with hpos
  have hr : res = _ := (Option.some.inj hres).symm
  obtain ⟨_, hall, hex⟩ := best_score_spec (scores.getD idx []) Q cm g
  have hscore : res.alignment_score = best_score (scores.getD idx []) Q cm g := by rw [hr]
  have hid : res.retrieved_score_id = ids.getD idx "" := by rw [hr]
  rw [hscore]
  refine ⟨hpos, idx, hidx, hid, hall, ?_⟩
  rcases hex with h0 | hex
  · rw [h0] at hpos
    exact absurd hpos (lt_irrefl _)
  · exact hex

theorem approximate_alignment_results_positive_witness :
    0 < (result_with 1 "r1").alignment_score ∧
    ∃ idx, idx < [['b'], ['a']].length ∧
      (result_with 1 "r1").retrieved_score_id = ["r0", "r1"].getD idx "" ∧
      (∀ i j, 1 ≤ i → i ≤ (([['b'], ['a']] : List Sequence).getD idx []).length → 1 ≤ j →
        j ≤ (['a'] : Sequence).length →
        (cellAt (([['b'], ['a']] : List Sequence).getD idx []) ['a'] unitMatchMap (-1) i j).score
          ≤ (result_with 1 "r1").alignment_score) ∧
      (∃ i j, (1 ≤ i ∧ i ≤ (([['b'], ['a']] : List Sequence).getD idx []).length) ∧
        (1 ≤ j ∧ j ≤ (['a'] : Sequence).length) ∧
        (cellAt (([['b'], ['a']] : List Sequence).getD idx []) ['a'] unitMatchMap (-1) i j).score
          = (result_with 1 "r1").alignment_score) :=
  approximate_alignment_results_positive [['b'], ['a']] ['a'] unitMatchMap ["r0", "r1"] (-1)
    (result_with 1 "r1") (by decide!)

/-- C13: for every corpus with as many identifiers as references, the number of results of
`approximate_alignment` is `min(5, number of references whose best score is strictly
positive)`; the output is empty exactly when every reference has best score `≤ 0`. The
function is total: no case raises an error. -/
theorem approximate_alignment_length (scores : List Sequence) (Q : Sequence) (cm : CostMap)
    (ids : List String) (g : Int) (_hids : ids.length = scores.length) :
    (approximate_alignment scores Q cm ids g).length
      = min 5 (scores.filter (fun R => decide (0 < best_score R Q cm g))).length ∧
    (approximate_alignment scores Q cm ids g = [] ↔
      ∀ R ∈ scores, best_score R Q cm g ≤ 0) := by
  have hlen : (approximate_alignment scores Q cm ids g).length
      = min 5 (scores.filter (fun R => decide (0 < best_score R Q cm g))).length := by
    rw [approximate_alignment_eq_feed, feed_candidates_length, emitted_candidates_length]
  refine ⟨hlen, ?_⟩
  rw [← List.length_eq_zero, hlen]
  constructor
  · intro h R hR
    have h0 : (scores.filter (fun R => decide (0 < best_score R Q cm g))).length = 0 := by
      omega
    rw [List.length_eq_zero, List.filter_eq_nil_iff] at h0
    have := h0 R hR
    simpa using this
  · intro h
    have h0 : scores.filter (fun R => decide (0 < best_score R Q cm g)) = [] := by
      rw [List.filter_eq_nil_iff]
      intro R hR
      simpa using h R hR
    rw [h0]
    rfl

theorem approximate_alignment_length_witness :
    (approximate_alignment [['b'], ['a'], ['a', 'b']] ['a'] unitMatchMap ["r0", "r1", "r2"]
        (-1)).length
      = min 5 (([['b'], ['a'], ['a', 'b']] : List Sequence).filter
          (fun R => decide (0 < best_score R ['a'] unitMatchMap (-1)))).length ∧
    (approximate_alignment [['b'], ['a'], ['a', 'b']] ['a'] unitMatchMap ["r0", "r1", "r2"]
        (-1) = [] ↔
      ∀ R ∈ ([['b'], ['a'], ['a', 'b']] : List Sequence),
        best_score R ['a'] unitMatchMap (-1) ≤ 0) :=
  approximate_alignment_length [['b'], ['a'], ['a', 'b']] ['a'] unitMatchMap
    ["r0", "r1", "r2"] (-1) (by decide)

/-! ## Claims on the top alignments -/

/-- C14: a vector of at most 5 entries has at most 5 entries after `update_top_alignments`
with any candidate, hence also after any sequence of updates, in particular from the empty
vector. -/
theorem top_alignments_at_most_five (top : List AlignmentResult) (r : AlignmentResult)
    (cands : List AlignmentResult) (h : top.length ≤ 5) :
    (update_top_alignments top r).length ≤ 5 ∧
    (cands.foldl update_top_alignments top).length ≤ 5 ∧
    (feed_candidates cands).length ≤ 5 := by
  have step : ∀ (t : List AlignmentResult) (x : AlignmentResult), t.length ≤ 5 →
      (update_top_alignments t x).length ≤ 5 := by
    intro t x ht
    rw [update_top_alignments_length t x ht]
    omega
  have fold : ∀ (cs : List AlignmentResult) (t : List AlignmentResult), t.length ≤ 5 →
      (cs.foldl update_top_alignments t).length ≤ 5 := by
    intro cs
    induction cs with
    | nil => intro t ht; exact ht
    | cons c cs ih => intro t ht; exact ih _ (step t c ht)
  exact ⟨step top r h, fold cands top h, fold cands [] (by simp)⟩

theorem top_alignments_at_most_five_witness :
    (update_top_alignments
        [result_with 9 "r0", result_with 7 "r1", result_with 7 "r2", result_with 5 "r3",
          result_with 2 "r4"] (result_with 8 "new")).length ≤ 5 ∧
    ([result_with 1 "a", result_with 3 "b"].foldl update_top_alignments
        [result_with 9 "r0", result_with 7 "r1", result_with 7 "r2", result_with 5 "r3",
          result_with 2 "r4"]).length ≤ 5 ∧
    (feed_candidates [result_with 1 "a", result_with 3 "b"]).length ≤ 5 :=
  top_alignments_at_most_five
    [result_with 9 "r0", result_with 7 "r1", result_with 7 "r2", result_with 5 "r3",
      result_with 2 "r4"] (result_with 8 "new") [result_with 1 "a", result_with 3 "b"]
    (by decide)

/-- C15: a vector sorted by non-increasing score is sorted by non-increasing score after
`update_top_alignments` with any candidate; hence the output of `approximate_alignment` is
sorted by non-increasing score. -/
theorem top_alignments_sorted (top : List AlignmentResult) (r : AlignmentResult)
    (scores : List Sequence) (Q : Sequence) (cm : CostMap) (ids : List String) (g : Int)
    (hs : top.Pairwise (fun a b => b.alignment_score ≤ a.alignment_score)) :
    (update_top_alignments top r).Pairwise (fun a b => b.alignment_score ≤ a.alignment_score) ∧
    (approximate_alignment scores Q cm ids g).Pairwise
      (fun a b => b.alignment_score ≤ a.alignment_score) := by
  constructor
  · exact update_top_alignments_sorted top r hs
  · rw [approximate_alignment_eq_feed]
    exact feed_candidates_sorted _

theorem top_alignments_sorted_witness :
    (update_top_alignments [result_with 9 "r0", result_with 7 "r1", result_with 2 "r2"]
        (result_with 7 "new")).Pairwise (fun a b => b.alignment_score ≤ a.alignment_score) ∧
    (approximate_alignment [['b'], ['a'], ['a', 'b']] ['a', 'b'] unitMatchMap
        ["r0", "r1", "r2"] (-1)).Pairwise
      (fun a b => b.alignment_score ≤ a.alignment_score) :=
  top_alignments_sorted [result_with 9 "r0", result_with 7 "r1", result_with 2 "r2"]
    (result_with 7 "new") [['b'], ['a'], ['a', 'b']] ['a', 'b'] unitMatchMap
    ["r0", "r1", "r2"] (-1) (by decide!)

theorem map_score_insertionSort (l : List AlignmentResult) :
    (l.insertionSort scoreGe).map (fun e => e.alignment_score)
      = (l.map (fun e => e.alignment_score)).insertionSort (fun (x y : ℚ) => x ≥ y) :=
  List.map_insertionSort scoreGe (fun (x y : ℚ) => x ≥ y) (fun e => e.alignment_score) l
    (fun _ _ _ _ => Iff.rfl)

/-- C16: after any sequence of candidates offered one by one from the empty vector, the
scores of the vector are the first `min(5, n)` of the candidates' scores sorted in descending
order, and every entry is one of the candidates. -/
theorem feed_candidates_keeps_best_five (cands : List AlignmentResult) :
    (feed_candidates cands).map (fun e => e.alignment_score)
      = ((cands.map (fun e => e.alignment_score)).insertionSort
          (fun (x y : ℚ) => x ≥ y)).take (min 5 cands.length) ∧
    ∀ e ∈ feed_candidates cands, e ∈ cands := by
  refine ⟨?_, fun e he => feed_candidates_subset cands e he⟩
  have hperm : (cands.reverse.map (fun e => e.alignment_score)).insertionSort
        (fun (x y : ℚ) => x ≥ y)
      = (cands.map (fun e => e.alignment_score)).insertionSort (fun (x y : ℚ) => x ≥ y) := by
    apply List.eq_of_perm_of_sorted (r := fun (x y : ℚ) => x ≥ y)
    · exact ((List.perm_insertionSort _ _).trans
        ((List.reverse_perm cands).map _)).trans (List.perm_insertionSort _ _).symm
    · exact List.sorted_insertionSort _ _
    · exact List.sorted_insertionSort _ _
  rw [feed_candidates_eq, List.map_take, map_score_insertionSort, hperm]
  rcases Nat.le_total 5 cands.length with h | h
  · rw [min_eq_left h]
  · rw [min_eq_right h]
    have hl : ((cands.map (fun e => e.alignment_score)).insertionSort
        (fun (x y : ℚ) => x ≥ y)).length = cands.length := by
      rw [List.length_insertionSort, List.length_map]
    rw [List.take_of_length_le (by omega), List.take_of_length_le (by omega)]

/-- C17 (the code at the failing input): the vector holds 5 entries, the lowest scoring 2; a
candidate that also scores 2 is inserted and the earlier entry `r4` is dropped. -/
theorem update_top_alignments_tie_evicts :
    update_top_alignments
        [result_with 9 "r0", result_with 7 "r1", result_with 7 "r2", result_with 5 "r3",
          result_with 2 "r4"] (result_with 2 "new")
      = [result_with 9 "r0", result_with 7 "r1", result_with 7 "r2", result_with 5 "r3",
          result_with 2 "new"] := by
  decide!

/-- C18 (counterexample): the candidates scoring 9, 2, 7, 7, 5 offered as `ref0`, `ref1`,
`ref2`, `ref3`, `ref6` end as `ref0`, `ref3`, `ref2`, `ref6`, `ref1`: of the two entries
scoring 7 the later one comes first. -/
theorem feed_candidates_ties_latest_first :
    feed_candidates
        [result_with 9 "ref0", result_with 2 "ref1", result_with 7 "ref2",
          result_with 7 "ref3", result_with 5 "ref6"]
      = [result_with 9 "ref0", result_with 7 "ref3", result_with 7 "ref2",
          result_with 5 "ref6", result_with 2 "ref1"] := by
  decide!

/-- C18 (amended): for every sequence of candidates offered to `update_top_alignments` from
the empty vector, entries of the output that have equal scores appear in the reverse of the
order in which they were offered: if `a` precedes `b` in the output and their scores are
equal, then `b` was offered before `a`. -/
theorem feed_candidates_ties_reverse_order (cands : List AlignmentResult)
    (a b : AlignmentResult) (hab : a.alignment_score = b.alignment_score)
    (h : [a, b].Sublist (feed_candidates cands)) : [b, a].Sublist cands := by
  rw [feed_candidates_eq] at h
  have h1 : [a, b].Sublist (cands.reverse.insertionSort scoreGe) :=
    h.trans (List.take_sublist _ _)
  have h2 := h1.filter (fun e => decide (e.alignment_score = b.alignment_score))
  rw [filter_insertionSort] at h2
  have h3 : [a, b].filter (fun e => decide (e.alignment_score = b.alignment_score)) = [a, b] := by
    simp [hab]
  rw [h3] at h2
  have h4 : [a, b].Sublist cands.reverse := h2.trans (List.filter_sublist _)
  have h5 := List.reverse_sublist.mpr h4
  simpa using h5

theorem feed_candidates_ties_reverse_order_witness :
    [result_with 7 "ref2", result_with 7 "ref3"].Sublist
      [result_with 9 "ref0", result_with 2 "ref1", result_with 7 "ref2",
        result_with 7 "ref3", result_with 5 "ref6"] :=
  feed_candidates_ties_reverse_order
    [result_with 9 "ref0", result_with 2 "ref1", result_with 7 "ref2",
      result_with 7 "ref3", result_with 5 "ref6"]
    (result_with 7 "ref3") (result_with 7 "ref2") (by decide!) (by decide!)

end ApproximateAlignment

namespace AlignmentUtils

/-! ## The cost-model file -/

theorem read_bytes_append (bs rest : Bytes) :
    read_bytes bs.length (bs ++ rest) = some (bs, rest) := by
  unfold read_bytes
  rw [if_pos (by simp)]
  simp

theorem uint32_of_bytes_of_uint32 (n : Nat) (hn : n < 4294967296) :
    uint32_of_bytes (bytes_of_uint32 n) = n := by
  simp only [uint32_of_bytes, bytes_of_uint32, List.getD_cons_zero, List.getD_cons_succ]
  omega

theorem read_uint32_append (n : Nat) (hn : n < 4294967296) (rest : Bytes) :
    read_uint32 (bytes_of_uint32 n ++ rest) = some (n, rest) := by
  unfold read_uint32
  have h := read_bytes_append (bytes_of_uint32 n) rest
  have hl : (bytes_of_uint32 n).length = 4 := rfl
  rw [hl] at h
  rw [h]
  simp only []
  rw [uint32_of_bytes_of_uint32 n hn]

theorem read_float_append (bytes_of_float : ℚ → Bytes) (v : ℚ)
    (hl : (bytes_of_float v).length = 4)
    (hv : float_of_bits (uint32_of_bytes (bytes_of_float v)) = v) (rest : Bytes) :
    read_float (bytes_of_float v ++ rest) = some (v, rest) := by
  unfold read_float
  have h := read_bytes_append (bytes_of_float v) rest
  rw [hl] at h
  rw [h]
  simp only []
  rw [hv]

theorem map_set_of_not_mem {β : Type} (k : Char) (v : β) :
    ∀ m : List (Char × β), k ∉ m.map Prod.fst → map_set m k v = m ++ [(k, v)] := by
  intro m
  induction m with
  | nil => intro _; rfl
  | cons e m ih =>
    intro h
    obtain ⟨k', v'⟩ := e
    simp only [List.map_cons, List.mem_cons, not_or] at h
    have hne : ¬ k' = k := fun e => h.1 e.symm
    simp only [map_set, if_neg hne, List.cons_append]
    rw [ih h.2]

theorem foldl_map_set_nodup {β : Type} :
    ∀ (l m : List (Char × β)), ((m ++ l).map Prod.fst).Nodup →
      l.foldl (fun (acc : List (Char × β)) (p : Char × β) => map_set acc p.1 p.2) m = m ++ l := by
  intro l
  induction l with
  | nil => intro m _; simp
  | cons p l ih =>
    intro m h
    have hp : p.1 ∉ m.map Prod.fst := by
      intro hmem
      rw [List.map_append, List.map_cons] at h
      have := (List.nodup_append.mp h).2.2
      exact this hmem (List.mem_cons_self _ _)
    simp only [List.foldl_cons]
    rw [map_set_of_not_mem p.1 p.2 m hp, ih (m ++ [(p.1, p.2)]) (by simpa using h)]
    simp

theorem read_inner_entries_serialize (bytes_of_float : ℚ → Bytes) :
    ∀ (inner : List (Char × ℚ)) (m : List (Char × ℚ)) (rest : Bytes),
      (∀ p ∈ inner, p.1.toNat < 256 ∧ (bytes_of_float p.2).length = 4 ∧
        float_of_bits (uint32_of_bytes (bytes_of_float p.2)) = p.2) →
      read_inner_entries inner.length m (serialize_inner bytes_of_float inner ++ rest)
        = some (inner.foldl
            (fun (acc : List (Char × ℚ)) (p : Char × ℚ) => map_set acc p.1 p.2) m, rest) := by
  intro inner
  induction inner with
  | nil => intro m rest _; rfl
  | cons p inner ih =>
    intro m rest h
    obtain ⟨_, hl, hv⟩ := h p (List.mem_cons_self _ _)
    have e : serialize_inner bytes_of_float (p :: inner) ++ rest
        = bytes_of_uint32 1 ++ ([p.1.toNat] ++ (bytes_of_float p.2 ++
            (serialize_inner bytes_of_float inner ++ rest))) := by
      simp [serialize_inner, List.append_assoc]
    have hrb := read_bytes_append [p.1.toNat] (bytes_of_float p.2 ++
            (serialize_inner bytes_of_float inner ++ rest))
    simp only [List.length_singleton] at hrb
    rw [e]
    simp only [List.length_cons, read_inner_entries]
    rw [read_uint32_append 1 (by omega)]
    simp only []
    rw [hrb]
    simp only []
    rw [read_float_append bytes_of_float p.2 hl hv]
    simp only [List.getD_cons_zero, Char.ofNat_toNat, List.foldl_cons]
    exact ih _ rest (fun q hq => h q (List.mem_cons_of_mem _ hq))


theorem keys_length_le {β : Type} (l : List (Char × β)) (hn : (l.map Prod.fst).Nodup)
    (hb : ∀ p ∈ l, p.1.toNat < 256) : l.length ≤ 256 := by
  have hinj : Function.Injective Char.toNat :=
    Function.LeftInverse.injective Char.ofNat_toNat
  have hnd : ((l.map Prod.fst).map Char.toNat).Nodup := hn.map hinj
  have hsub : (l.map Prod.fst).map Char.toNat ⊆ List.range 256 := by
    intro n hmem
    simp only [List.map_map, List.mem_map, Function.comp] at hmem
    obtain ⟨p, hp, rfl⟩ := hmem
    exact List.mem_range.mpr (hb p hp)
  have := (List.subperm_of_subset hnd hsub).length_le
  simpa using this

theorem read_outer_entries_serialize (bytes_of_float : ℚ → Bytes) :
    ∀ (cm : CostMap) (m : CostMap) (rest : Bytes),
      (∀ e ∈ cm, e.1.toNat < 256 ∧ (e.2.map Prod.fst).Nodup ∧
        ∀ p ∈ e.2, p.1.toNat < 256 ∧ (bytes_of_float p.2).length = 4 ∧
          float_of_bits (uint32_of_bytes (bytes_of_float p.2)) = p.2) →
      read_outer_entries cm.length m (serialize_outer bytes_of_float cm ++ rest)
        = some (cm.foldl
            (fun (acc : CostMap) (e : Char × List (Char × ℚ)) => map_set acc e.1 e.2) m,
            rest) := by
  intro cm
  induction cm with
  | nil => intro m rest _; rfl
  | cons e cm ih =>
    intro m rest h
    obtain ⟨_, hnd, hin⟩ := h e (List.mem_cons_self _ _)
    have hlen : e.2.length < 4294967296 := by
      have := keys_length_le e.2 hnd (fun p hp => (hin p hp).1)
      omega
    have eq1 : serialize_outer bytes_of_float (e :: cm) ++ rest
        = bytes_of_uint32 1 ++ ([e.1.toNat] ++ (bytes_of_uint32 e.2.length ++
            (serialize_inner bytes_of_float e.2 ++
              (serialize_outer bytes_of_float cm ++ rest)))) := by
      simp [serialize_outer, List.append_assoc]
    have hrb := read_bytes_append [e.1.toNat] (bytes_of_uint32 e.2.length ++
            (serialize_inner bytes_of_float e.2 ++
              (serialize_outer bytes_of_float cm ++ rest)))
    simp only [List.length_singleton] at hrb
    have hinner := read_inner_entries_serialize bytes_of_float e.2 []
      (serialize_outer bytes_of_float cm ++ rest) hin
    rw [foldl_map_set_nodup e.2 [] (by simpa using hnd)] at hinner
    rw [eq1]
    simp only [List.length_cons, read_outer_entries]
    rw [read_uint32_append 1 (by omega)]
    simp only []
    rw [hrb]
    simp only []
    rw [read_uint32_append e.2.length hlen]
    simp only []
    rw [hinner]
    simp only [List.nil_append, List.getD_cons_zero, Char.ofNat_toNat, List.foldl_cons]
    exact ih _ rest (fun q hq => h q (List.mem_cons_of_mem _ hq))

/-- Parsing the serialisation of a cost model gives the cost model back. -/
theorem parse_serialize_cost_map (bytes_of_float : ℚ → Bytes) (cm : CostMap)
    (hkeys : (cm.map Prod.fst).Nodup ∧ ∀ e ∈ cm, (e.2.map Prod.fst).Nodup)
    (hbyte : ∀ e ∈ cm, e.1.toNat < 256 ∧ ∀ p ∈ e.2, p.1.toNat < 256)
    (hfloat : ∀ e ∈ cm, ∀ p ∈ e.2, (bytes_of_float p.2).length = 4 ∧
      float_of_bits (uint32_of_bytes (bytes_of_float p.2)) = p.2) :
    parse_cost_map (serialize_cost_map bytes_of_float cm) = some cm := by
  have hlen : cm.length < 4294967296 := by
    have := keys_length_le cm hkeys.1 (fun e he => (hbyte e he).1)
    omega
  have houter := read_outer_entries_serialize bytes_of_float cm [] []
    (fun e he => ⟨(hbyte e he).1, hkeys.2 e he,
      fun p hp => ⟨(hbyte e he).2 p hp, hfloat e he p hp⟩⟩)
  rw [foldl_map_set_nodup cm [] (by simpa using hkeys.1), List.append_nil] at houter
  unfold parse_cost_map serialize_cost_map
  rw [read_uint32_append cm.length hlen]
  simp only []
  rw [houter]
  simp

/-! ## Claims on the cost-model file -/

/-- C19: round trip. For every cost model whose keys are single-byte symbols (each key once,
as in a map) and whose values are binary32 numbers (`bytes_of_float` gives 4 bytes that decode
to the value), the file that holds its serialisation in the layout of §6 is loaded by
`load_cost_map` as exactly the same mapping, so every lookup, the fallback for absent pairs
included, gives the same result as on the original. -/
theorem load_cost_map_round_trip (bytes_of_float : ℚ → Bytes) (cm : CostMap)
    (fs : String → Option Bytes) (filename : String)
    (hkeys : (cm.map Prod.fst).Nodup ∧ ∀ e ∈ cm, (e.2.map Prod.fst).Nodup)
    (hbyte : ∀ e ∈ cm, e.1.toNat < 256 ∧ ∀ p ∈ e.2, p.1.toNat < 256)
    (hfloat : ∀ e ∈ cm, ∀ p ∈ e.2, (bytes_of_float p.2).length = 4 ∧
      float_of_bits (uint32_of_bytes (bytes_of_float p.2)) = p.2)
    (hfile : fs filename = some (serialize_cost_map bytes_of_float cm)) :
    load_cost_map fs filename = Except.ok (some cm) ∧
    ∀ loaded, load_cost_map fs filename = Except.ok (some loaded) →
      ∀ (a b : Char) (g : ℚ) (gi : Int),
        GlobalAlignment.get_alignment_score a b loaded g
          = GlobalAlignment.get_alignment_score a b cm g ∧
        ApproximateAlignment.get_alignment_score a b loaded gi
          = ApproximateAlignment.get_alignment_score a b cm gi := by
  have hload : load_cost_map fs filename = Except.ok (some cm) := by
    unfold load_cost_map
    rw [hfile]
    simp only []
    rw [parse_serialize_cost_map bytes_of_float cm hkeys hbyte hfloat]
  refine ⟨hload, ?_⟩
  intro loaded hl a b g gi
  rw [hload] at hl
  have : cm = loaded := Option.some.inj (Except.ok.inj hl)
  rw [this]
  exact ⟨rfl, rfl⟩

theorem load_cost_map_round_trip_witness :
    load_cost_map
        (fun name => if name = "cost_map.bin" then
          some (serialize_cost_map sample_bytes_of_float sampleCostMap) else none)
        "cost_map.bin" = Except.ok (some sampleCostMap) ∧
    ∀ loaded,
      load_cost_map
        (fun name => if name = "cost_map.bin" then
          some (serialize_cost_map sample_bytes_of_float sampleCostMap) else none)
        "cost_map.bin" = Except.ok (some loaded) →
      ∀ (a b : Char) (g : ℚ) (gi : Int),
        GlobalAlignment.get_alignment_score a b loaded g
          = GlobalAlignment.get_alignment_score a b sampleCostMap g ∧
        ApproximateAlignment.get_alignment_score a b loaded gi
          = ApproximateAlignment.get_alignment_score a b sampleCostMap gi :=
  load_cost_map_round_trip sample_bytes_of_float sampleCostMap
    (fun name => if name = "cost_map.bin" then
      some (serialize_cost_map sample_bytes_of_float sampleCostMap) else none)
    "cost_map.bin" (by decide!) (by decide!) (by decide!) (by decide!)

/-- C20: loading a cost-model file that cannot be opened fails with the error
`Cannot open file: <name>` instead of returning a map, and in both programs the load comes
before the alignment routine: with valid arguments and the cost-model file missing, each
`main` ends with that error and computes no alignment. -/
theorem cost_map_load_failure (fs : String → Option Bytes) (base_dir filename : String)
    (argv_global argv_approximate : List String) (query : Sequence)
    (hmissing : fs filename = none)
    (hargs_global : argv_global.length = 5 ∧ argv_global.getD 3 "" = "-f" ∧
      (argv_global.getD 4 "" = "chromatic" ∨ argv_global.getD 4 "" = "diatonic" ∨
        argv_global.getD 4 "" = "rhythmic"))
    (hfile_global : fs (base_dir ++ "/../scores/indexes/global_alignment/"
      ++ argv_global.getD 4 "" ++ "_cost_map.bin") = none)
    (hargs_approximate : CliUtils.validate_args argv_approximate = true)
    (hquery : query ≠ "ERROR".toList)
    (hfile_approximate :
      fs (get_cost_map_file base_dir (argv_approximate.getD 1 "")) = none) :
    load_cost_map fs filename = Except.error ("Cannot open file: " ++ filename) ∧
    GlobalAlignment.main argv_global base_dir fs
      = Except.error ("Cannot open file: " ++ (base_dir ++ "/../scores/indexes/global_alignment/"
          ++ argv_global.getD 4 "" ++ "_cost_map.bin")) ∧
    ApproximateAlignment.main argv_approximate base_dir fs query
      = Except.error ("Cannot open file: "
          ++ get_cost_map_file base_dir (argv_approximate.getD 1 "")) := by
  refine ⟨?_, ?_, ?_⟩
  · unfold load_cost_map
    rw [hmissing]
  · obtain ⟨h5, hf, hfeat⟩ := hargs_global
    have hcond : ¬ (argv_global.length ≠ 5 ∨ argv_global.getD 3 "" ≠ "-f") := by
      intro h
      rcases h with h | h
      · exact h h5
      · exact h hf
    have hfe : ¬ (argv_global.getD 4 "" ≠ "chromatic" ∧ argv_global.getD 4 "" ≠ "diatonic" ∧
        argv_global.getD 4 "" ≠ "rhythmic") := by
      intro h
      rcases hfeat with e | e | e
      · exact h.1 e
      · exact h.2.1 e
      · exact h.2.2 e
    unfold GlobalAlignment.main
    rw [if_neg hcond]
    simp only []
    rw [if_neg hfe]
    unfold load_cost_map
    rw [hfile_global]
  · unfold ApproximateAlignment.main
    rw [if_neg (by rw [hargs_approximate]; exact Bool.noConfusion)]
    simp only []
    rw [if_neg hquery]
    unfold load_cost_map
    rw [hfile_approximate]

theorem cost_map_load_failure_witness :
    load_cost_map (fun _ => none) "missing.bin"
      = Except.error ("Cannot open file: " ++ "missing.bin") ∧
    GlobalAlignment.main ["prog", "ab", "ba", "-f", "chromatic"] "/opt/bin" (fun _ => none)
      = Except.error ("Cannot open file: " ++ ("/opt/bin" ++ "/../scores/indexes/global_alignment/"
          ++ ["prog", "ab", "ba", "-f", "chromatic"].getD 4 "" ++ "_cost_map.bin")) ∧
    ApproximateAlignment.main ["prog", "-c", "query.wav"] "/opt/bin" (fun _ => none)
        ['a', 'b']
      = Except.error ("Cannot open file: "
          ++ get_cost_map_file "/opt/bin" (["prog", "-c", "query.wav"].getD 1 "")) :=
  cost_map_load_failure (fun _ => none) "/opt/bin" "missing.bin"
    ["prog", "ab", "ba", "-f", "chromatic"] ["prog", "-c", "query.wav"] ['a', 'b']
    rfl (by decide) rfl (by decide) (by decide) rfl

end AlignmentUtils

namespace GlobalAlignment

/-! ## The empty cost table and the values of the distance -/

/-- C28: `global_alignment` returns a whole number for every pair of sequences, cost table
(fractional costs included) and gap cost: every inner entry of the matrix is the `int` result
of `min_of_three` on the three candidates converted to `int` (truncated toward zero), and the
borders are the whole numbers `i` and `j`. With `cost(a, b) = 1/2` and gap cost 1,
`global_alignment("a", "b") = 0`. -/
theorem global_alignment_integer_valued (A B : Sequence) (cm : CostMap) (g : ℚ) :
    (∃ z : Int, global_alignment A B cm g = (z : ℚ)) ∧
    (global_alignment A B cm g = dpCell A B cm g A.length B.length ∧
      ∀ i j, dpCell A B cm g (i + 1) (j + 1) =
        ((min_of_three
          (truncToInt (dpCell A B cm g i j +
            get_alignment_score (A.getD i default) (B.getD j default) cm g))
          (truncToInt (dpCell A B cm g i (j + 1) + g))
          (truncToInt (dpCell A B cm g (i + 1) j + g)) : Int) : ℚ)) ∧
    (get_alignment_score 'a' 'b' halfCostMap 1 = 1 / 2 ∧
      global_alignment ['a'] ['b'] halfCostMap 1 = 0) := by
  refine ⟨?_, ⟨global_alignment_eq_dpCell A B cm g, fun i j => rfl⟩, by decide!, by decide!⟩
  rw [global_alignment_eq_dpCell]
  exact dpCell_int A B cm g A.length B.length

end GlobalAlignment

namespace FileOperations

/-! ## Loading a text file -/

theorem find_last_not_of_lt (s : List Char) (c : Char) (p : Nat)
    (h : find_last_not_of s c = some p) : p < s.length := by
  unfold find_last_not_of at h
  have := List.mem_of_find?_eq_some h
  simpa using this

theorem find?_congr_of_mem {p q : Nat → Bool} :
    ∀ l : List Nat, (∀ x ∈ l, p x = q x) → l.find? p = l.find? q := by
  intro l
  induction l with
  | nil => intro _; rfl
  | cons a l ih =>
    intro h
    rw [List.find?_cons, List.find?_cons, h a (List.mem_cons_self _ _),
      ih (fun x hx => h x (List.mem_cons_of_mem _ hx))]

theorem find_last_not_of_concat (s : List Char) (a c : Char) :
    find_last_not_of (s ++ [a]) c =
      if a = c then find_last_not_of s c else some s.length := by
  unfold find_last_not_of
  rw [List.length_append, List.length_singleton, List.range_succ, List.reverse_append,
    List.reverse_singleton, List.singleton_append, List.find?_cons]
  have hlast : (s ++ [a]).getD s.length default = a := by simp
  by_cases hac : a = c
  · have hfalse : ((s ++ [a]).getD s.length default != c) = false := by
      rw [hlast]; simp [hac]
    rw [hfalse, if_pos hac]
    apply find?_congr_of_mem
    intro i hi
    have hi2 : i < s.length := by simpa using hi
    have : (s ++ [a]).getD i default = s.getD i default := by
      rw [List.getD_eq_getElem?_getD, List.getD_eq_getElem?_getD,
        List.getElem?_append_left hi2]
    rw [this]
  · have htrue : ((s ++ [a]).getD s.length default != c) = true := by
      rw [hlast]; simpa using hac
    rw [htrue, if_neg hac]

/-- Erasing from the position after the last character that is not `c` removes exactly the
trailing run of `c`. -/
theorem take_find_last_not_of (c : Char) :
    ∀ s : List Char,
      s.take (match find_last_not_of s c with
        | none => 0
        | some p => p + 1) = s.rdropWhile (fun (x : Char) => x == c) := by
  intro s
  induction s using List.reverseRecOn with
  | nil => rfl
  | append_singleton s a ih =>
    rw [find_last_not_of_concat]
    by_cases hac : a = c
    · rw [if_pos hac, List.rdropWhile_concat_pos _ _ _ (by simpa using hac), ← ih]
      cases hf : find_last_not_of s c with
      | none => simp
      | some p =>
        have hp := find_last_not_of_lt s c p hf
        simp only
        rw [List.take_append_of_le_length (by omega)]
    · rw [if_neg hac, List.rdropWhile_concat_neg _ _ _ (by simpa using hac)]
      simp

theorem rdropWhile_getLast (c : Char) (s : List Char) :
    (s.rdropWhile (fun (x : Char) => x == c)).getLast? ≠ some c := by
  induction s using List.reverseRecOn with
  | nil => simp
  | append_singleton s a ih =>
    by_cases hac : a = c
    · rw [List.rdropWhile_concat_pos _ _ _ (by simpa using hac)]
      exact ih
    · rw [List.rdropWhile_concat_neg _ _ _ (by simpa using hac)]
      rw [List.getLast?_concat]
      intro h
      exact hac (Option.some.inj h)

theorem rdropWhile_eq_nil_of_all (c : Char) (s : List Char) (h : ∀ x ∈ s, x = c) :
    s.rdropWhile (fun (x : Char) => x == c) = [] := by
  rw [List.rdropWhile_eq_nil_iff]
  intro x hx
  simpa using h x hx

theorem load_file_eq (fs : String → Option AlignmentUtils.Bytes) (filename : String) :
    load_file fs filename =
      strip_trailing_newlines
        (match fs filename with
          | none => []
          | some bytes => bytes.map Char.ofNat) := by
  unfold load_file strip_trailing_newlines
  exact take_find_last_not_of '\n' _

/-- C26: `load_file` returns the empty string when the file cannot be opened, and otherwise
the content `c` of the file with all its trailing `'\n'` characters removed: the result is a
prefix of `c`, what was cut off consists of newlines only, the result does not end in `'\n'`,
and it is empty when `c` consists of newlines only. -/
theorem load_file_trims_trailing_newlines (fs : String → Option AlignmentUtils.Bytes)
    (filename : String) :
    (fs filename = none → load_file fs filename = []) ∧
    (∀ bytes, fs filename = some bytes →
      load_file fs filename = strip_trailing_newlines (bytes.map Char.ofNat) ∧
      (∃ n, bytes.map Char.ofNat = load_file fs filename ++ List.replicate n '\n') ∧
      (load_file fs filename).getLast? ≠ some '\n' ∧
      ((∀ x ∈ bytes.map Char.ofNat, x = '\n') → load_file fs filename = [])) := by
  constructor
  · intro h
    rw [load_file_eq, h]
    rfl
  · intro bytes h
    have e : load_file fs filename = strip_trailing_newlines (bytes.map Char.ofNat) := by
      rw [load_file_eq, h]
    refine ⟨e, ?_, ?_, ?_⟩
    · rw [e]
      unfold strip_trailing_newlines
      generalize bytes.map Char.ofNat = c
      induction c using List.reverseRecOn with
      | nil => exact ⟨0, rfl⟩
      | append_singleton s a ih =>
        by_cases hac : a = '\n'
        · rw [List.rdropWhile_concat_pos _ _ _ (by simpa using hac)]
          obtain ⟨n, hn⟩ := ih
          refine ⟨n + 1, ?_⟩
          rw [List.replicate_succ', ← List.append_assoc, ← hn, hac]
        · rw [List.rdropWhile_concat_neg _ _ _ (by simpa using hac)]
          exact ⟨0, by simp⟩
    · rw [e]
      exact rdropWhile_getLast '\n' _
    · intro hall
      rw [e]
      exact rdropWhile_eq_nil_of_all '\n' _ hall

theorem load_file_trims_trailing_newlines_witness :
    sample_fs "missing.txt" = none ∧ load_file sample_fs "missing.txt" = [] ∧
    sample_fs "q.txt" = some [97, 10, 98, 10, 10] ∧
    load_file sample_fs "q.txt" = ['a', '\n', 'b'] ∧
    (load_file sample_fs "q.txt").getLast? ≠ some '\n' :=
  ⟨by decide, (load_file_trims_trailing_newlines sample_fs "missing.txt").1 (by decide),
    by decide,
    ((load_file_trims_trailing_newlines sample_fs "q.txt").2 [97, 10, 98, 10, 10] (by decide)).1.trans (by decide),
    ((load_file_trims_trailing_newlines sample_fs "q.txt").2 [97, 10, 98, 10, 10] (by decide)).2.2.1⟩

end FileOperations

namespace ApproximateAlignment

/-! ## The states of a pass and the matrix of cells -/

theorem reference_scan_eq_scan_rows (R Q : Sequence) (cm : CostMap) (g : Int)
    (column : List Cell) :
    reference_scan R Q cm g column = scan_rows R Q cm g column R.length := rfl

/-- After `k` rows the buffer holds row `k` of the matrix of cells. -/
theorem scan_rows_column (R Q : Sequence) (cm : CostMap) (g : Int) (column : List Cell)
    (hlen : column.length = Q.length + 1) (k j : Nat) (hj : j ≤ Q.length) :
    (scan_rows R Q cm g column k).column.getD j default = cellAt R Q cm g k j :=
  (row_loop_spec R Q cm g column hlen k).2.1 j hj

theorem scan_rows_length (R Q : Sequence) (cm : CostMap) (g : Int) (column : List Cell)
    (hlen : column.length = Q.length + 1) (k : Nat) :
    (scan_rows R Q cm g column k).column.length = Q.length + 1 :=
  (row_loop_spec R Q cm g column hlen k).1

/-! ## Each reference is scored on its own -/

theorem filterMap_eq_flatMap {α β : Type} (f : α → Option β) :
    ∀ l : List α, l.filterMap f = l.flatMap (fun (x : α) => (f x).toList) := by
  intro l
  induction l with
  | nil => rfl
  | cons a l ih =>
    rw [List.flatMap_cons, ← ih]
    cases h : f a with
    | none => simp [List.filterMap_cons, h]
    | some b => simp [List.filterMap_cons, h]

theorem range_map_getD_eq_zip (scores : List Sequence) (ids : List String)
    (h : ids.length = scores.length) :
    (List.range scores.length).map (fun (i : Nat) => (scores.getD i [], ids.getD i ""))
      = scores.zip ids := by
  apply List.ext_getElem
  · simp [h]
  · intro n h1 h2
    have hn : n < scores.length := by simpa using h1
    have hn2 : n < ids.length := by omega
    simp [List.getElem?_eq_getElem hn, List.getElem?_eq_getElem hn2]

theorem approximate_alignment_singleton_pass (R Q : Sequence) (cm : CostMap) (id : String)
    (g : Int) : approximate_alignment [R] Q cm [id] g = (pass_result R Q cm g id).toList := by
  rw [approximate_alignment_singleton]
  unfold pass_result
  cases emitted_result (reference_scan R Q cm g (List.replicate (Q.length + 1) default)) id with
  | none => rfl
  | some r => rfl

theorem emitted_candidates_eq_single (scores : List Sequence) (Q : Sequence) (cm : CostMap)
    (ids : List String) (g : Int) (h : ids.length = scores.length) :
    emitted_candidates scores Q cm ids g = single_reference_candidates scores Q cm ids g := by
  unfold emitted_candidates single_reference_candidates
  rw [← range_map_getD_eq_zip scores ids h, List.flatMap_map, filterMap_eq_flatMap]
  apply congrArg
  funext i
  exact (approximate_alignment_singleton_pass _ Q cm _ g).symm

/-- C21: for every corpus with as many identifiers as references, the output of
`approximate_alignment` on the corpus is the fold of `update_top_alignments`, in corpus order
from the empty vector, over the outputs of `approximate_alignment` on the single-reference
corpora `([scores[i]], [score_ids[i]])`: the result of a reference does not depend on the
references scanned before it. -/
theorem approximate_alignment_eq_fold_single (scores : List Sequence) (Q : Sequence)
    (cm : CostMap) (ids : List String) (g : Int) (h : ids.length = scores.length) :
    approximate_alignment scores Q cm ids g =
      (single_reference_candidates scores Q cm ids g).foldl update_top_alignments [] := by
  rw [approximate_alignment_eq_feed, emitted_candidates_eq_single scores Q cm ids g h]
  rfl

theorem approximate_alignment_eq_fold_single_witness :
    (["r0", "r1", "r2"] : List String).length
      = ([['x', 'a', 'b'], ['x'], ['b', 'a']] : List Sequence).length ∧
    approximate_alignment [['x', 'a', 'b'], ['x'], ['b', 'a']] ['a', 'b'] unitMatchMap
        ["r0", "r1", "r2"] (-1) =
      (single_reference_candidates [['x', 'a', 'b'], ['x'], ['b', 'a']] ['a', 'b'] unitMatchMap
        ["r0", "r1", "r2"] (-1)).foldl update_top_alignments [] :=
  ⟨rfl, approximate_alignment_eq_fold_single [['x', 'a', 'b'], ['x'], ['b', 'a']] ['a', 'b']
    unitMatchMap ["r0", "r1", "r2"] (-1) rfl⟩

/-! ## The recurrence of a cell -/

theorem choose_cell_origin (d l u : Cell) (x y z a g : Int) (hd : d.score = (x : ℚ))
    (hl : l.score = (y : ℚ)) (hu : u.score = (z : ℚ)) :
    (choose_cell d l u a g).origin =
      if y + g ≤ x + a ∧ z + g ≤ x + a then d.origin
      else if x + a ≤ y + g ∧ z + g ≤ y + g then l.origin
      else u.origin := by
  unfold choose_cell Cell.origin
  simp only [hd, hl, hu, truncToInt_add_intCast, ge_iff_le]
  split_ifs <;> rfl

/-- C22: for every cell `(i, j)` with `i, j ≥ 1` the new score is the maximum of the diagonal,
insertion and deletion candidates (the substitution score being the `int` the code reads), and
the origin pair is that of the diagonal predecessor when the diagonal attains the maximum,
otherwise that of the insertion predecessor when the insertion attains it, otherwise that of
the deletion predecessor; the cell is what the rolling column holds at index `j` after row
`i`. -/
theorem cell_recurrence_tie_break (R Q : Sequence) (cm : CostMap) (g : Int) (i j : Nat) :
    (∀ column : List Cell, column.length = Q.length + 1 → j + 1 ≤ Q.length →
      (scan_rows R Q cm g column (i + 1)).column.getD (j + 1) default
        = cellAt R Q cm g (i + 1) (j + 1)) ∧
    (cellAt R Q cm g (i + 1) (j + 1)).score =
      max (max (diagonal_at R Q cm g (i + 1) (j + 1)) (insertion_at R Q cm g (i + 1) (j + 1)))
        (deletion_at R Q cm g (i + 1) (j + 1)) ∧
    (cellAt R Q cm g (i + 1) (j + 1)).origin =
      if insertion_at R Q cm g (i + 1) (j + 1) ≤ diagonal_at R Q cm g (i + 1) (j + 1) ∧
          deletion_at R Q cm g (i + 1) (j + 1) ≤ diagonal_at R Q cm g (i + 1) (j + 1) then
        (cellAt R Q cm g i j).origin
      else if diagonal_at R Q cm g (i + 1) (j + 1) ≤ insertion_at R Q cm g (i + 1) (j + 1) ∧
          deletion_at R Q cm g (i + 1) (j + 1) ≤ insertion_at R Q cm g (i + 1) (j + 1) then
        (cellAt R Q cm g (i + 1) j).origin
      else (cellAt R Q cm g i (j + 1)).origin := by
  refine ⟨fun column hlen hj => scan_rows_column R Q cm g column hlen (i + 1) (j + 1) hj, ?_, ?_⟩
  · rw [cellAt_score, scoreAt_succ_succ]
    unfold diagonal_at insertion_at deletion_at
    simp only [Nat.add_sub_cancel, cellAt_score]
    have : align_score_at R Q cm g (i + 1) (j + 1) =
        truncToInt (get_alignment_score (R.getD i default) (Q.getD j default) cm g) := rfl
    rw [← this]
    push_cast
    rfl
  · rw [cellAt_succ_succ, choose_cell_origin _ _ _ _ _ _ _ _ (cellAt_score R Q cm g i j)
      (cellAt_score R Q cm g (i + 1) j) (cellAt_score R Q cm g i (j + 1))]
    unfold diagonal_at insertion_at deletion_at
    simp only [Nat.add_sub_cancel, cellAt_score]
    have : align_score_at R Q cm g (i + 1) (j + 1) =
        truncToInt (get_alignment_score (R.getD i default) (Q.getD j default) cm g) := rfl
    rw [← this]
    have c1 : ((scoreAt R Q cm g (i + 1) j : ℚ) + (g : ℚ)
        ≤ (scoreAt R Q cm g i j : ℚ) + (align_score_at R Q cm g (i + 1) (j + 1) : ℚ))
        ↔ (scoreAt R Q cm g (i + 1) j + g
          ≤ scoreAt R Q cm g i j + align_score_at R Q cm g (i + 1) (j + 1)) := by norm_cast
    have c2 : ((scoreAt R Q cm g i (j + 1) : ℚ) + (g : ℚ)
        ≤ (scoreAt R Q cm g i j : ℚ) + (align_score_at R Q cm g (i + 1) (j + 1) : ℚ))
        ↔ (scoreAt R Q cm g i (j + 1) + g
          ≤ scoreAt R Q cm g i j + align_score_at R Q cm g (i + 1) (j + 1)) := by norm_cast
    have c3 : ((scoreAt R Q cm g i j : ℚ) + (align_score_at R Q cm g (i + 1) (j + 1) : ℚ)
        ≤ (scoreAt R Q cm g (i + 1) j : ℚ) + (g : ℚ))
        ↔ (scoreAt R Q cm g i j + align_score_at R Q cm g (i + 1) (j + 1)
          ≤ scoreAt R Q cm g (i + 1) j + g) := by norm_cast
    have c4 : ((scoreAt R Q cm g i (j + 1) : ℚ) + (g : ℚ)
        ≤ (scoreAt R Q cm g (i + 1) j : ℚ) + (g : ℚ))
        ↔ (scoreAt R Q cm g i (j + 1) + g ≤ scoreAt R Q cm g (i + 1) j + g) := by norm_cast
    simp only [c1, c2, c3, c4]

end ApproximateAlignment

namespace ApproximateAlignment

/-! ## The initial column and the whole-number scores -/

theorem mem_approximate_alignment_score (scores : List Sequence) (Q : Sequence) (cm : CostMap)
    (ids : List String) (g : Int) (res : AlignmentResult)
    (h : res ∈ approximate_alignment scores Q cm ids g) :
    ∃ idx, idx < scores.length ∧
      pass_result (scores.getD idx []) Q cm g (ids.getD idx "") = some res := by
  rw [approximate_alignment_eq_feed] at h
  exact mem_emitted_candidates scores Q cm ids g res (feed_candidates_subset _ _ h)

theorem best_score_int (R Q : Sequence) (cm : CostMap) (g : Int) :
    ∃ z : Int, best_score R Q cm g = (z : ℚ) := by
  rcases (best_score_spec R Q cm g).2.2 with h | ⟨i, j, _, _, h⟩
  · exact ⟨0, by rw [h]; simp⟩
  · exact ⟨scoreAt R Q cm g i j, by rw [← h, cellAt_score]⟩

/-- C24: in the local-alignment path the substitution score read from the `float` cost table
is converted to `int` (truncated toward zero) before the three-way choice of the cell: 0.9 and
-0.9 both contribute 0. For every corpus, query and cost table, fractional costs included,
every cell of the rolling column holds a whole number after every row, and every reported
`alignment_score` is a whole number. -/
theorem local_scores_integer_valued (scores : List Sequence) (R Q : Sequence) (cm : CostMap)
    (ids : List String) (g : Int) :
    (∀ (i j : Nat) (st : ScanState),
      (cell_step R Q cm g i st j).column =
        st.column.set j (choose_cell st.prev_diagonal (st.column.getD (j - 1) default)
          (st.column.getD j default)
          (truncToInt (get_alignment_score (R.getD (i - 1) default) (Q.getD (j - 1) default)
            cm g)) g)) ∧
    (get_alignment_score 'a' 'a' fractionalMatchMap g = 9 / 10 ∧
      get_alignment_score 'a' 'b' fractionalMatchMap g = -9 / 10 ∧
      truncToInt (get_alignment_score 'a' 'a' fractionalMatchMap g) = 0 ∧
      truncToInt (get_alignment_score 'a' 'b' fractionalMatchMap g) = 0) ∧
    (∀ (column : List Cell), column.length = Q.length + 1 → ∀ k j, j ≤ Q.length →
      ∃ z : Int, ((scan_rows R Q cm g column k).column.getD j default).score = (z : ℚ)) ∧
    (∀ i j, ∃ z : Int, (cellAt R Q cm g i j).score = (z : ℚ)) ∧
    (∀ res ∈ approximate_alignment scores Q cm ids g, ∃ z : Int, res.alignment_score = (z : ℚ)) := by
  refine ⟨fun i j st => cell_step_column R Q cm g i st j, ?_, ?_, ?_, ?_⟩
  · refine ⟨rfl, rfl, ?_, ?_⟩
    · show truncToInt (9 / 10) = 0
      decide!
    · show truncToInt (-9 / 10) = 0
      decide!
  · intro column hlen k j hj
    rw [scan_rows_column R Q cm g column hlen k j hj]
    exact ⟨_, cellAt_score R Q cm g k j⟩
  · intro i j
    exact ⟨_, cellAt_score R Q cm g i j⟩
  · intro res hres
    obtain ⟨idx, _, hp⟩ := mem_approximate_alignment_score scores Q cm ids g res hres
    rw [pass_result_eq] at hp
    split_ifs at hp with hpos
    obtain ⟨z, hz⟩ := best_score_int (scores.getD idx []) Q cm g
    refine ⟨z, ?_⟩
    rw [← hz, ← Option.some.inj hp]

theorem local_scores_integer_valued_witness :
    approximate_alignment [['a', 'b'], ['a']] ['a', 'b'] fractionalMatchMap ["r0", "r1"] (-1) =
      [{ alignment_score := 1, origin_position := (0, 0), end_position := (1, 1),
         retrieved_score_id := "r0" }] ∧
    ∃ z : Int, (AlignmentResult.mk 1 (0, 0) (1, 1) "r0").alignment_score = (z : ℚ) :=
  ⟨by decide!,
    (local_scores_integer_valued [['a', 'b'], ['a']] [] ['a', 'b'] fractionalMatchMap
      ["r0", "r1"] (-1)).2.2.2.2 _
      (by
        rw [show approximate_alignment [['a', 'b'], ['a']] ['a', 'b'] fractionalMatchMap
          ["r0", "r1"] (-1) =
          [{ alignment_score := 1, origin_position := (0, 0), end_position := (1, 1),
             retrieved_score_id := "r0" }] from by decide!]
        exact List.mem_singleton.mpr rfl)⟩

end ApproximateAlignment

namespace ApproximateAlignment

/-! ## A one-symbol query -/

theorem scan_order_pairwise (q : Nat) :
    ∀ r, (scan_order r q).Pairwise
      (fun (x y : Nat × Nat) => x.1 < y.1 ∨ (x.1 = y.1 ∧ x.2 < y.2)) := by
  intro r
  induction r with
  | zero => simp [scan_order]
  | succ r ih =>
    rw [scan_order_succ, List.pairwise_append]
    refine ⟨ih, ?_, ?_⟩
    · rw [List.pairwise_map]
      exact (List.pairwise_lt_range' 1 q).imp (fun {a b} h => Or.inr ⟨rfl, h⟩)
    · intro x hx y hy
      obtain ⟨j, _, rfl⟩ := List.mem_map.mp hy
      have hx1 := ((mem_scan_order r q x.1 x.2).mp hx).1
      left
      show x.1 < r + 1
      omega

/-- C30: every result of `approximate_alignment` belongs to a reference `idx` of the corpus,
and its end position `(e_r, e_q)` is the first cell, in scan order (reference position
ascending, then query position ascending), that attains the maximum score of the pass over
that reference: the cell `(e_r + 1, e_q + 1)` has the reported score, every cell of the pass has
a score at most the reported one, and every cell at a lexicographically earlier position has a
strictly smaller score. -/
theorem end_position_first_maximum (scores : List Sequence) (Q : Sequence) (cm : CostMap)
    (ids : List String) (g : Int) (res : AlignmentResult)
    (h : res ∈ approximate_alignment scores Q cm ids g) :
    ∃ idx e_r e_q : Nat, idx < scores.length ∧ res.retrieved_score_id = ids.getD idx "" ∧
      res.end_position = ((e_r : Int), (e_q : Int)) ∧
      e_r < (scores.getD idx []).length ∧ e_q < Q.length ∧
      (cellAt (scores.getD idx []) Q cm g (e_r + 1) (e_q + 1)).score = res.alignment_score ∧
      (∀ i j, 1 ≤ i → i ≤ (scores.getD idx []).length → 1 ≤ j → j ≤ Q.length →
        (cellAt (scores.getD idx []) Q cm g i j).score ≤ res.alignment_score) ∧
      (∀ i j, 1 ≤ i → i ≤ (scores.getD idx []).length → 1 ≤ j → j ≤ Q.length →
        (i < e_r + 1 ∨ (i = e_r + 1 ∧ j < e_q + 1)) →
        (cellAt (scores.getD idx []) Q cm g i j).score < res.alignment_score) := by
  obtain ⟨idx, hidx, hp⟩ := mem_approximate_alignment_score scores Q cm ids g res h
  rw [← emitted_result_eq_pass_result _ Q cm g (List.replicate (Q.length + 1) default) _
    (by simp)] at hp
  rcases pass_first_maximum (scores.getD idx []) Q cm g (List.replicate (Q.length + 1) default)
      (ids.getD idx "") (by simp) with ⟨hn, _⟩ |
    ⟨pre, i, j, post, res2, hL, he, hs, hpos, hend, horig, hid, hpre, hpost⟩
  · rw [hn] at hp
    exact absurd hp (by simp)
  · rw [he] at hp
    have hr : res2 = res := Option.some.inj hp
    subst hr
    have hmem : (i, j) ∈ scan_order (scores.getD idx []).length Q.length := by rw [hL]; simp
    have hij := (mem_scan_order _ _ i j).mp hmem
    have ei : i - 1 + 1 = i := by omega
    have ej : j - 1 + 1 = j := by omega
    have hpw := scan_order_pairwise Q.length (scores.getD idx []).length
    rw [hL, List.pairwise_append] at hpw
    refine ⟨idx, i - 1, j - 1, hidx, hid, hend, by omega, by omega, ?_, ?_, ?_⟩
    · rw [ei, ej, hs]
    · intro i2 j2 h1 h2 h3 h4
      have hm : (i2, j2) ∈ scan_order (scores.getD idx []).length Q.length :=
        (mem_scan_order _ _ i2 j2).mpr ⟨⟨h1, h2⟩, ⟨h3, h4⟩⟩
      rw [hL] at hm
      rcases List.mem_append.mp hm with hx | hx
      · exact le_of_lt (hpre _ hx)
      · rcases List.mem_cons.mp hx with hx | hx
        · have e1 : i2 = i := congrArg Prod.fst hx
          have e2 : j2 = j := congrArg Prod.snd hx
          rw [e1, e2, hs]
        · exact hpost _ hx
    · intro i2 j2 h1 h2 h3 h4 hlex
      rw [ei, ej] at hlex
      have hm : (i2, j2) ∈ scan_order (scores.getD idx []).length Q.length :=
        (mem_scan_order _ _ i2 j2).mpr ⟨⟨h1, h2⟩, ⟨h3, h4⟩⟩
      rw [hL] at hm
      rcases List.mem_append.mp hm with hx | hx
      · exact hpre _ hx
      · exfalso
        rcases List.mem_cons.mp hx with hx | hx
        · have e1 : i2 = i := congrArg Prod.fst hx
          have e2 : j2 = j := congrArg Prod.snd hx
          omega
        · have hlt := (List.pairwise_cons.mp hpw.2.1).1 (i2, j2) hx
          simp only at hlt
          omega

theorem end_position_first_maximum_witness :
    ∃ idx e_r e_q : Nat,
      idx < ([['a', 'x', 'b', 'a', 'b']] : List Sequence).length ∧
      (AlignmentResult.mk 2 (0, 0) (2, 1) "r0").retrieved_score_id
        = (["r0"] : List String).getD idx "" ∧
      (AlignmentResult.mk 2 (0, 0) (2, 1) "r0").end_position = ((e_r : Int), (e_q : Int)) ∧
      e_r < (([['a', 'x', 'b', 'a', 'b']] : List Sequence).getD idx []).length ∧
      e_q < (['a', 'b'] : Sequence).length ∧
      (cellAt (([['a', 'x', 'b', 'a', 'b']] : List Sequence).getD idx []) ['a', 'b']
        unitMatchMap 0 (e_r + 1) (e_q + 1)).score
          = (AlignmentResult.mk 2 (0, 0) (2, 1) "r0").alignment_score ∧
      (∀ i j, 1 ≤ i → i ≤ (([['a', 'x', 'b', 'a', 'b']] : List Sequence).getD idx []).length →
        1 ≤ j → j ≤ (['a', 'b'] : Sequence).length →
        (cellAt (([['a', 'x', 'b', 'a', 'b']] : List Sequence).getD idx []) ['a', 'b']
          unitMatchMap 0 i j).score ≤ (AlignmentResult.mk 2 (0, 0) (2, 1) "r0").alignment_score) ∧
      (∀ i j, 1 ≤ i → i ≤ (([['a', 'x', 'b', 'a', 'b']] : List Sequence).getD idx []).length →
        1 ≤ j → j ≤ (['a', 'b'] : Sequence).length →
        (i < e_r + 1 ∨ (i = e_r + 1 ∧ j < e_q + 1)) →
        (cellAt (([['a', 'x', 'b', 'a', 'b']] : List Sequence).getD idx []) ['a', 'b']
          unitMatchMap 0 i j).score < (AlignmentResult.mk 2 (0, 0) (2, 1) "r0").alignment_score) :=
  end_position_first_maximum [['a', 'x', 'b', 'a', 'b']] ['a', 'b'] unitMatchMap ["r0"] 0
    (AlignmentResult.mk 2 (0, 0) (2, 1) "r0")
    (by
      rw [show approximate_alignment [['a', 'x', 'b', 'a', 'b']] ['a', 'b'] unitMatchMap
        ["r0"] 0 = [AlignmentResult.mk 2 (0, 0) (2, 1) "r0"] from by decide!]
      exact List.mem_singleton.mpr rfl)

end ApproximateAlignment

namespace ApproximateAlignment

/-! ## Every subscript stays in range -/

theorem foldlM_eq_some_foldl {σ α : Type} (f : σ → α → σ) (fc : σ → α → Option σ)
    (P : σ → Prop) :
    ∀ (l : List α), (∀ s a, a ∈ l → P s → fc s a = some (f s a) ∧ P (f s a)) →
      ∀ s, P s → l.foldlM fc s = some (l.foldl f s) ∧ P (l.foldl f s) := by
  intro l
  induction l with
  | nil => intro _ s hs; exact ⟨rfl, hs⟩
  | cons a l ih =>
    intro hstep s hs
    obtain ⟨h1, h2⟩ := hstep s a (List.mem_cons_self _ _) hs
    rw [List.foldlM_cons, h1, List.foldl_cons]
    exact ih (fun s b hb hP => hstep s b (List.mem_cons_of_mem _ hb) hP) (f s a) h2

theorem getElem?_eq_some_getD {α : Type} (v : List α) (i : Nat) (d : α) (h : i < v.length) :
    v[i]? = some (v.getD i d) := by
  rw [List.getD_eq_getElem?_getD, List.getElem?_eq_getElem h]
  rfl

theorem set_checked_of_lt {α : Type} (v : List α) (i : Nat) (x : α) (h : i < v.length) :
    set_checked v i x = some (v.set i x) := by
  unfold set_checked
  rw [if_pos h]

theorem cell_step_length (R Q : Sequence) (cm : CostMap) (g : Int) (i : Nat) (st : ScanState)
    (j : Nat) : (cell_step R Q cm g i st j).column.length = st.column.length := by
  rw [cell_step_column, List.length_set]

theorem cell_step_checked_eq (R Q : Sequence) (cm : CostMap) (g : Int) (i : Nat)
    (st : ScanState) (j : Nat) (hi1 : 1 ≤ i) (hi : i ≤ R.length) (hj1 : 1 ≤ j)
    (hj : j ≤ Q.length) (hlen : st.column.length = Q.length + 1) :
    cell_step_checked R Q cm g i st j = some (cell_step R Q cm g i st j) := by
  unfold cell_step_checked cell_step
  rw [getElem?_eq_some_getD st.column j default (by omega),
    getElem?_eq_some_getD R (i - 1) default (by omega),
    getElem?_eq_some_getD Q (j - 1) default (by omega),
    getElem?_eq_some_getD st.column (j - 1) default (by omega)]
  simp only [Option.pure_def, Option.bind_eq_bind, Option.some_bind]
  rw [set_checked_of_lt _ _ _ (by omega)]
  simp only [Option.some_bind]
  split_ifs <;> rfl

theorem row_step_checked_eq (R Q : Sequence) (cm : CostMap) (g : Int) (st : ScanState)
    (i : Nat) (hi1 : 1 ≤ i) (hi : i ≤ R.length) (hlen : st.column.length = Q.length + 1) :
    row_step_checked R Q cm g st i = some (row_step R Q cm g st i) ∧
      (row_step R Q cm g st i).column.length = Q.length + 1 := by
  unfold row_step_checked row_step
  rw [getElem?_eq_some_getD st.column 0 default (by omega)]
  simp only [Option.pure_def, Option.bind_eq_bind, Option.some_bind]
  rw [set_checked_of_lt _ _ _ (by omega)]
  simp only [Option.some_bind]
  exact foldlM_eq_some_foldl (cell_step R Q cm g i) (cell_step_checked R Q cm g i)
    (fun s => s.column.length = Q.length + 1) (List.range' 1 Q.length)
    (by
      intro s j hj hs
      have hj2 := List.mem_range'_1.mp hj
      exact ⟨cell_step_checked_eq R Q cm g i s j hi1 hi hj2.1 (by omega) hs,
        by show (cell_step R Q cm g i s j).column.length = Q.length + 1
           rw [cell_step_length]; exact hs⟩)
    _ (by simp [hlen])

theorem init_column_checked_eq (column : List Cell) (q : Nat) (hlen : column.length = q + 1) :
    init_column_checked column q = some (init_column column q) ∧
      (init_column column q).length = q + 1 := by
  unfold init_column_checked init_column
  rw [set_checked_of_lt _ _ _ (by omega)]
  simp only [Option.pure_def, Option.bind_eq_bind, Option.some_bind]
  exact foldlM_eq_some_foldl
    (fun (col : List Cell) (j : Nat) =>
      col.set j { score := -(j : ℚ), text_origin_pos := 0, query_origin_pos := j - 1 })
    (fun (col : List Cell) (j : Nat) =>
      set_checked col j { score := -(j : ℚ), text_origin_pos := 0, query_origin_pos := j - 1 })
    (fun col => col.length = q + 1) (List.range' 1 q)
    (by
      intro s j hj hs
      have hj2 := List.mem_range'_1.mp hj
      exact ⟨set_checked_of_lt _ _ _ (by omega),
        by show (s.set j _).length = q + 1
           rw [List.length_set]; exact hs⟩)
    _ (by simp [hlen])

theorem reference_scan_checked_eq (R Q : Sequence) (cm : CostMap) (g : Int)
    (column : List Cell) (hlen : column.length = Q.length + 1) :
    reference_scan_checked R Q cm g column = some (reference_scan R Q cm g column) ∧
      (reference_scan R Q cm g column).column.length = Q.length + 1 := by
  unfold reference_scan_checked reference_scan
  obtain ⟨h1, h2⟩ := init_column_checked_eq column Q.length hlen
  rw [h1]
  simp only [Option.pure_def, Option.bind_eq_bind, Option.some_bind]
  exact foldlM_eq_some_foldl (row_step R Q cm g) (row_step_checked R Q cm g)
    (fun s => s.column.length = Q.length + 1) (List.range' 1 R.length)
    (by
      intro s i hi hs
      have hi2 := List.mem_range'_1.mp hi
      exact row_step_checked_eq R Q cm g s i hi2.1 (by omega) hs)
    _ h2

theorem corpus_step_checked_eq (scores : List Sequence) (Q : Sequence) (cm : CostMap)
    (ids : List String) (g : Int) (acc : List AlignmentResult × List Cell) (idx : Nat)
    (h1 : idx < scores.length) (h2 : idx < ids.length) (hlen : acc.2.length = Q.length + 1) :
    corpus_step_checked scores Q cm ids g acc idx = some (corpus_step scores Q cm ids g acc idx) ∧
      (corpus_step scores Q cm ids g acc idx).2.length = Q.length + 1 := by
  unfold corpus_step_checked corpus_step
  obtain ⟨e1, e2⟩ := reference_scan_checked_eq (scores.getD idx []) Q cm g acc.2 hlen
  rw [getElem?_eq_some_getD scores idx [] h1, getElem?_eq_some_getD ids idx "" h2]
  simp only [Option.pure_def, Option.bind_eq_bind, Option.some_bind]
  rw [e1]
  simp only [Option.some_bind]
  cases emitted_result (reference_scan (scores.getD idx []) Q cm g acc.2) (ids.getD idx "") with
  | none => exact ⟨rfl, e2⟩
  | some r => exact ⟨rfl, e2⟩

theorem corpus_fold_checked (scores : List Sequence) (Q : Sequence) (cm : CostMap)
    (ids : List String) (g : Int) (n : Nat) (h1 : n ≤ scores.length) (h2 : n ≤ ids.length) :
    (List.range n).foldlM (corpus_step_checked scores Q cm ids g)
        ([], List.replicate (Q.length + 1) default)
      = some ((List.range n).foldl (corpus_step scores Q cm ids g)
        ([], List.replicate (Q.length + 1) default)) :=
  (foldlM_eq_some_foldl (corpus_step scores Q cm ids g) (corpus_step_checked scores Q cm ids g)
    (fun acc => acc.2.length = Q.length + 1) (List.range n)
    (by
      intro acc idx hidx hacc
      have := List.mem_range.mp hidx
      exact corpus_step_checked_eq scores Q cm ids g acc idx (by omega) (by omega) hacc)
    _ (by simp)).1

theorem foldlM_none_of_step {σ α : Type} (fc : σ → α → Option σ) (a : α) :
    ∀ (l : List α), a ∈ l → (∀ s, fc s a = none) → ∀ s, l.foldlM fc s = none := by
  intro l
  induction l with
  | nil => intro h; simp at h
  | cons b l ih =>
    intro hmem hnone s
    rw [List.foldlM_cons]
    rcases List.mem_cons.mp hmem with h | h
    · subst h
      rw [hnone s]
      rfl
    · cases hb : fc s b with
      | none => rfl
      | some s2 => exact ih h hnone s2

/-- C25: for every corpus whose identifier list has the same length as its reference list,
every query (the empty query included) and every cost table, the run of
`approximate_alignment` with every subscript checked (`column[0]`, `column[j]`,
`column[j - 1]`, `score_text[i - 1]`, `query[j - 1]`, `scores[score_index]`,
`score_ids[score_index]`) meets no access out of range and returns the vector of the unchecked
function. The function does not compare the two lengths: with fewer identifiers than
references the access `score_ids[score_index]` is out of range. -/
theorem approximate_alignment_in_range (scores : List Sequence) (Q : Sequence) (cm : CostMap)
    (ids : List String) (g : Int) :
    (ids.length = scores.length →
      approximate_alignment_checked scores Q cm ids g
        = some (approximate_alignment scores Q cm ids g)) ∧
    (ids.length < scores.length → approximate_alignment_checked scores Q cm ids g = none) := by
  constructor
  · intro h
    unfold approximate_alignment_checked approximate_alignment
    simp only
    rw [corpus_fold_checked scores Q cm ids g scores.length (le_refl _) (by omega)]
    rfl
  · intro h
    unfold approximate_alignment_checked
    simp only
    rw [foldlM_none_of_step (corpus_step_checked scores Q cm ids g) ids.length
      (List.range scores.length) (List.mem_range.mpr h)
      (by
        intro acc
        unfold corpus_step_checked
        have e : ids[ids.length]? = none := List.getElem?_eq_none (le_refl _)
        rw [e]
        cases scores[ids.length]? <;> rfl)]
    rfl

theorem approximate_alignment_in_range_witness :
    (approximate_alignment_checked [['x', 'a', 'b'], [], ['b', 'a']] ['a', 'b'] unitMatchMap
        ["r0", "r1", "r2"] (-1)
      = some (approximate_alignment [['x', 'a', 'b'], [], ['b', 'a']] ['a', 'b'] unitMatchMap
        ["r0", "r1", "r2"] (-1)) ∧
      approximate_alignment_checked [['x', 'a', 'b'], [], ['b', 'a']] [] unitMatchMap
        ["r0", "r1", "r2"] (-1)
      = some (approximate_alignment [['x', 'a', 'b'], [], ['b', 'a']] [] unitMatchMap
        ["r0", "r1", "r2"] (-1))) ∧
    approximate_alignment_checked [['x', 'a', 'b'], [], ['b', 'a']] ['a', 'b'] unitMatchMap
        ["r0", "r1"] (-1) = none :=
  ⟨⟨(approximate_alignment_in_range [['x', 'a', 'b'], [], ['b', 'a']] ['a', 'b'] unitMatchMap
      ["r0", "r1", "r2"] (-1)).1 rfl,
    (approximate_alignment_in_range [['x', 'a', 'b'], [], ['b', 'a']] [] unitMatchMap
      ["r0", "r1", "r2"] (-1)).1 rfl⟩,
    (approximate_alignment_in_range [['x', 'a', 'b'], [], ['b', 'a']] ['a', 'b'] unitMatchMap
      ["r0", "r1"] (-1)).2 (by decide)⟩

end ApproximateAlignment
